import Mathlib

/-!
# Ribbon normals: parallel transport and end-twist smoothing

A shallow embedding of `src/bundles/atomic/atomic_cpp/ribbon_cpp/normals.cpp`.

Number model.  A C `float`/`double` held in an array or a local variable is a
real number: arithmetic is exact, there is no rounding, overflow or infinity.
The only not-a-number values are the ones the C math library produces outside
the domain of a function (`sqrtf` of a negative number, `acos` outside
`[-1, 1]`); such a result has type `Option ℝ` with `none` standing for NaN,
and `isnan` tests for it.

Memory model.  An N x 3 `float` array is a list of N rows (`V3`); row `i`
is the three floats at offsets `3*i .. 3*i+2`.  A read or write of a row that
is outside its array is undefined behaviour in C and makes the whole call
return `none` here.  The buffers of one call are distinct (no aliasing).

Whether `smooth_twist` leaves the normals alone when the twist is zero or
undefined depends on rounding, overflow and the arithmetic of infinities,
which this number model does not have.  The statements on that (the end
normal already aligned, the undefined twist) are made in the namespace
`RibbonFloat` further down, a second embedding of the same functions in
IEEE 754 arithmetic; only the counterexample with a normal of length 1/2,
which needs none of these effects, is given here.
-/

namespace Ribbon

/-- Three consecutive floats: `float[3]` or one row of an N x 3 array. -/
@[ext] structure V3 where
  x : ℝ
  y : ℝ
  z : ℝ

/-- A value that may be not-a-number: `none` is NaN. -/
abbrev MaybeNaN := Option ℝ

/-- The C function `std::isnan`. -/
def isnan (a : MaybeNaN) : Bool := a.isNone

/-- The C function `sqrtf`: NaN on a negative argument. -/
noncomputable def sqrtf (a : ℝ) : MaybeNaN :=
  if 0 ≤ a then some (Real.sqrt a) else none

/-- The C function `acos`: NaN outside `[-1, 1]`. -/
noncomputable def acos (a : ℝ) : MaybeNaN :=
  if -1 ≤ a ∧ a ≤ 1 then some (Real.arccos a) else none

/-- Read row `i` of an array; `none` when the row is outside the array. -/
def rd (a : List V3) (i : Int) : Option V3 :=
  if 0 ≤ i then a[i.toNat]? else none

/-- Write row `i` of an array; `none` when the row is outside the array. -/
def wr (a : List V3) (i : Int) (v : V3) : Option (List V3) :=
  if 0 ≤ i ∧ i < a.length then some (a.set i.toNat v) else none

/-- The function `inner` (normals.cpp, lines 27-30). -/
def inner (u v : V3) : ℝ :=
  u.x * v.x + u.y * v.y + u.z * v.z

/-- The function `cross` (normals.cpp, lines 32-38). -/
def cross (u v : V3) : V3 :=
  { x := u.y * v.z - u.z * v.y
    y := u.z * v.x - u.x * v.z
    z := u.x * v.y - u.y * v.x }

/-- The function `_rotate_around` (normals.cpp, lines 43-62); the result is the
new content of `v`. -/
def _rotate_around (n : V3) (c s : ℝ) (v : V3) : V3 :=
  let c1 := 1 - c
  let m00 := c + n.x * n.x * c1
  let m01 := n.x * n.y * c1 - s * n.z
  let m02 := n.z * n.x * c1 + s * n.y
  let m10 := n.x * n.y * c1 + s * n.z
  let m11 := c + n.y * n.y * c1
  let m12 := n.z * n.y * c1 - s * n.x
  let m20 := n.x * n.z * c1 - s * n.y
  let m21 := n.y * n.z * c1 + s * n.x
  let m22 := c + n.z * n.z * c1
  let x := m00 * v.x + m01 * v.y + m02 * v.z
  let y := m10 * v.x + m11 * v.y + m12 * v.z
  let z := m20 * v.x + m21 * v.y + m22 * v.z
  { x := x, y := y, z := z }

/-- One pass of the loop body of `_parallel_transport_normals` (lines 77-91):
from the tangents `ti1`, `ti` and the running normal `n` to the new running
normal.  `c` is a sum of products of array values, hence never NaN in this
number model; its test is kept as `isnan (some c)`. -/
noncomputable def transport_step (ti1 ti n : V3) : V3 :=
  let b := cross ti1 ti
  match sqrtf (inner b b) with
  | none => n
  | some b_len =>
    if b_len > 0 then
      let b_hat : V3 := { x := b.x / b_len, y := b.y / b_len, z := b.z / b_len }
      let c := inner ti1 ti
      if !isnan (some c) then
        match sqrtf (1 - c * c) with
        | none => n
        | some s => _rotate_around b_hat c s n
      else n
    else n

/-- The loop `for (int i = 1; i != num_pts; ++i)` of
`_parallel_transport_normals` (lines 76-96), entered at `i` with running
normal `n` and output buffer `normals`.  A pass whose row `i` is past the end
of `tangents` reads outside the array: the call is undefined (`none`), which
is also what bounds the number of passes. -/
noncomputable def transport_loop (num_pts : Int) (tangents : List V3) (i : Int) (n : V3)
    (normals : List V3) : Option (List V3) :=
  if i = num_pts then some normals
  else if _h : i < tangents.length then
    match rd tangents (i - 1), rd tangents i with
    | some ti1, some ti =>
      let n1 := transport_step ti1 ti n
      match wr normals i n1 with
      | some normals1 => transport_loop num_pts tangents (i + 1) n1 normals1
      | none => none
    | _, _ => none
  else none
termination_by (tangents.length - i).toNat
decreasing_by omega

/-- The function `_parallel_transport_normals` (normals.cpp, lines 64-97); the
result is the final content of the buffer `normals`. -/
noncomputable def _parallel_transport_normals (num_pts : Int) (tangents : List V3) (n0 : V3)
    (normals : List V3) : Option (List V3) :=
  match wr normals 0 n0 with
  | none => none
  | some normals1 => transport_loop num_pts tangents 1 n0 normals1

/-- The function `delta_to_angle` (normals.cpp, lines 99-109). -/
noncomputable def delta_to_angle (twist f : ℝ) : ℝ :=
  (1.0 / (1 + Real.exp (-8.0 * (f - 0.5)))) * twist

/-- The three buffers `smooth_twist` is called with. -/
structure Bufs where
  tangents : List V3
  normals : List V3
  n_end : V3

/-- The loop `for (int i = 1; i != num_pts; ++i)` of `smooth_twist`
(lines 130-136), entered at `i`.  A pass whose row `i` is past the end of
`tangents` or `normals` reads outside the array: the call is undefined
(`none`). -/
noncomputable def twist_loop (num_pts : Int) (twist delta : ℝ) (i : Int) (m : Bufs) :
    Option Bufs :=
  if i = num_pts then some m
  else if _h : i < m.tangents.length then
    match rd m.tangents i, rd m.normals i with
    | some t, some v =>
      let angle := delta_to_angle twist (i * delta)
      let c := Real.cos angle
      let s := Real.sin angle
      twist_loop num_pts twist delta (i + 1)
        { m with normals := m.normals.set i.toNat (_rotate_around t c s v) }
    | _, _ => none
  else none
termination_by (m.tangents.length - i).toNat
decreasing_by simp_wf; omega

/-- The total twist `smooth_twist` measures (lines 115-124) from the last
normal `n`, the wanted end normal `n_end` and the last tangent. -/
noncomputable def measured_twist (n n_end last_tangent : V3) : ℝ :=
  let twist0 := acos (inner n n_end)
  let twist : ℝ := if isnan twist0 then 0 else twist0.getD 0
  if inner (cross n n_end) last_tangent < 0 then -twist else twist

/-- The static function `smooth_twist` (normals.cpp, lines 111-137); the
result is the final content of the three buffers. -/
noncomputable def smooth_twist (m : Bufs) (num_pts : Int) : Option Bufs :=
  match rd m.normals (num_pts - 1), rd m.tangents (num_pts - 1) with
  | some n, some last_tangent =>
    let twist := measured_twist n m.n_end last_tangent
    let delta : ℝ := 1.0 / ((num_pts - 1 : Int) : ℝ)
    twist_loop num_pts twist delta 1 m
  | _, _ => none

/-- The reference quarter-turn of `n` about the unit axis `b`, as the
axis-angle formula gives it at 90 degrees: `(b . n) b + cross(b, n)`. -/
def quarter_turn_ref (b n : V3) : V3 :=
  { x := inner b n * b.x + (cross b n).x
    y := inner b n * b.y + (cross b n).y
    z := inner b n * b.z + (cross b n).z }

/-- The combination `c u + s v` of two vectors, used to state results. -/
def comb (c s : ℝ) (u v : V3) : V3 :=
  { x := c * u.x + s * v.x
    y := c * u.y + s * v.y
    z := c * u.z + s * v.z }

/-- The Rodrigues axis-angle formula `c v + s cross(n, v) + (1 - c) (n . v) n`,
the reference `_rotate_around` is compared with. -/
def rodrigues_ref (n : V3) (c s : ℝ) (v : V3) : V3 :=
  { x := c * v.x + s * (cross n v).x + (1 - c) * inner n v * n.x
    y := c * v.y + s * (cross n v).y + (1 - c) * inner n v * n.y
    z := c * v.z + s * (cross n v).z + (1 - c) * inner n v * n.z }

/-- What an `extern "C"` entry point hands back to Python: `NULL` (an exception
is raised in the caller) or the object `None`. -/
inductive PyReturn where
  | null
  | py_none

/-- The conversion of an array size to a 32-bit `int`, as in
`int num_pts = tang.size(0)`. -/
def to_int (a : Int) : Int :=
  (a + 2 ^ 31) % 2 ^ 32 - 2 ^ 31

/-- The `extern "C"` function `smooth_twist` (normals.cpp, lines 141-160); it
carries a suffix because it shares its name with the static function.
`accepted` is the outcome of `PyArg_ParseTupleAndKeywords` with the converters
of `arrays/pythonarray.h` (not part of these sources), and `m` holds the arrays
the arguments denote.  The result is the returned object with the buffers after
the call; `none` is undefined behaviour. -/
noncomputable def smooth_twist_py (accepted : Bool) (m : Bufs) : Option (PyReturn × Bufs) :=
  if !accepted then some (PyReturn.null, m)
  else
    let num_pts := to_int (m.tangents.length : Int)
    match smooth_twist m num_pts with
    | none => none
    | some out => some (PyReturn.py_none, out)

/-- The axis `b_hat` the loop body of `_parallel_transport_normals` computes
(lines 79-84) when `b_len > 0`: the cross product of the two tangents divided
by its length. -/
noncomputable def unit_binormal (ti1 ti : V3) : V3 :=
  { x := (cross ti1 ti).x / Real.sqrt (inner (cross ti1 ti) (cross ti1 ti))
    y := (cross ti1 ti).y / Real.sqrt (inner (cross ti1 ti) (cross ti1 ti))
    z := (cross ti1 ti).z / Real.sqrt (inner (cross ti1 ti) (cross ti1 ti)) }

/-- The variables the loop of `_parallel_transport_normals` carries from one
pass to the next: the index, the running normal and the output buffer. -/
structure TransportState where
  i : Int
  n : V3
  normals : List V3

/-- One pass of the loop of `_parallel_transport_normals`: the body
(lines 77-95) followed by `++i`. -/
noncomputable def transport_pass (tangents : List V3) (s : TransportState) :
    Option TransportState :=
  match rd tangents (s.i - 1), rd tangents s.i with
  | some ti1, some ti =>
    let n1 := transport_step ti1 ti s.n
    match wr s.normals s.i n1 with
    | some normals1 => some { i := s.i + 1, n := n1, normals := normals1 }
    | none => none
  | _, _ => none

/-- The variables the loop of `smooth_twist` carries from one pass to the
next: the index and the buffers. -/
structure TwistState where
  i : Int
  m : Bufs

/-- One pass of the loop of `smooth_twist`: the body (lines 131-135) followed
by `++i`. -/
noncomputable def twist_pass (twist delta : ℝ) (s : TwistState) : Option TwistState :=
  match rd s.m.tangents s.i, rd s.m.normals s.i with
  | some t, some v =>
    let angle := delta_to_angle twist (s.i * delta)
    let c := Real.cos angle
    let sn := Real.sin angle
    some { i := s.i + 1
           m := { s.m with normals := s.m.normals.set s.i.toNat (_rotate_around t c sn v) } }
  | _, _ => none

/-- The state after `k` passes in a row; `none` as soon as a pass is undefined. -/
def passes {σ : Type} (pass : σ → Option σ) : Nat → σ → Option σ
  | 0, s => some s
  | k + 1, s => (pass s).bind (passes pass k)

end Ribbon

/-!
# Sequence: contents and the gapped/ungapped index caches

A shallow embedding of the parts of
`src/core/atomic/atomstruct_cpp/Sequence.cpp` that deal with the contents of a
`Sequence`.  `Sequence.h` is not among the sources; what the member functions
do with the members fixes their types: `Contents` is built from a size, grown
with `reserve`, `push_back`, `insert` and exchanged with `swap`, so it is a
`std::vector` of characters (a list here), and the two index caches are
searched with `find` and written with `operator[]`, so they are maps from
`unsigned int` to `unsigned int` (partial functions here).  Indices are
natural numbers: a sequence is shorter than `2^32`.  The caches are `mutable`
members, so the `const` member functions return the new state as well.
-/

namespace atomstruct

/-- The members of a `Sequence` the functions below read and write. -/
structure Sequence where
  _contents : List Char
  _cache_ungapped : List Char
  _cache_g2ug : Nat → Option Nat
  _cache_ug2g : Nat → Option Nat

/-- The exception a member function leaves with. -/
inductive Thrown where
  | SeqIndexError

/-- The assignment `m[key] = value` on a map. -/
def map_set (m : Nat → Option Nat) (key value : Nat) : Nat → Option Nat :=
  fun k => if k = key then some value else m k

/-- The test `std::isalpha(c) || c == '?'` of `Sequence::ungapped` (line 244). -/
def counts_as_residue (c : Char) : Bool :=
  c.isAlpha || c == '?'

/-- The loop of `Sequence::ungapped` (lines 242-250), entered with the
characters from `gi` to `end()`, the gapped index `i` and `ug_index`. -/
def ungapped_loop : List Char → Nat → Nat → Sequence → Sequence
  | [], _, _, s => s
  | c :: rest, i, ug_index, s =>
    if counts_as_residue c then
      ungapped_loop rest (i + 1) (ug_index + 1)
        { s with
          _cache_ungapped := s._cache_ungapped ++ [c]
          _cache_g2ug := map_set s._cache_g2ug i ug_index
          _cache_ug2g := map_set s._cache_ug2g ug_index i }
    else
      ungapped_loop rest (i + 1) ug_index s

/-- `Sequence::ungapped` (lines 236-253): the state after the call and the
vector the returned reference denotes. -/
def Sequence.ungapped (s : Sequence) : Sequence × List Char :=
  let s1 := if s._cache_ungapped.isEmpty then ungapped_loop s._contents 0 0 s else s
  (s1, s1._cache_ungapped)

/-- `Sequence::gapped_to_ungapped` (lines 118-128): the state after the call
and the returned index, or the exception thrown. -/
def Sequence.gapped_to_ungapped (s : Sequence) (index : Nat) : Sequence × Except Thrown Nat :=
  let s1 := if s._cache_ungapped.isEmpty then (s.ungapped).1 else s
  match s1._cache_g2ug index with
  | none => (s1, Except.error Thrown.SeqIndexError)
  | some v => (s1, Except.ok v)

/-- `Sequence::ungapped_to_gapped` (lines 255-262): the state after the call
and the returned index.  `operator[]` on a key the map does not hold inserts
it with the value 0. -/
def Sequence.ungapped_to_gapped (s : Sequence) (index : Nat) : Sequence × Nat :=
  let s1 := if s._cache_ungapped.isEmpty then (s.ungapped).1 else s
  match s1._cache_ug2g index with
  | some v => (s1, v)
  | none => ({ s1 with _cache_ug2g := map_set s1._cache_ug2g index 0 }, 0)

/-- `Sequence::push_front` (lines 158-166).  `_clear_cache` is declared in
`Sequence.h`, which is not among the sources, and is the parameter
`clear_cache`.  `Contents pushed(n)` is the `std::vector` constructor that
makes `n` value-initialised characters (NUL). -/
def Sequence.push_front (clear_cache : Sequence → Sequence) (s : Sequence) (c : Char) :
    Sequence :=
  let s1 := clear_cache s
  let pushed : List Char := List.replicate (s1._contents.length + 1) (Char.ofNat 0)
  let pushed := pushed ++ [c]
  let pushed := pushed ++ s1._contents
  { s1 with _contents := pushed }

/-- A sequence with the given contents and empty caches, as after construction
or after the caches are cleared. -/
def Sequence.fresh (contents : List Char) : Sequence :=
  { _contents := contents
    _cache_ungapped := []
    _cache_g2ug := fun _ => none
    _cache_ug2g := fun _ => none }

/-- The caches hold what `ungapped` builds from the current contents: the
residue characters in order, for each gapped position of a residue character
the number of residue characters before it, and for each such number the
gapped position.  Other keys of the ungapped-to-gapped map are not constrained
(`operator[]` may have inserted them). -/
def Sequence.cache_filled (s : Sequence) : Prop :=
  s._cache_ungapped = s._contents.filter counts_as_residue ∧
  (∀ j, s._cache_g2ug j
    = match s._contents[j]? with
      | some c =>
        if counts_as_residue c then some ((s._contents.take j).countP counts_as_residue)
        else none
      | none => none) ∧
  (∀ d c, s._contents[d]? = some c → counts_as_residue c = true →
    s._cache_ug2g ((s._contents.take d).countP counts_as_residue) = some d)

/-- The invariant of the caches: they are cleared or filled. -/
def Sequence.cache_ok (s : Sequence) : Prop :=
  (s._cache_ungapped = [] ∧ ∀ j, s._cache_g2ug j = none) ∨ s.cache_filled

/-- The states of a sequence between changes of its contents: the caches are
empty after construction and after they are cleared, and from there only the
three `const` member functions touch them. -/
inductive Sequence.reachable : Sequence → Prop where
  | fresh (contents : List Char) : Sequence.reachable (Sequence.fresh contents)
  | ungapped (s : Sequence) : Sequence.reachable s → Sequence.reachable (s.ungapped).1
  | gapped_to_ungapped (s : Sequence) (index : Nat) :
      Sequence.reachable s → Sequence.reachable (s.gapped_to_ungapped index).1
  | ungapped_to_gapped (s : Sequence) (index : Nat) :
      Sequence.reachable s → Sequence.reachable (s.ungapped_to_gapped index).1

end atomstruct

/-!
# Ribbon normals in IEEE 754 arithmetic

A second embedding of `smooth_twist` and the functions it calls
(`normals.cpp`, lines 27-62 and 99-137), in which a C `float` or `double` is an
IEEE 754 value and every operation rounds, overflows and produces
not-a-number the way the hardware does.  It serves the two statements about
"no correction", whose truth depends on exactly these effects.

Number model.  A value `Fl` is not-a-number, or a sign together with a
magnitude in `[0, ∞]`: magnitude `∞` is an infinity, magnitude `0` with either
sign is one of the two zeros.  An operation computes the exact result and
rounds its magnitude to the destination type; the invalid operations
(`0 * ∞`, `∞ - ∞`, `0 / 0`, `∞ / ∞`, anything on a not-a-number) give
not-a-number.  Every operation is rounded to its own type: no fused
multiply-add and no excess precision.

The two rounding functions and the four functions of the C math library are
not part of the sources: they are the fields of `Arith`, and what is known of
them is `Arith.Lawful`.  Round-to-nearest binary32/binary64 with a math
library that follows Annex F of the C standard is lawful; so is `wide`, the
arithmetic used to evaluate calls on concrete inputs, which overflows like
binary32/binary64 and is exact below the overflow threshold.
-/

namespace RibbonFloat

/-- An IEEE 754 value: not-a-number, or a sign (`neg`) and a magnitude in
`[0, ∞]`. -/
inductive Fl where
  | nan
  | num (neg : Bool) (mag : ENNReal)

/-- The C function `std::isnan`. -/
def isnan : Fl → Bool
  | .nan => true
  | .num _ _ => false

/-- The value is a number and not an infinity. -/
def Fl.finite : Fl → Prop
  | .nan => False
  | .num _ a => a ≠ ⊤

/-- The comparison `u < 0` of C: false on not-a-number and on both zeros. -/
noncomputable def lt_zero : Fl → Bool
  | .nan => false
  | .num s a => s && decide (a ≠ 0)

/-- Unary minus: flips the sign, also of a zero or an infinity. -/
def fneg : Fl → Fl
  | .nan => .nan
  | .num s a => .num (!s) a

/-- IEEE multiplication with the rounding `r` of the destination type. -/
noncomputable def fmul (r : ENNReal → ENNReal) : Fl → Fl → Fl
  | .num s a, .num t b =>
    if (a = 0 ∧ b = ⊤) ∨ (a = ⊤ ∧ b = 0) then .nan else .num (xor s t) (r (a * b))
  | _, _ => .nan

/-- IEEE division with the rounding `r` of the destination type. -/
noncomputable def fdiv (r : ENNReal → ENNReal) : Fl → Fl → Fl
  | .num s a, .num t b =>
    if (a = 0 ∧ b = 0) ∨ (a = ⊤ ∧ b = ⊤) then .nan else .num (xor s t) (r (a / b))
  | _, _ => .nan

/-- IEEE addition with the rounding `r` of the destination type (round to
nearest: an exact sum zero of two values of opposite sign is `+0`). -/
noncomputable def fadd (r : ENNReal → ENNReal) : Fl → Fl → Fl
  | .num s a, .num t b =>
    if s = t then .num s (r (a + b))
    else if a = ⊤ ∧ b = ⊤ then .nan
    else if a = b then .num false 0
    else if b < a then .num s (r (a - b))
    else .num t (r (b - a))
  | _, _ => .nan

/-- IEEE subtraction: `u - v` is `u + (-v)`. -/
noncomputable def fsub (r : ENNReal → ENNReal) (u v : Fl) : Fl :=
  fadd r u (fneg v)

/-- The conversion of a C `int` to a floating type with rounding `r`. -/
noncomputable def of_int (r : ENNReal → ENNReal) (k : Int) : Fl :=
  .num (decide (k < 0)) (r (k.natAbs : ENNReal))

/-- What the platform supplies: the rounding of a magnitude to `float` (`r32`)
and to `double` (`r64`), and the math library functions the code calls. -/
structure Arith where
  r32 : ENNReal → ENNReal
  r64 : ENNReal → ENNReal
  acos : Fl → Fl
  cos : Fl → Fl
  sin : Fl → Fl
  exp : Fl → Fl

/-- What is known of the platform.  Rounding is monotone, keeps an infinity,
is exact on the integers up to `2^24` (`float`) and `2^53` (`double`), and
overflows to an infinity from `2^128` (`float`) and `2^1024` (`double`) on
but not up to `2^127` and `2^1023`.  The math library follows Annex F of the C
standard: `acos` is not-a-number on a not-a-number and outside `[-1, 1]` and
`acos(1) = +0`; `cos(±0) = 1`; `sin(±0) = ±0`; `exp` of a number is a number
that is not negative. -/
structure Arith.Lawful (A : Arith) : Prop where
  r32_mono : Monotone A.r32
  r64_mono : Monotone A.r64
  r32_top : A.r32 ⊤ = ⊤
  r64_top : A.r64 ⊤ = ⊤
  r32_nat : ∀ k : ℕ, k ≤ 2 ^ 24 → A.r32 (k : ENNReal) = (k : ENNReal)
  r64_nat : ∀ k : ℕ, k ≤ 2 ^ 53 → A.r64 (k : ENNReal) = (k : ENNReal)
  r32_finite : ∀ a : ENNReal, a ≤ 2 ^ 127 → A.r32 a ≠ ⊤
  r64_finite : ∀ a : ENNReal, a ≤ 2 ^ 1023 → A.r64 a ≠ ⊤
  r32_overflow : ∀ a : ENNReal, 2 ^ 128 ≤ a → A.r32 a = ⊤
  r64_overflow : ∀ a : ENNReal, 2 ^ 1024 ≤ a → A.r64 a = ⊤
  acos_nan : A.acos .nan = .nan
  acos_outside : ∀ (s : Bool) (a : ENNReal), 1 < a → A.acos (.num s a) = .nan
  acos_one : A.acos (.num false 1) = .num false 0
  cos_zero : ∀ s : Bool, A.cos (.num s 0) = .num false 1
  sin_zero : ∀ s : Bool, A.sin (.num s 0) = .num s 0
  exp_num : ∀ (s : Bool) (a : ENNReal), ∃ b : ENNReal, A.exp (.num s a) = .num false b

/-- The conversion of a `double` to `float`, as on assignment to a `float`
variable or on return from a function of type `float`. -/
def to_float (A : Arith) : Fl → Fl
  | .nan => .nan
  | .num s a => .num s (A.r32 a)

/-- Three consecutive floats: `float[3]` or one row of an N x 3 array. -/
structure Row where
  x : Fl
  y : Fl
  z : Fl

/-- Read row `i` of an array; `none` when the row is outside the array. -/
def rd (a : List Row) (i : Int) : Option Row :=
  if 0 ≤ i then a[i.toNat]? else none

/-- The function `inner` (normals.cpp, lines 27-30): three `float` products
summed from the left. -/
noncomputable def inner (A : Arith) (u v : Row) : Fl :=
  fadd A.r32 (fadd A.r32 (fmul A.r32 u.x v.x) (fmul A.r32 u.y v.y)) (fmul A.r32 u.z v.z)

/-- The function `cross` (normals.cpp, lines 32-38). -/
noncomputable def cross (A : Arith) (u v : Row) : Row :=
  { x := fsub A.r32 (fmul A.r32 u.y v.z) (fmul A.r32 u.z v.y)
    y := fsub A.r32 (fmul A.r32 u.z v.x) (fmul A.r32 u.x v.z)
    z := fsub A.r32 (fmul A.r32 u.x v.y) (fmul A.r32 u.y v.x) }

/-- The function `_rotate_around` (normals.cpp, lines 43-62); the result is the
new content of `v`.  `1 - c` converts the `int` 1 to `float`; a product
`a * b * c1` is `(a * b) * c1`. -/
noncomputable def _rotate_around (A : Arith) (n : Row) (c s : Fl) (v : Row) : Row :=
  let c1 := fsub A.r32 (of_int A.r32 1) c
  let m00 := fadd A.r32 c (fmul A.r32 (fmul A.r32 n.x n.x) c1)
  let m01 := fsub A.r32 (fmul A.r32 (fmul A.r32 n.x n.y) c1) (fmul A.r32 s n.z)
  let m02 := fadd A.r32 (fmul A.r32 (fmul A.r32 n.z n.x) c1) (fmul A.r32 s n.y)
  let m10 := fadd A.r32 (fmul A.r32 (fmul A.r32 n.x n.y) c1) (fmul A.r32 s n.z)
  let m11 := fadd A.r32 c (fmul A.r32 (fmul A.r32 n.y n.y) c1)
  let m12 := fsub A.r32 (fmul A.r32 (fmul A.r32 n.z n.y) c1) (fmul A.r32 s n.x)
  let m20 := fsub A.r32 (fmul A.r32 (fmul A.r32 n.x n.z) c1) (fmul A.r32 s n.y)
  let m21 := fadd A.r32 (fmul A.r32 (fmul A.r32 n.y n.z) c1) (fmul A.r32 s n.x)
  let m22 := fadd A.r32 c (fmul A.r32 (fmul A.r32 n.z n.z) c1)
  let x := fadd A.r32 (fadd A.r32 (fmul A.r32 m00 v.x) (fmul A.r32 m01 v.y)) (fmul A.r32 m02 v.z)
  let y := fadd A.r32 (fadd A.r32 (fmul A.r32 m10 v.x) (fmul A.r32 m11 v.y)) (fmul A.r32 m12 v.z)
  let z := fadd A.r32 (fadd A.r32 (fmul A.r32 m20 v.x) (fmul A.r32 m21 v.y)) (fmul A.r32 m22 v.z)
  { x := x, y := y, z := z }

/-- The function `delta_to_angle` (normals.cpp, lines 99-109).  The constants
`1.0`, `-8.0` and `0.5` are of type `double`, so the whole expression is
evaluated in `double` (`f` and `twist` are promoted, which is exact, and the
`int` 1 is converted); the `return` converts the result to `float`. -/
noncomputable def delta_to_angle (A : Arith) (twist f : Fl) : Fl :=
  to_float A
    (fmul A.r64
      (fdiv A.r64 (.num false 1)
        (fadd A.r64 (of_int A.r64 1)
          (A.exp (fmul A.r64 (.num true 8) (fsub A.r64 f (.num false (1 / 2)))))))
      twist)

/-- The three buffers `smooth_twist` is called with. -/
structure Bufs where
  tangents : List Row
  normals : List Row
  n_end : Row

/-- The loop `for (int i = 1; i != num_pts; ++i)` of `smooth_twist`
(lines 130-136), entered at `i`.  `i * delta` converts `i` to `float`; the
results of `cos` and `sin` are stored in `float` variables.  A pass whose row
`i` is past the end of `tangents` or `normals` reads outside the array: the
call is undefined (`none`). -/
noncomputable def twist_loop (A : Arith) (num_pts : Int) (twist delta : Fl) (i : Int)
    (m : Bufs) : Option Bufs :=
  if i = num_pts then some m
  else if _h : i < m.tangents.length then
    match rd m.tangents i, rd m.normals i with
    | some t, some v =>
      let angle := delta_to_angle A twist (fmul A.r32 (of_int A.r32 i) delta)
      let c := to_float A (A.cos angle)
      let s := to_float A (A.sin angle)
      twist_loop A num_pts twist delta (i + 1)
        { m with normals := m.normals.set i.toNat (_rotate_around A t c s v) }
    | _, _ => none
  else none
termination_by (m.tangents.length - i).toNat
decreasing_by simp_wf; omega

/-- The total twist `smooth_twist` measures (lines 115-124) from the last
normal `n`, the wanted end normal `n_end` and the last tangent: the result of
`acos` stored in a `float`, replaced by the `int` 0 converted to `float` when
it is not-a-number, and negated when the sign test holds. -/
noncomputable def measured_twist (A : Arith) (n n_end last_tangent : Row) : Fl :=
  let twist0 := to_float A (A.acos (inner A n n_end))
  let twist := if isnan twist0 then of_int A.r32 0 else twist0
  if lt_zero (inner A (cross A n n_end) last_tangent) then fneg twist else twist

/-- The static function `smooth_twist` (normals.cpp, lines 111-137); the
result is the final content of the three buffers.  `1.0 / (num_pts - 1)` is a
`double` division, its result stored in the `float` variable `delta`. -/
noncomputable def smooth_twist (A : Arith) (m : Bufs) (num_pts : Int) : Option Bufs :=
  match rd m.normals (num_pts - 1), rd m.tangents (num_pts - 1) with
  | some n, some last_tangent =>
    let twist := measured_twist A n m.n_end last_tangent
    let delta := to_float A (fdiv A.r64 (.num false 1) (of_int A.r64 (num_pts - 1)))
    twist_loop A num_pts twist delta 1 m
  | _, _ => none

/-- A `float` stored in memory that is a number and not an infinity: its
magnitude is finite and rounding to `float` leaves it as it is. -/
def is_finite_float (A : Arith) : Fl → Prop
  | .nan => False
  | .num _ a => a ≠ ⊤ ∧ A.r32 a = a

/-- A row of finite floats. -/
def Row.finite_floats (A : Arith) (v : Row) : Prop :=
  is_finite_float A v.x ∧ is_finite_float A v.y ∧ is_finite_float A v.z

/-- The squares of the three components of `t`, computed in `float`, are
finite: none of them overflows.  (Then no product of two components
overflows either.) -/
def Row.squares_finite (A : Arith) (t : Row) : Prop :=
  (fmul A.r32 t.x t.x).finite ∧ (fmul A.r32 t.y t.y).finite ∧ (fmul A.r32 t.z t.z).finite

/-- The value `new` stored over `old` keeps it: it is the same value bit for
bit, or `old` is the negative zero and `new` the positive zero (the two
compare equal in C). -/
def Fl.kept (old new : Fl) : Prop :=
  new = old ∨ (old = .num true 0 ∧ new = .num false 0)

/-- Each component of the row is kept. -/
def Row.kept (old new : Row) : Prop :=
  Fl.kept old.x new.x ∧ Fl.kept old.y new.y ∧ Fl.kept old.z new.z

/-- No component of the row is the negative zero. -/
def Row.no_neg_zero (v : Row) : Prop :=
  v.x ≠ .num true 0 ∧ v.y ≠ .num true 0 ∧ v.z ≠ .num true 0

/-- The computed value is a number of magnitude above 1 (an infinity
included): it lies outside `[-1, 1]`. -/
def Fl.outside_unit : Fl → Prop
  | .nan => False
  | .num _ a => 1 < a

/-- The computed value is a number that is at least 1 (`+∞` included). -/
def Fl.at_least_one : Fl → Prop
  | .num false a => 1 ≤ a
  | _ => False

/-- Rounding that overflows from `2^e` on and is exact below. -/
noncomputable def wide_round (e : ℕ) (a : ENNReal) : ENNReal :=
  if a < 2 ^ e then a else ⊤

/-- A real number as a value: the sign of a zero is `neg0`. -/
noncomputable def of_real (neg0 : Bool) (x : ℝ) : Fl :=
  if x = 0 then .num neg0 0 else .num (decide (x < 0)) (ENNReal.ofReal |x|)

/-- The real number a finite value stands for. -/
noncomputable def to_real (s : Bool) (a : ENNReal) : ℝ :=
  if s then -a.toReal else a.toReal

/-- The arithmetic used to evaluate calls on concrete inputs: `float` and
`double` overflow as binary32 and binary64 do and are exact below the
overflow threshold, and the math library returns the exact real value. -/
noncomputable def wide : Arith where
  r32 := wide_round 128
  r64 := wide_round 1024
  acos := fun u =>
    match u with
    | .nan => .nan
    | .num s a => if 1 < a then .nan else of_real false (Real.arccos (to_real s a))
  cos := fun u =>
    match u with
    | .nan => .nan
    | .num s a => if a = ⊤ then .nan else of_real false (Real.cos (to_real s a))
  sin := fun u =>
    match u with
    | .nan => .nan
    | .num s a => if a = ⊤ then .nan else of_real s (Real.sin (to_real s a))
  exp := fun u =>
    match u with
    | .nan => .nan
    | .num s a =>
      if a = ⊤ then (if s then .num false 0 else .num false ⊤)
      else .num false (ENNReal.ofReal (Real.exp (to_real s a)))

end RibbonFloat

namespace Ribbon

/-! ## Array access at natural-number indices -/

theorem rd_nat (a : List V3) (k : ℕ) : rd a (k : Int) = a[k]? := by
  simp [rd]

theorem rd_nat_pred (a : List V3) (k : ℕ) (hk : 1 ≤ k) : rd a ((k : Int) - 1) = a[k - 1]? := by
  have h : ((k : Int) - 1) = ((k - 1 : ℕ) : Int) := by omega
  rw [h, rd_nat]

theorem wr_nat (a : List V3) (k : ℕ) (v : V3) (hk : k < a.length) :
    wr a (k : Int) v = some (a.set k v) := by
  simp [wr, hk]

/-! ## The transport loop -/

/-- The loop entered at `k` with `d` rows left returns a buffer that keeps the
rows below `k` and holds, at each row `j ≥ k`, the step applied to row `j - 1`. -/
theorem transport_loop_spec (tangents : List V3) (N : ℕ) (hN : tangents.length = N) :
    ∀ (d k : ℕ) (n : V3) (ns : List V3), k + d = N → 1 ≤ k → ns.length = N →
      ns[k - 1]? = some n →
      ∃ out, transport_loop (N : Int) tangents (k : Int) n ns = some out ∧ out.length = N ∧
        (∀ j, j < k → out[j]? = ns[j]?) ∧
        (∀ j, k ≤ j → j < N → ∃ t1 t2 p, tangents[j - 1]? = some t1 ∧ tangents[j]? = some t2 ∧
          out[j - 1]? = some p ∧ out[j]? = some (transport_step t1 t2 p)) := by
  intro d
  induction d with
  | zero =>
    intro k n ns hk _ hlen _
    have hkN : k = N := by omega
    subst hkN
    refine ⟨ns, ?_, hlen, fun j _ => rfl, fun j h1 h2 => absurd h2 (by omega)⟩
    rw [transport_loop]; simp
  | succ d ih =>
    intro k n ns hk h1 hlen hn
    have hkN : k < N := by omega
    obtain ⟨t1, ht1⟩ : ∃ t1, tangents[k - 1]? = some t1 :=
      ⟨tangents[k - 1], List.getElem?_eq_getElem (by omega)⟩
    obtain ⟨t2, ht2⟩ : ∃ t2, tangents[k]? = some t2 :=
      ⟨tangents[k], List.getElem?_eq_getElem (by omega)⟩
    have hset : (ns.set k (transport_step t1 t2 n))[k + 1 - 1]? = some (transport_step t1 t2 n) := by
      simp [List.getElem?_set, hlen, hkN]
    obtain ⟨out, hout, holen, hlow, hhigh⟩ :=
      ih (k + 1) (transport_step t1 t2 n) (ns.set k (transport_step t1 t2 n)) (by omega)
        (by omega) (by simpa using hlen) hset
    refine ⟨out, ?_, holen, ?_, ?_⟩
    · rw [transport_loop]
      have hne : ¬ ((k : Int) = (N : Int)) := by omega
      have hlt : (k : Int) < (tangents.length : Int) := by omega
      rw [if_neg hne, dif_pos hlt, rd_nat_pred _ _ h1, rd_nat, ht1, ht2]
      simp only []
      rw [wr_nat _ _ _ (by omega)]
      simp only []
      have hc : ((k : Int) + 1) = ((k + 1 : ℕ) : Int) := by push_cast; rfl
      rw [hc]; exact hout
    · intro j hj
      rw [hlow j (by omega), List.getElem?_set_ne (by omega)]
    · intro j hj1 hj2
      rcases Nat.eq_or_lt_of_le hj1 with hjk | hjk
      · subst hjk
        refine ⟨t1, t2, n, ht1, ht2, ?_, ?_⟩
        · rw [hlow (k - 1) (by omega), List.getElem?_set_ne (by omega)]; exact hn
        · rw [hlow k (by omega)]; simpa using hset
      · exact hhigh j (by omega) hj2

/-- On a path of `N ≥ 1` points with an `N`-row output buffer the function
returns: row 0 of the result is `n0` and every later row is the loop body
applied to the row before it. -/
theorem transport_spec (tangents : List V3) (n0 : V3) (normals : List V3)
    (h1 : 1 ≤ tangents.length) (hlen : normals.length = tangents.length) :
    ∃ out, _parallel_transport_normals (tangents.length : Int) tangents n0 normals = some out ∧
      out.length = tangents.length ∧ out[0]? = some n0 ∧
      (∀ j, 1 ≤ j → j < tangents.length → ∃ t1 t2 p, tangents[j - 1]? = some t1 ∧
        tangents[j]? = some t2 ∧ out[j - 1]? = some p ∧
        out[j]? = some (transport_step t1 t2 p)) := by
  have h0 : (normals.set 0 n0)[1 - 1]? = some n0 := by
    have : 0 < normals.length := by omega
    simp [List.getElem?_set, this]
  obtain ⟨out, hout, holen, hlow, hhigh⟩ :=
    transport_loop_spec tangents tangents.length rfl (tangents.length - 1) 1 n0
      (normals.set 0 n0) (by omega) (le_refl 1) (by simpa using hlen) h0
  refine ⟨out, ?_, holen, ?_, hhigh⟩
  · have hw : wr normals 0 n0 = some (normals.set 0 n0) := by
      have := wr_nat normals 0 n0 (by omega)
      simpa using this
    rw [_parallel_transport_normals, hw]
    simpa using hout
  · rw [hlow 0 (by omega)]; simpa using h0

/-- A step between two tangents whose cross product has length zero keeps the
running normal. -/
theorem transport_step_zero_cross (t1 t2 n : V3)
    (h : sqrtf (inner (cross t1 t2) (cross t1 t2)) = some 0) : transport_step t1 t2 n = n := by
  simp [transport_step, h]

theorem cross_self (t : V3) : cross t t = { x := 0, y := 0, z := 0 } := by
  ext <;> simp [cross] <;> ring

theorem sqrtf_cross_self (t : V3) : sqrtf (inner (cross t t) (cross t t)) = some 0 := by
  simp [cross_self, inner, sqrtf]

/-! ## Claims on `_parallel_transport_normals` -/

/-- C1: on every path of `N ≥ 1` tangents and every start normal the call
returns, and row 0 of the normals it writes is the start normal itself. -/
theorem C1_first_normal_is_start (tangents : List V3) (n0 : V3) (normals : List V3)
    (h1 : 1 ≤ tangents.length) (hlen : normals.length = tangents.length) :
    ∃ out, _parallel_transport_normals (tangents.length : Int) tangents n0 normals = some out ∧
      out.length = tangents.length ∧ out[0]? = some n0 := by
  obtain ⟨out, hout, holen, h0, _⟩ := transport_spec tangents n0 normals h1 hlen
  exact ⟨out, hout, holen, h0⟩

/-- C2: when all `N ≥ 1` tangents are the same vector `t`, the call returns
`N` copies of the start normal. -/
theorem C2_straight_path_keeps_normal (tangents : List V3) (t n0 : V3) (normals : List V3)
    (h1 : 1 ≤ tangents.length) (hlen : normals.length = tangents.length)
    (hall : ∀ u ∈ tangents, u = t) :
    _parallel_transport_normals (tangents.length : Int) tangents n0 normals
      = some (List.replicate tangents.length n0) := by
  obtain ⟨out, hout, holen, h0, hstep⟩ := transport_spec tangents n0 normals h1 hlen
  have hrow : ∀ j, j < tangents.length → out[j]? = some n0 := by
    intro j
    induction j with
    | zero => intro _; exact h0
    | succ j ih =>
      intro hj
      obtain ⟨t1, t2, p, ht1, ht2, hp, hj1⟩ := hstep (j + 1) (by omega) hj
      have e1 : t1 = t := hall t1 (List.getElem?_mem ht1)
      have e2 : t2 = t := hall t2 (List.getElem?_mem ht2)
      have hp2 : p = n0 := by
        have := ih (by omega)
        simp only [Nat.add_sub_cancel] at hp
        rw [this] at hp
        exact (Option.some.inj hp).symm
      rw [hj1, e1, e2, hp2, transport_step_zero_cross t t n0 (sqrtf_cross_self t)]
  rw [hout]
  congr 1
  apply List.ext_getElem?
  intro j
  by_cases hj : j < tangents.length
  · rw [hrow j hj]; simp [List.getElem?_replicate, hj]
  · rw [List.getElem?_eq_none (by omega), List.getElem?_eq_none (by simp; omega)]

theorem C1_first_normal_is_start_witness :
    ∃ out, _parallel_transport_normals (([⟨1, 0, 0⟩, ⟨0, 1, 0⟩] : List V3).length : Int)
        [⟨1, 0, 0⟩, ⟨0, 1, 0⟩] ⟨0, 0, 1⟩ [⟨0, 0, 0⟩, ⟨0, 0, 0⟩] = some out ∧
      out.length = ([⟨1, 0, 0⟩, ⟨0, 1, 0⟩] : List V3).length ∧ out[0]? = some ⟨0, 0, 1⟩ :=
  C1_first_normal_is_start [⟨1, 0, 0⟩, ⟨0, 1, 0⟩] ⟨0, 0, 1⟩ [⟨0, 0, 0⟩, ⟨0, 0, 0⟩]
    (by simp) (by simp)

theorem C2_straight_path_keeps_normal_witness :
    _parallel_transport_normals 3 [⟨1, 0, 0⟩, ⟨1, 0, 0⟩, ⟨1, 0, 0⟩] ⟨0, 1, 0⟩
        [⟨0, 0, 0⟩, ⟨0, 0, 0⟩, ⟨0, 0, 0⟩]
      = some [⟨0, 1, 0⟩, ⟨0, 1, 0⟩, ⟨0, 1, 0⟩] :=
  C2_straight_path_keeps_normal [⟨1, 0, 0⟩, ⟨1, 0, 0⟩, ⟨1, 0, 0⟩] ⟨1, 0, 0⟩ ⟨0, 1, 0⟩
    [⟨0, 0, 0⟩, ⟨0, 0, 0⟩, ⟨0, 0, 0⟩] (by simp) (by simp) (by simp)

/-- C3: at every step `i` in `1..N-1` where the cross product of tangents
`i-1` and `i` has length zero (`b_len` is 0), row `i` of the result is row
`i-1` of the result. -/
theorem C3_zero_binormal_carries_normal (tangents : List V3) (n0 : V3) (normals : List V3)
    (hlen : normals.length = tangents.length) (i : ℕ) (hi1 : 1 ≤ i) (hi : i < tangents.length)
    (t1 t2 : V3) (ht1 : tangents[i - 1]? = some t1) (ht2 : tangents[i]? = some t2)
    (hz : sqrtf (inner (cross t1 t2) (cross t1 t2)) = some 0) :
    ∃ out p, _parallel_transport_normals (tangents.length : Int) tangents n0 normals = some out ∧
      out[i - 1]? = some p ∧ out[i]? = some p := by
  obtain ⟨out, hout, _, _, hstep⟩ := transport_spec tangents n0 normals (by omega) hlen
  obtain ⟨u1, u2, p, hu1, hu2, hp, hres⟩ := hstep i hi1 hi
  rw [ht1] at hu1
  rw [ht2] at hu2
  obtain rfl := Option.some.inj hu1
  obtain rfl := Option.some.inj hu2
  exact ⟨out, p, hout, hp, by rw [hres, transport_step_zero_cross _ _ _ hz]⟩

theorem C3_zero_binormal_carries_normal_witness :
    ∃ out p, _parallel_transport_normals
        (([⟨0, 1, 0⟩, ⟨1, 0, 0⟩, ⟨-2, 0, 0⟩] : List V3).length : Int)
        [⟨0, 1, 0⟩, ⟨1, 0, 0⟩, ⟨-2, 0, 0⟩] ⟨0, 0, 1⟩ [⟨0, 0, 0⟩, ⟨0, 0, 0⟩, ⟨0, 0, 0⟩]
          = some out ∧
      out[2 - 1]? = some p ∧ out[2]? = some p :=
  C3_zero_binormal_carries_normal [⟨0, 1, 0⟩, ⟨1, 0, 0⟩, ⟨-2, 0, 0⟩] ⟨0, 0, 1⟩
    [⟨0, 0, 0⟩, ⟨0, 0, 0⟩, ⟨0, 0, 0⟩] (by simp) 2 (by decide) (by simp)
    ⟨1, 0, 0⟩ ⟨-2, 0, 0⟩ (by simp) (by simp) (by simp [sqrtf, inner, cross])

/-- The loop body at two orthonormal tangents is the reference quarter-turn
about their cross product. -/
theorem transport_step_orthonormal (t0 t1 n : V3) (h00 : inner t0 t0 = 1)
    (h11 : inner t1 t1 = 1) (h01 : inner t0 t1 = 0) :
    transport_step t0 t1 n = quarter_turn_ref (cross t0 t1) n := by
  have hb : inner (cross t0 t1) (cross t0 t1) = 1 := by
    have hL : inner (cross t0 t1) (cross t0 t1)
        = inner t0 t0 * inner t1 t1 - inner t0 t1 * inner t0 t1 := by
      simp only [inner, cross]; ring
    rw [hL, h00, h11, h01]; norm_num
  simp only [transport_step, hb, h01, sqrtf, isnan]
  norm_num
  simp only [_rotate_around, quarter_turn_ref, inner, cross]
  ext <;> simp <;> ring

/-- C4: for two orthonormal tangents `t0`, `t1` (`N = 2`) and every start
normal `n`, row 1 of the result is the reference quarter-turn of `n` about
`b = cross(t0, t1)`, that is `(b . n) b + cross(b, n)`. -/
theorem C4_quarter_turn_matches_reference (t0 t1 n : V3) (normals : List V3)
    (hlen : normals.length = 2) (h00 : inner t0 t0 = 1) (h11 : inner t1 t1 = 1)
    (h01 : inner t0 t1 = 0) :
    ∃ out, _parallel_transport_normals 2 [t0, t1] n normals = some out ∧
      out[1]? = some (quarter_turn_ref (cross t0 t1) n) := by
  obtain ⟨out, hout, _, h0, hstep⟩ := transport_spec [t0, t1] n normals (by simp) (by simpa using hlen)
  obtain ⟨u1, u2, p, hu1, hu2, hp, hres⟩ := hstep 1 (le_refl 1) (by simp)
  simp at hu1 hu2
  rw [h0] at hp
  obtain rfl := Option.some.inj hp
  subst hu1 hu2
  refine ⟨out, by simpa using hout, ?_⟩
  rw [hres, transport_step_orthonormal _ _ _ h00 h11 h01]

theorem C4_quarter_turn_matches_reference_witness :
    (∃ out, _parallel_transport_normals 2 [⟨1, 0, 0⟩, ⟨0, 1, 0⟩] ⟨1, 0, 0⟩
        [⟨0, 0, 0⟩, ⟨0, 0, 0⟩] = some out ∧ out[1]? = some ⟨0, 1, 0⟩) ∧
    (∃ out, _parallel_transport_normals 2 [⟨1, 0, 0⟩, ⟨0, 1, 0⟩] ⟨0, 0, 1⟩
        [⟨0, 0, 0⟩, ⟨0, 0, 0⟩] = some out ∧ out[1]? = some ⟨0, 0, 1⟩) := by
  constructor
  · have h := C4_quarter_turn_matches_reference ⟨1, 0, 0⟩ ⟨0, 1, 0⟩ ⟨1, 0, 0⟩
      [⟨0, 0, 0⟩, ⟨0, 0, 0⟩] (by simp) (by simp [inner]) (by simp [inner]) (by simp [inner])
    simpa [quarter_turn_ref, inner, cross] using h
  · have h := C4_quarter_turn_matches_reference ⟨1, 0, 0⟩ ⟨0, 1, 0⟩ ⟨0, 0, 1⟩
      [⟨0, 0, 0⟩, ⟨0, 0, 0⟩] (by simp) (by simp [inner]) (by simp [inner]) (by simp [inner])
    simpa [quarter_turn_ref, inner, cross] using h

/-! ## The twist loop -/

/-- The loop of `smooth_twist` entered at `k` with `d` rows left returns; it
leaves the tangents, the end normal and the rows of `normals` below `k` as
they are, and turns each row `j ≥ k` about tangent `j` by the eased angle. -/
theorem twist_loop_spec (N : ℕ) (twist delta : ℝ) :
    ∀ (d k : ℕ) (m : Bufs), k + d = N → m.tangents.length = N → m.normals.length = N →
      ∃ out, twist_loop (N : Int) twist delta (k : Int) m = some out ∧
        out.tangents = m.tangents ∧ out.n_end = m.n_end ∧ out.normals.length = N ∧
        (∀ j, j < k → out.normals[j]? = m.normals[j]?) ∧
        (∀ j, k ≤ j → j < N → ∃ t v, m.tangents[j]? = some t ∧ m.normals[j]? = some v ∧
          out.normals[j]? = some (_rotate_around t
            (Real.cos (delta_to_angle twist (((j : Int) : ℝ) * delta)))
            (Real.sin (delta_to_angle twist (((j : Int) : ℝ) * delta))) v)) := by
  intro d
  induction d with
  | zero =>
    intro k m hk _ hlen
    have hkN : k = N := by omega
    subst hkN
    refine ⟨m, ?_, rfl, rfl, hlen, fun j _ => rfl, fun j h1 h2 => absurd h2 (by omega)⟩
    rw [twist_loop]; simp
  | succ d ih =>
    intro k m hk htl hnl
    have hkN : k < N := by omega
    obtain ⟨t, ht⟩ : ∃ t, m.tangents[k]? = some t :=
      ⟨m.tangents[k], List.getElem?_eq_getElem (by omega)⟩
    obtain ⟨v, hv⟩ : ∃ v, m.normals[k]? = some v :=
      ⟨m.normals[k], List.getElem?_eq_getElem (by omega)⟩
    obtain ⟨out, hout, hot, hoe, holen, hlow, hhigh⟩ :=
      ih (k + 1) { m with normals := m.normals.set k (_rotate_around t
            (Real.cos (delta_to_angle twist (((k : Int) : ℝ) * delta)))
            (Real.sin (delta_to_angle twist (((k : Int) : ℝ) * delta))) v) }
        (by omega) htl (by simpa using hnl)
    refine ⟨out, ?_, hot, hoe, holen, ?_, ?_⟩
    · rw [twist_loop]
      have hne : ¬ ((k : Int) = (N : Int)) := by omega
      have hlt : (k : Int) < (m.tangents.length : Int) := by omega
      rw [if_neg hne, dif_pos hlt, rd_nat, rd_nat, ht, hv]
      simp only [Int.toNat_ofNat]
      have hc : ((k : Int) + 1) = ((k + 1 : ℕ) : Int) := by push_cast; rfl
      rw [hc]; exact hout
    · intro j hj
      rw [hlow j (by omega)]
      simp only []
      rw [List.getElem?_set_ne (by omega)]
    · intro j hj1 hj2
      rcases Nat.eq_or_lt_of_le hj1 with hjk | hjk
      · subst hjk
        refine ⟨t, v, ht, hv, ?_⟩
        rw [hlow k (by omega)]
        simp [List.getElem?_set, hnl, hkN]
      · obtain ⟨t2, v2, h1, h2, h3⟩ := hhigh j (by omega) hj2
        refine ⟨t2, v2, h1, ?_, h3⟩
        simp only [] at h2
        rw [List.getElem?_set_ne (by omega)] at h2
        exact h2

/-- On a path of `N ≥ 1` points with `N` normals `smooth_twist` returns; with
`twist` the measured total twist and `delta = 1/(N-1)`, row 0 and the other
two buffers are kept and each row `j ≥ 1` is turned about tangent `j` by
`delta_to_angle twist (j * delta)`. -/
theorem smooth_twist_spec (m : Bufs) (N : ℕ) (h1 : 1 ≤ N) (htl : m.tangents.length = N)
    (hnl : m.normals.length = N) :
    ∃ n lt out, m.normals[N - 1]? = some n ∧ m.tangents[N - 1]? = some lt ∧
      smooth_twist m (N : Int) = some out ∧
      out.tangents = m.tangents ∧ out.n_end = m.n_end ∧ out.normals.length = N ∧
      out.normals[0]? = m.normals[0]? ∧
      (∀ j, 1 ≤ j → j < N → ∃ t v, m.tangents[j]? = some t ∧ m.normals[j]? = some v ∧
        out.normals[j]? = some (_rotate_around t
          (Real.cos (delta_to_angle (measured_twist n m.n_end lt)
            (((j : Int) : ℝ) * (1.0 / (((N : Int) - 1 : Int) : ℝ)))))
          (Real.sin (delta_to_angle (measured_twist n m.n_end lt)
            (((j : Int) : ℝ) * (1.0 / (((N : Int) - 1 : Int) : ℝ))))) v)) := by
  obtain ⟨n, hn⟩ : ∃ n, m.normals[N - 1]? = some n :=
    ⟨m.normals[N - 1], List.getElem?_eq_getElem (by omega)⟩
  obtain ⟨lt, hlt⟩ : ∃ lt, m.tangents[N - 1]? = some lt :=
    ⟨m.tangents[N - 1], List.getElem?_eq_getElem (by omega)⟩
  obtain ⟨out, hout, hot, hoe, holen, hlow, hhigh⟩ :=
    twist_loop_spec N (measured_twist n m.n_end lt) (1.0 / (((N : Int) - 1 : Int) : ℝ))
      (N - 1) 1 m (by omega) htl hnl
  refine ⟨n, lt, out, hn, hlt, ?_, hot, hoe, holen, hlow 0 (by omega), hhigh⟩
  rw [smooth_twist, rd_nat_pred _ _ h1, rd_nat_pred _ _ h1, hn, hlt]
  simpa using hout

/-! ## The easing curve and the identity rotation -/

theorem sigmoid_pos (f : ℝ) : 0 < 1.0 / (1 + Real.exp (-8.0 * (f - 0.5))) := by
  have := Real.exp_pos (-8.0 * (f - 0.5))
  positivity

theorem sigmoid_lt_one (f : ℝ) : 1.0 / (1 + Real.exp (-8.0 * (f - 0.5))) < 1 := by
  have h := Real.exp_pos (-8.0 * (f - 0.5))
  rw [div_lt_one (by linarith)]
  norm_num
  exact Real.exp_pos _

theorem sigmoid_mono (f1 f2 : ℝ) (hf : f1 ≤ f2) :
    1.0 / (1 + Real.exp (-8.0 * (f1 - 0.5))) ≤ 1.0 / (1 + Real.exp (-8.0 * (f2 - 0.5))) := by
  have h1 := Real.exp_pos (-8.0 * (f2 - 0.5))
  have h2 : Real.exp (-8.0 * (f2 - 0.5)) ≤ Real.exp (-8.0 * (f1 - 0.5)) := by
    apply Real.exp_le_exp.mpr
    norm_num
    linarith
  apply div_le_div_of_nonneg_left (by norm_num) (by linarith) (by linarith)

theorem delta_to_angle_zero (f : ℝ) : delta_to_angle 0 f = 0 := by
  simp [delta_to_angle]

/-- Turning by the angle with cosine 1 and sine 0 changes nothing, whatever the axis. -/
theorem rotate_around_one_zero (n v : V3) : _rotate_around n 1 0 v = v := by
  ext <;> simp [_rotate_around]

theorem cross_self_inner (n t : V3) : inner (cross n n) t = 0 := by
  simp only [inner, cross]; ring

/-- The eased angle of a twist in `(0, π]` lies strictly between 0 and the twist. -/
theorem delta_to_angle_between (twist f : ℝ) (h0 : 0 < twist) :
    0 < delta_to_angle twist f ∧ delta_to_angle twist f < twist := by
  unfold delta_to_angle
  constructor
  · exact mul_pos (sigmoid_pos f) h0
  · have := sigmoid_lt_one f
    nlinarith

/-- The call on a two-point path, evaluated: row 0 is kept and row 1 is turned
about the last tangent by `delta_to_angle twist 1`. -/
theorem smooth_twist_two (t0 t n0 n e : V3) :
    smooth_twist ⟨[t0, t], [n0, n], e⟩ 2 = some ⟨[t0, t], [n0, _rotate_around t
      (Real.cos (delta_to_angle (measured_twist n e t) 1))
      (Real.sin (delta_to_angle (measured_twist n e t) 1)) n], e⟩ := by
  have h1 : rd [n0, n] ((2 : Int) - 1) = some n := by simp [rd]
  have h2 : rd [t0, t] ((2 : Int) - 1) = some t := by simp [rd]
  have h3 : rd [n0, n] (1 : Int) = some n := by simp [rd]
  have h4 : rd [t0, t] (1 : Int) = some t := by simp [rd]
  rw [smooth_twist]
  simp only [h1, h2]
  rw [twist_loop]
  simp only [h3, h4]
  rw [twist_loop]
  norm_num

/-! ## Claims on `smooth_twist` -/

/-- C8: on every input with `N ≥ 1` points `smooth_twist` returns, row 0 of
`normals` is unchanged, the number of normals is unchanged, and the tangents
and the end normal are unchanged. -/
theorem C8_twist_frame (m : Bufs) (h1 : 1 ≤ m.tangents.length)
    (hnl : m.normals.length = m.tangents.length) :
    ∃ out, smooth_twist m (m.tangents.length : Int) = some out ∧
      out.normals[0]? = m.normals[0]? ∧ out.normals.length = m.normals.length ∧
      out.tangents = m.tangents ∧ out.n_end = m.n_end := by
  obtain ⟨_, _, out, _, _, hout, hot, hoe, holen, h0, _⟩ :=
    smooth_twist_spec m m.tangents.length h1 rfl hnl
  exact ⟨out, hout, h0, by rw [holen, hnl], hot, hoe⟩

theorem C8_twist_frame_witness :
    ∃ out, smooth_twist ⟨[⟨1, 0, 0⟩, ⟨1, 0, 0⟩], [⟨0, 1, 0⟩, ⟨0, 1, 0⟩], ⟨0, 0, 1⟩⟩
        (([⟨1, 0, 0⟩, ⟨1, 0, 0⟩] : List V3).length : Int) = some out ∧
      out.normals[0]? = ([⟨0, 1, 0⟩, ⟨0, 1, 0⟩] : List V3)[0]? ∧
      out.normals.length = ([⟨0, 1, 0⟩, ⟨0, 1, 0⟩] : List V3).length ∧
      out.tangents = [⟨1, 0, 0⟩, ⟨1, 0, 0⟩] ∧ out.n_end = ⟨0, 0, 1⟩ :=
  C8_twist_frame ⟨[⟨1, 0, 0⟩, ⟨1, 0, 0⟩], [⟨0, 1, 0⟩, ⟨0, 1, 0⟩], ⟨0, 0, 1⟩⟩
    (by simp) (by simp)

/-- C9: for a total twist `twist > 0` the eased angle `delta_to_angle twist f`
is non-decreasing in `f`; hence on a path of `N ≥ 2` points the angle
`smooth_twist` applies at row `i` is at most the angle it applies at row
`i + 1`, for all `1 ≤ i < N - 1`. -/
theorem C9_eased_angle_monotone (twist : ℝ) (ht : 0 < twist) :
    (∀ f1 f2 : ℝ, f1 ≤ f2 → delta_to_angle twist f1 ≤ delta_to_angle twist f2) ∧
    (∀ N i : ℕ, 2 ≤ N → 1 ≤ i → i < N - 1 →
      delta_to_angle twist (((i : Int) : ℝ) * (1.0 / (((N : Int) - 1 : Int) : ℝ)))
        ≤ delta_to_angle twist ((((i + 1 : ℕ) : Int) : ℝ) * (1.0 / (((N : Int) - 1 : Int) : ℝ)))) := by
  have hmono : ∀ f1 f2 : ℝ, f1 ≤ f2 → delta_to_angle twist f1 ≤ delta_to_angle twist f2 := by
    intro f1 f2 hf
    unfold delta_to_angle
    exact mul_le_mul_of_nonneg_right (sigmoid_mono f1 f2 hf) ht.le
  refine ⟨hmono, ?_⟩
  intro N i hN _ _
  apply hmono
  have hd : (0 : ℝ) ≤ 1.0 / (((N : Int) - 1 : Int) : ℝ) := by
    have : (0 : ℝ) ≤ (((N : Int) - 1 : Int) : ℝ) := by
      have h : (0 : Int) ≤ (N : Int) - 1 := by omega
      exact_mod_cast h
    positivity
  apply mul_le_mul_of_nonneg_right _ hd
  push_cast
  linarith

theorem C9_eased_angle_monotone_witness :
    delta_to_angle 1 0 ≤ delta_to_angle 1 1 ∧
    delta_to_angle 1 ((((1 : ℕ) : Int) : ℝ) * (1.0 / ((((3 : ℕ) : Int) - 1 : Int) : ℝ)))
      ≤ delta_to_angle 1 ((((1 + 1 : ℕ) : Int) : ℝ) * (1.0 / ((((3 : ℕ) : Int) - 1 : Int) : ℝ))) :=
  ⟨(C9_eased_angle_monotone 1 (by norm_num)).1 0 1 (by norm_num),
   (C9_eased_angle_monotone 1 (by norm_num)).2 3 1 (by decide) (by decide) (by decide)⟩

/-- C5, as stated, fails: with `normals[N-1] = end_normal = (0, 1/2, 0)` (not
of unit length) on the straight two-point path along x, `smooth_twist` turns
the last normal, so `normals` is changed. -/
theorem C5_counterexample :
    ∃ out, smooth_twist ⟨[⟨1, 0, 0⟩, ⟨1, 0, 0⟩], [⟨0, 1 / 2, 0⟩, ⟨0, 1 / 2, 0⟩], ⟨0, 1 / 2, 0⟩⟩ 2
        = some out ∧
      out.normals ≠ [⟨0, 1 / 2, 0⟩, ⟨0, 1 / 2, 0⟩] := by
  refine ⟨_, smooth_twist_two _ _ _ _ _, ?_⟩
  intro hEq
  have htw : measured_twist ⟨0, 1 / 2, 0⟩ ⟨0, 1 / 2, 0⟩ ⟨1, 0, 0⟩ = Real.arccos (1 / 4) := by
    have hd : acos (inner ⟨0, 1 / 2, 0⟩ ⟨0, 1 / 2, 0⟩) = some (Real.arccos (1 / 4)) := by
      have : inner ⟨0, 1 / 2, 0⟩ ⟨0, 1 / 2, 0⟩ = 1 / 4 := by simp [inner]; norm_num
      rw [this, acos, if_pos (by norm_num)]
    unfold measured_twist
    simp only [hd, isnan, cross_self_inner, Option.isNone_some, Option.getD_some, lt_irrefl,
      if_false, Bool.false_eq_true]
  have hpos : 0 < Real.arccos (1 / 4) := Real.arccos_pos.mpr (by norm_num)
  obtain ⟨ha0, ha1⟩ := delta_to_angle_between (Real.arccos (1 / 4)) 1 hpos
  have hsin := Real.sin_pos_of_pos_of_lt_pi ha0 (lt_of_lt_of_le ha1 (Real.arccos_le_pi _))
  rw [htw] at hEq
  simp only [List.cons.injEq, true_and, and_true] at hEq
  have hz := congrArg V3.z hEq
  simp only [_rotate_around] at hz
  linarith

/-! ## The frame spanned by a unit tangent and a unit normal -/

theorem inner_comm (u v : V3) : inner u v = inner v u := by
  simp only [inner]; ring

theorem triple_cycle (n e t : V3) : inner (cross n e) t = inner (cross t n) e := by
  simp only [inner, cross]; ring

/-- The rotation written out: `c v + s (n x v) + (1 - c) (n . v) n`. -/
theorem rotate_around_formula (n : V3) (c s : ℝ) (v : V3) :
    _rotate_around n c s v =
      { x := c * v.x + s * (cross n v).x + (1 - c) * inner n v * n.x
        y := c * v.y + s * (cross n v).y + (1 - c) * inner n v * n.y
        z := c * v.z + s * (cross n v).z + (1 - c) * inner n v * n.z } := by
  ext <;> simp only [_rotate_around, inner, cross] <;> ring

/-- Projection on the cross product of two vectors, for all vectors. -/
theorem cross_projection (a b e : V3) :
    inner (cross a b) e * (cross a b).x
      = (inner a a * inner b b - inner a b * inner a b) * e.x - inner b b * inner a e * a.x
        - inner a a * inner b e * b.x + inner a b * (inner b e * a.x + inner a e * b.x) ∧
    inner (cross a b) e * (cross a b).y
      = (inner a a * inner b b - inner a b * inner a b) * e.y - inner b b * inner a e * a.y
        - inner a a * inner b e * b.y + inner a b * (inner b e * a.y + inner a e * b.y) ∧
    inner (cross a b) e * (cross a b).z
      = (inner a a * inner b b - inner a b * inner a b) * e.z - inner b b * inner a e * a.z
        - inner a a * inner b e * b.z + inner a b * (inner b e * a.z + inner a e * b.z) := by
  refine ⟨?_, ?_, ?_⟩ <;> simp only [inner, cross] <;> ring

/-- A vector `e` perpendicular to the unit tangent `t` lies in the plane of the
unit normal `n` (perpendicular to `t`) and `cross t n`. -/
theorem plane_expansion (t n e : V3) (ht : inner t t = 1) (hn : inner n n = 1)
    (hnt : inner n t = 0) (het : inner e t = 0) :
    e = { x := inner n e * n.x + inner (cross n e) t * (cross t n).x
          y := inner n e * n.y + inner (cross n e) t * (cross t n).y
          z := inner n e * n.z + inner (cross n e) t * (cross t n).z } := by
  obtain ⟨hx, hy, hz⟩ := cross_projection t n e
  rw [inner_comm n t] at hnt
  rw [inner_comm e t] at het
  rw [ht, hn, hnt, het] at hx hy hz
  rw [triple_cycle]
  ext
  · simp only []; linarith
  · simp only []; linarith
  · simp only []; linarith

/-- In that plane the two coordinates of `e` are the cosine and sine of an angle. -/
theorem plane_coords_sq (t n e : V3) (ht : inner t t = 1) (hn : inner n n = 1)
    (hnt : inner n t = 0) (he : inner e e = 1) (het : inner e t = 0) :
    inner n e ^ 2 + inner (cross n e) t ^ 2 = 1 := by
  obtain ⟨hx, hy, hz⟩ := cross_projection t n e
  rw [inner_comm n t] at hnt
  rw [inner_comm e t] at het
  rw [ht, hn, hnt, het] at hx hy hz
  rw [triple_cycle]
  have hq : inner (cross t n) e ^ 2
      = inner (cross t n) e * (cross t n).x * e.x + inner (cross t n) e * (cross t n).y * e.y
        + inner (cross t n) e * (cross t n).z * e.z := by
    simp only [inner]; ring
  rw [hq, hx, hy, hz]
  have he2 : e.x * e.x + e.y * e.y + e.z * e.z = 1 := he
  have hne : inner n e = n.x * e.x + n.y * e.y + n.z * e.z := rfl
  rw [hne]
  linear_combination he2

theorem measured_twist_eq (n e t : V3) (h1 : -1 ≤ inner n e) (h2 : inner n e ≤ 1) :
    measured_twist n e t
      = if inner (cross n e) t < 0 then -Real.arccos (inner n e) else Real.arccos (inner n e) := by
  unfold measured_twist
  simp only [acos, if_pos (And.intro h1 h2), isnan, Option.isNone_some, Option.getD_some,
    Bool.false_eq_true, if_false]

/-- For a unit tangent and unit normals perpendicular to it, the cosine and
sine of the measured twist are the two plane coordinates of `e`. -/
theorem measured_twist_cos_sin (t n e : V3) (ht : inner t t = 1) (hn : inner n n = 1)
    (hnt : inner n t = 0) (he : inner e e = 1) (het : inner e t = 0) :
    -1 ≤ inner n e ∧ inner n e ≤ 1 ∧
    Real.cos (measured_twist n e t) = inner n e ∧
    Real.sin (measured_twist n e t) = inner (cross n e) t := by
  have hsq := plane_coords_sq t n e ht hn hnt he het
  have h1 : -1 ≤ inner n e := by nlinarith [sq_nonneg (inner (cross n e) t)]
  have h2 : inner n e ≤ 1 := by nlinarith [sq_nonneg (inner (cross n e) t)]
  have hs : Real.sqrt (1 - inner n e ^ 2) = |inner (cross n e) t| := by
    have : 1 - inner n e ^ 2 = inner (cross n e) t ^ 2 := by linarith
    rw [this, Real.sqrt_sq_eq_abs]
  refine ⟨h1, h2, ?_, ?_⟩
  · rw [measured_twist_eq n e t h1 h2]
    split_ifs
    · rw [Real.cos_neg, Real.cos_arccos h1 h2]
    · rw [Real.cos_arccos h1 h2]
  · rw [measured_twist_eq n e t h1 h2]
    split_ifs with hq
    · rw [Real.sin_neg, Real.sin_arccos, hs, abs_of_neg hq]; ring
    · rw [Real.sin_arccos, hs, abs_of_nonneg (not_lt.mp hq)]

/-- C6: for a unit last tangent `t`, a unit last normal `n` perpendicular to
`t` and a unit end normal `e` perpendicular to `t`, the total twist that
`smooth_twist` measures is `acos(n . e)`, negated exactly when
`dot(cross(n, e), t) < 0`, and turning `n` about `t` by that full signed
twist with `_rotate_around` gives `e`. -/
theorem C6_signed_twist_carries_normal_to_end (t n e : V3) (ht : inner t t = 1)
    (hn : inner n n = 1) (hnt : inner n t = 0) (he : inner e e = 1) (het : inner e t = 0) :
    measured_twist n e t
      = (if inner (cross n e) t < 0 then -Real.arccos (inner n e) else Real.arccos (inner n e)) ∧
    _rotate_around t (Real.cos (measured_twist n e t)) (Real.sin (measured_twist n e t)) n = e := by
  obtain ⟨h1, h2, hc, hs⟩ := measured_twist_cos_sin t n e ht hn hnt he het
  refine ⟨measured_twist_eq n e t h1 h2, ?_⟩
  rw [rotate_around_formula, hc, hs, inner_comm t n, hnt]
  conv_rhs => rw [plane_expansion t n e ht hn hnt het]
  ext <;> simp

theorem C6_signed_twist_carries_normal_to_end_witness :
    measured_twist ⟨0, 1, 0⟩ ⟨0, 0, 1⟩ ⟨1, 0, 0⟩ = Real.pi / 2 ∧
    _rotate_around ⟨1, 0, 0⟩ (Real.cos (measured_twist ⟨0, 1, 0⟩ ⟨0, 0, 1⟩ ⟨1, 0, 0⟩))
      (Real.sin (measured_twist ⟨0, 1, 0⟩ ⟨0, 0, 1⟩ ⟨1, 0, 0⟩)) ⟨0, 1, 0⟩ = ⟨0, 0, 1⟩ := by
  have h := C6_signed_twist_carries_normal_to_end ⟨1, 0, 0⟩ ⟨0, 1, 0⟩ ⟨0, 0, 1⟩
    (by simp [inner]) (by simp [inner]) (by simp [inner]) (by simp [inner]) (by simp [inner])
  refine ⟨?_, h.2⟩
  rw [h.1]
  simp [inner, cross]

/-! ## Turning a normal about its tangent -/

theorem lagrange (a b : V3) :
    inner (cross a b) (cross a b) = inner a a * inner b b - inner a b * inner a b := by
  simp only [inner, cross]; ring

theorem inner_cross_right (t n : V3) : inner n (cross t n) = 0 := by
  simp only [inner, cross]; ring

theorem inner_cross_left (t n : V3) : inner (cross t n) t = 0 := by
  simp only [inner, cross]; ring

/-- A normal perpendicular to the axis stays in the plane of `n` and `cross t n`. -/
theorem rotate_around_perp (t n : V3) (c s : ℝ) (hnt : inner n t = 0) :
    _rotate_around t c s n = comb c s n (cross t n) := by
  rw [rotate_around_formula, inner_comm t n, hnt]
  ext <;> simp [comb]

theorem inner_comb (c s : ℝ) (u v w : V3) :
    inner (comb c s u v) w = c * inner u w + s * inner v w := by
  simp only [inner, comb]; ring

theorem inner_comb_self (c s : ℝ) (u v : V3) :
    inner (comb c s u v) (comb c s u v)
      = c ^ 2 * inner u u + 2 * c * s * inner u v + s ^ 2 * inner v v := by
  simp only [inner, comb]; ring

/-- Turning a unit normal perpendicular to the unit tangent keeps it a unit
vector perpendicular to the tangent. -/
theorem comb_unit_perp (t n : V3) (c s : ℝ) (hcs : c ^ 2 + s ^ 2 = 1) (ht : inner t t = 1)
    (hn : inner n n = 1) (hnt : inner n t = 0) :
    inner (comb c s n (cross t n)) (comb c s n (cross t n)) = 1 ∧
    inner (comb c s n (cross t n)) t = 0 := by
  constructor
  · rw [inner_comb_self, inner_cross_right, lagrange, ht, hn, inner_comm t n, hnt]
    linear_combination hcs
  · rw [inner_comb, inner_cross_left, hnt]; ring

theorem abs_measured_twist (n e t : V3) (h1 : -1 ≤ inner n e) (h2 : inner n e ≤ 1) :
    |measured_twist n e t| = Real.arccos (inner n e) := by
  rw [measured_twist_eq n e t h1 h2]
  split_ifs
  · rw [abs_neg, abs_of_nonneg (Real.arccos_nonneg _)]
  · rw [abs_of_nonneg (Real.arccos_nonneg _)]

theorem arccos_cos_abs (x : ℝ) (hx : |x| ≤ Real.pi) : Real.arccos (Real.cos x) = |x| := by
  rw [← Real.cos_abs x, Real.arccos_cos (abs_nonneg x) hx]

theorem exp_four_gt : (49 : ℝ) < Real.exp 4 := by
  have h1 : (2.7 : ℝ) < Real.exp 1 := lt_trans (by norm_num) Real.exp_one_gt_d9
  have h4 : Real.exp 4 = Real.exp 1 ^ 4 := by
    rw [← Real.exp_nat_mul]; norm_num
  rw [h4]
  have : (2.7 : ℝ) ^ 4 < Real.exp 1 ^ 4 := pow_lt_pow_left₀ h1 (by norm_num) (by norm_num)
  linarith [show (49 : ℝ) < 2.7 ^ 4 by norm_num]

/-- The eased angle at the end of the path, `f = 1`, is the twist over `1 + exp(-4)`. -/
theorem delta_to_angle_one (twist : ℝ) :
    delta_to_angle twist 1 = twist / (1 + Real.exp (-4)) := by
  unfold delta_to_angle
  have : (-8.0 : ℝ) * (1 - 0.5) = -4 := by norm_num
  rw [this]; ring

/-- What the eased angle at `f = 1` leaves of the twist is at most 2% of it. -/
theorem remaining_twist_small (twist : ℝ) :
    |twist - delta_to_angle twist 1| ≤ 0.02 * |twist| := by
  rw [delta_to_angle_one]
  have hpos := Real.exp_pos (-4)
  have hsmall : Real.exp (-4) < 1 / 49 := by
    rw [Real.exp_neg, inv_eq_one_div]
    exact one_div_lt_one_div_of_lt (by norm_num) exp_four_gt
  have hk : twist - twist / (1 + Real.exp (-4))
      = (Real.exp (-4) / (1 + Real.exp (-4))) * twist := by
    field_simp
    ring
  rw [hk, abs_mul, abs_of_pos (by positivity)]
  apply mul_le_mul_of_nonneg_right _ (abs_nonneg _)
  rw [div_le_iff₀ (by linarith)]
  linarith

/-- The last row sits at fraction `f = 1` of the path. -/
theorem last_fraction (N : ℕ) (h2 : 2 ≤ N) :
    (((N - 1 : ℕ) : Int) : ℝ) * (1.0 / (((N : Int) - 1 : Int) : ℝ)) = 1 := by
  have h : ((N - 1 : ℕ) : Int) = (N : Int) - 1 := by omega
  rw [h]
  have hne : ((((N : Int) - 1 : Int)) : ℝ) ≠ 0 := by
    have : ((N : Int) - 1) ≠ 0 := by omega
    exact_mod_cast this
  have h1 : (1.0 : ℝ) = 1 := by norm_num
  rw [h1, mul_one_div, div_self hne]

/-- After the last normal is turned by the eased angle at `f = 1`, the twist
measured against the same end normal is what the easing left over. -/
theorem second_twist_abs (t n e : V3) (ht : inner t t = 1) (hn : inner n n = 1)
    (hnt : inner n t = 0) (he : inner e e = 1) (het : inner e t = 0) :
    |measured_twist (_rotate_around t
        (Real.cos (delta_to_angle (measured_twist n e t) 1))
        (Real.sin (delta_to_angle (measured_twist n e t) 1)) n) e t|
      = |measured_twist n e t - delta_to_angle (measured_twist n e t) 1| := by
  obtain ⟨h1, h2, hc, hs⟩ := measured_twist_cos_sin t n e ht hn hnt he het
  have hsmall := remaining_twist_small (measured_twist n e t)
  have hpi : |measured_twist n e t - delta_to_angle (measured_twist n e t) 1| ≤ Real.pi := by
    have hθ : |measured_twist n e t| ≤ Real.pi := by
      rw [abs_measured_twist n e t h1 h2]; exact Real.arccos_le_pi _
    have := abs_nonneg (measured_twist n e t)
    linarith
  rw [rotate_around_perp t n _ _ hnt]
  obtain ⟨hu, hp⟩ := comb_unit_perp t n (Real.cos (delta_to_angle (measured_twist n e t) 1))
    (Real.sin (delta_to_angle (measured_twist n e t) 1)) (Real.cos_sq_add_sin_sq _) ht hn hnt
  obtain ⟨k1, k2, _, _⟩ := measured_twist_cos_sin t _ e ht hu hp he het
  rw [abs_measured_twist _ e t k1 k2, inner_comb, ← triple_cycle, ← hc, ← hs,
    ← arccos_cos_abs _ hpi, Real.cos_sub]
  congr 1
  ring

/-- C7, evaluated where it fails: on the straight two-point path along x with
last normal `(0,1,0)` and end normal `(0,0,1)` (all unit, both normals
perpendicular to the tangent) `smooth_twist` returns, and the new last normal
is not the end normal: its y component `cos(angle)` is positive. -/
theorem C7_end_normal_not_reached :
    ∃ out v, smooth_twist ⟨[⟨1, 0, 0⟩, ⟨1, 0, 0⟩], [⟨0, 1, 0⟩, ⟨0, 1, 0⟩], ⟨0, 0, 1⟩⟩ 2
        = some out ∧
      out.normals[1]? = some v ∧ 0 < v.y ∧ v ≠ ⟨0, 0, 1⟩ := by
  have htw : measured_twist ⟨0, 1, 0⟩ ⟨0, 0, 1⟩ ⟨1, 0, 0⟩ = Real.pi / 2 := by
    rw [measured_twist_eq _ _ _ (by simp [inner]) (by simp [inner])]
    simp [inner, cross]
  obtain ⟨ha0, ha1⟩ := delta_to_angle_between (Real.pi / 2) 1 (by positivity)
  have hcos : 0 < Real.cos (delta_to_angle (Real.pi / 2) 1) :=
    Real.cos_pos_of_mem_Ioo ⟨by linarith [Real.pi_pos], ha1⟩
  have hy : 0 < (_rotate_around ⟨1, 0, 0⟩
      (Real.cos (delta_to_angle (measured_twist ⟨0, 1, 0⟩ ⟨0, 0, 1⟩ ⟨1, 0, 0⟩) 1))
      (Real.sin (delta_to_angle (measured_twist ⟨0, 1, 0⟩ ⟨0, 0, 1⟩ ⟨1, 0, 0⟩) 1))
      ⟨0, 1, 0⟩).y := by
    rw [htw]
    simp only [_rotate_around]
    linarith
  refine ⟨_, _, smooth_twist_two _ _ _ _ _, rfl, hy, ?_⟩
  intro hEq
  have h := congrArg V3.y hEq
  change (_rotate_around _ _ _ _).y = 0 at h
  linarith

/-- C10: on a path of `N ≥ 2` points with unit last tangent `t` and unit
`normals[N-1]`, `end_normal` both perpendicular to `t`, the first run returns
with tangents and end normal kept, and the total twist a second run measures
from the new last normal is at most 2% of the total twist the first run
measured; so is every angle the second run applies. -/
theorem C10_second_run_twist_small (m : Bufs) (n t : V3) (h2 : 2 ≤ m.tangents.length)
    (hnl : m.normals.length = m.tangents.length)
    (hn : m.normals[m.tangents.length - 1]? = some n)
    (ht : m.tangents[m.tangents.length - 1]? = some t)
    (htt : inner t t = 1) (hnn : inner n n = 1) (hnt : inner n t = 0)
    (hee : inner m.n_end m.n_end = 1) (het : inner m.n_end t = 0) :
    ∃ out n1, smooth_twist m (m.tangents.length : Int) = some out ∧
      out.normals[m.tangents.length - 1]? = some n1 ∧
      out.tangents = m.tangents ∧ out.n_end = m.n_end ∧
      |measured_twist n1 m.n_end t| ≤ 0.02 * |measured_twist n m.n_end t| ∧
      ∀ f : ℝ, |delta_to_angle (measured_twist n1 m.n_end t) f|
        ≤ 0.02 * |measured_twist n m.n_end t| := by
  obtain ⟨n', lt, out, hn', hlt, hout, hot, hoe, _, _, hrow⟩ :=
    smooth_twist_spec m m.tangents.length (by omega) rfl hnl
  rw [hn] at hn'
  rw [ht] at hlt
  obtain rfl := Option.some.inj hn'
  obtain rfl := Option.some.inj hlt
  obtain ⟨t', v, ht', hv, hres⟩ := hrow (m.tangents.length - 1) (by omega) (by omega)
  rw [ht] at ht'
  rw [hn] at hv
  obtain rfl := Option.some.inj ht'
  obtain rfl := Option.some.inj hv
  rw [last_fraction _ h2] at hres
  have hmain : |measured_twist (_rotate_around t
        (Real.cos (delta_to_angle (measured_twist n m.n_end t) 1))
        (Real.sin (delta_to_angle (measured_twist n m.n_end t) 1)) n) m.n_end t|
      ≤ 0.02 * |measured_twist n m.n_end t| := by
    rw [second_twist_abs t n m.n_end htt hnn hnt hee het]
    exact remaining_twist_small _
  refine ⟨out, _, hout, hres, hot, hoe, hmain, ?_⟩
  intro f
  refine le_trans ?_ hmain
  unfold delta_to_angle
  rw [abs_mul, abs_of_pos (sigmoid_pos f)]
  have := sigmoid_lt_one f
  have hnn := abs_nonneg (measured_twist (_rotate_around t
        (Real.cos (delta_to_angle (measured_twist n m.n_end t) 1))
        (Real.sin (delta_to_angle (measured_twist n m.n_end t) 1)) n) m.n_end t)
  exact mul_le_of_le_one_left hnn this.le

theorem C10_second_run_twist_small_witness :
    ∃ out n1, smooth_twist ⟨[⟨1, 0, 0⟩, ⟨1, 0, 0⟩], [⟨0, 1, 0⟩, ⟨0, 1, 0⟩], ⟨0, 0, 1⟩⟩
        (([⟨1, 0, 0⟩, ⟨1, 0, 0⟩] : List V3).length : Int) = some out ∧
      out.normals[([⟨1, 0, 0⟩, ⟨1, 0, 0⟩] : List V3).length - 1]? = some n1 ∧
      out.tangents = [⟨1, 0, 0⟩, ⟨1, 0, 0⟩] ∧ out.n_end = ⟨0, 0, 1⟩ ∧
      |measured_twist n1 ⟨0, 0, 1⟩ ⟨1, 0, 0⟩|
        ≤ 0.02 * |measured_twist ⟨0, 1, 0⟩ ⟨0, 0, 1⟩ ⟨1, 0, 0⟩| ∧
      ∀ f : ℝ, |delta_to_angle (measured_twist n1 ⟨0, 0, 1⟩ ⟨1, 0, 0⟩) f|
        ≤ 0.02 * |measured_twist ⟨0, 1, 0⟩ ⟨0, 0, 1⟩ ⟨1, 0, 0⟩| :=
  C10_second_run_twist_small ⟨[⟨1, 0, 0⟩, ⟨1, 0, 0⟩], [⟨0, 1, 0⟩, ⟨0, 1, 0⟩], ⟨0, 0, 1⟩⟩
    ⟨0, 1, 0⟩ ⟨1, 0, 0⟩ (by simp) (by simp) (by simp) (by simp)
    (by simp [inner]) (by simp [inner]) (by simp [inner]) (by simp [inner]) (by simp [inner])

/-! ## Claims on `_rotate_around`, the easing curve and undefined twists -/

/-- C14: for every axis `n`, every `c`, `s` and every vector `v`, the vector
`_rotate_around` writes is the Rodrigues formula
`c v + s cross(n, v) + (1 - c) (n . v) n`, each component computed from the
three components `v` had on entry. -/
theorem C14_rotate_around_is_rodrigues (n : V3) (c s : ℝ) (v : V3) :
    _rotate_around n c s v = rodrigues_ref n c s v := by
  ext <;> simp only [_rotate_around, rodrigues_ref, inner, cross] <;> ring

/-- The logistic weights at `f` and at `1 - f` add up to 1. -/
theorem sigmoid_mirror (f : ℝ) :
    1.0 / (1 + Real.exp (-8.0 * (f - 0.5))) + 1.0 / (1 + Real.exp (-8.0 * ((1 - f) - 0.5))) = 1 := by
  have hm : (-8.0 : ℝ) * ((1 - f) - 0.5) = -(-8.0 * (f - 0.5)) := by ring
  rw [hm, Real.exp_neg]
  have hpos := Real.exp_pos (-8.0 * (f - 0.5))
  have h1 : (1.0 : ℝ) = 1 := by norm_num
  rw [h1]
  field_simp
  ring

/-- C19: for every twist and every `f`, `delta_to_angle twist f +
delta_to_angle twist (1 - f) = twist`, so `delta_to_angle twist (1/2) =
twist / 2`; and for `twist > 0` every eased angle lies strictly between 0 and
`twist`. -/
theorem C19_easing_is_centred_s_curve (twist : ℝ) :
    (∀ f : ℝ, delta_to_angle twist f + delta_to_angle twist (1 - f) = twist) ∧
    delta_to_angle twist (1 / 2) = twist / 2 ∧
    (0 < twist → ∀ f : ℝ, 0 < delta_to_angle twist f ∧ delta_to_angle twist f < twist) := by
  have hsum : ∀ f : ℝ, delta_to_angle twist f + delta_to_angle twist (1 - f) = twist := by
    intro f
    unfold delta_to_angle
    rw [← add_mul, sigmoid_mirror, one_mul]
  refine ⟨hsum, ?_, fun h0 f => delta_to_angle_between twist f h0⟩
  have h := hsum (1 / 2)
  have hh : (1 : ℝ) - 1 / 2 = 1 / 2 := by norm_num
  rw [hh] at h
  linarith

theorem C19_easing_is_centred_s_curve_witness :
    delta_to_angle 2 (1 / 4) + delta_to_angle 2 (1 - 1 / 4) = 2 ∧
    delta_to_angle 2 (1 / 2) = 2 / 2 ∧
    (0 < delta_to_angle 2 (1 / 4) ∧ delta_to_angle 2 (1 / 4) < 2) :=
  ⟨(C19_easing_is_centred_s_curve 2).1 (1 / 4), (C19_easing_is_centred_s_curve 2).2.1,
   (C19_easing_is_centred_s_curve 2).2.2 (by norm_num) (1 / 4)⟩

/-! ## The Python entry point on a one-point path -/

/-- The static function on a one-point path: the loop test `i != num_pts`
fails at once and every buffer is returned as it was. -/
theorem smooth_twist_one_point (m : Bufs) (h1 : m.tangents.length = 1)
    (hn : 1 ≤ m.normals.length) : smooth_twist m 1 = some m := by
  obtain ⟨n, hn0⟩ : ∃ n, m.normals[0]? = some n :=
    ⟨m.normals[0], List.getElem?_eq_getElem (by omega)⟩
  obtain ⟨t, ht0⟩ : ∃ t, m.tangents[0]? = some t :=
    ⟨m.tangents[0], List.getElem?_eq_getElem (by omega)⟩
  have e1 : rd m.normals ((1 : Int) - 1) = some n := by
    have := rd_nat m.normals 0
    simpa [hn0] using this
  have e2 : rd m.tangents ((1 : Int) - 1) = some t := by
    have := rd_nat m.tangents 0
    simpa [ht0] using this
  rw [smooth_twist]
  simp only [e1, e2]
  rw [twist_loop]
  simp

theorem to_int_one : to_int 1 = 1 := by
  norm_num [to_int]

/-- C11, as stated, fails: called with accepted arguments whose tangents array
has exactly one row, the entry point returns `None`, not an error. -/
theorem C11_counterexample :
    smooth_twist_py true ⟨[⟨1, 0, 0⟩], [⟨0, 1, 0⟩], ⟨0, 0, 1⟩⟩
        = some (PyReturn.py_none, ⟨[⟨1, 0, 0⟩], [⟨0, 1, 0⟩], ⟨0, 0, 1⟩⟩) ∧
      PyReturn.py_none ≠ PyReturn.null := by
  constructor
  · have h := smooth_twist_one_point ⟨[⟨1, 0, 0⟩], [⟨0, 1, 0⟩], ⟨0, 0, 1⟩⟩ rfl (by simp)
    simp [smooth_twist_py, to_int_one, h]
  · intro h
    cases h

/-- C11, amended: for every call whose tangents array has exactly one row and
whose normals array has at least one row, the entry point returns `None`
without an error when the converters accept the arguments, returns an error
only when they refuse them, and leaves every buffer unchanged either way. -/
theorem C11_one_point_path_is_accepted (m : Bufs) (h1 : m.tangents.length = 1)
    (hn : 1 ≤ m.normals.length) :
    smooth_twist_py true m = some (PyReturn.py_none, m) ∧
    smooth_twist_py false m = some (PyReturn.null, m) := by
  constructor
  · have h := smooth_twist_one_point m h1 hn
    have hi : to_int (m.tangents.length : Int) = 1 := by rw [h1]; exact to_int_one
    simp [smooth_twist_py, hi, h]
  · simp [smooth_twist_py]

theorem C11_one_point_path_is_accepted_witness :
    smooth_twist_py true ⟨[⟨0, 0, 1⟩], [⟨1, 0, 0⟩], ⟨0, 1, 0⟩⟩
        = some (PyReturn.py_none, ⟨[⟨0, 0, 1⟩], [⟨1, 0, 0⟩], ⟨0, 1, 0⟩⟩) ∧
    smooth_twist_py false ⟨[⟨0, 0, 1⟩], [⟨1, 0, 0⟩], ⟨0, 1, 0⟩⟩
        = some (PyReturn.null, ⟨[⟨0, 0, 1⟩], [⟨1, 0, 0⟩], ⟨0, 1, 0⟩⟩) :=
  C11_one_point_path_is_accepted ⟨[⟨0, 0, 1⟩], [⟨1, 0, 0⟩], ⟨0, 1, 0⟩⟩ rfl (by simp)

/-! ## What a rotation about a unit axis preserves -/

/-- The component along a unit axis is kept, whatever `c` and `s` are. -/
theorem rotate_around_inner_axis (a : V3) (c s : ℝ) (v : V3) (ha : inner a a = 1) :
    inner (_rotate_around a c s v) a = inner v a := by
  simp only [_rotate_around, inner] at *
  linear_combination ((1 - c) * (v.x * a.x + v.y * a.y + v.z * a.z)) * ha

/-- Inner products are kept when the axis is a unit vector and `c² + s² = 1`. -/
theorem rotate_around_inner (a : V3) (c s : ℝ) (u v : V3) (ha : inner a a = 1)
    (hcs : c ^ 2 + s ^ 2 = 1) :
    inner (_rotate_around a c s u) (_rotate_around a c s v) = inner u v := by
  simp only [_rotate_around, inner] at *
  linear_combination
    ((u.x * v.x + u.y * v.y + u.z * v.z)
        - (a.x * u.x + a.y * u.y + a.z * u.z) * (a.x * v.x + a.y * v.y + a.z * v.z)) * hcs
      + (s ^ 2 * (u.x * v.x + u.y * v.y + u.z * v.z)
        + (1 - c) ^ 2 * (a.x * u.x + a.y * u.y + a.z * u.z)
          * (a.x * v.x + a.y * v.y + a.z * v.z)) * ha

/-- C20: on a path of `N ≥ 2` points whose tangents are unit vectors,
`smooth_twist` returns and, at every index `i`, the new normal has the squared
length of the old one and the same component along tangent `i`; so a normal
that was unit and perpendicular to its tangent still is. -/
theorem C20_twist_keeps_length_and_tangent_component (m : Bufs) (h2 : 2 ≤ m.tangents.length)
    (hnl : m.normals.length = m.tangents.length)
    (hunit : ∀ t ∈ m.tangents, inner t t = 1) :
    ∃ out, smooth_twist m (m.tangents.length : Int) = some out ∧
      ∀ i, i < m.tangents.length → ∃ t v w, m.tangents[i]? = some t ∧
        m.normals[i]? = some v ∧ out.normals[i]? = some w ∧
        inner w w = inner v v ∧ inner w t = inner v t ∧
        (inner v v = 1 ∧ inner v t = 0 → inner w w = 1 ∧ inner w t = 0) := by
  obtain ⟨_, _, out, _, _, hout, _, _, _, h0, hrow⟩ :=
    smooth_twist_spec m m.tangents.length (by omega) rfl hnl
  refine ⟨out, hout, ?_⟩
  intro i hi
  rcases Nat.eq_zero_or_pos i with hi0 | hi0
  · subst hi0
    obtain ⟨t, ht⟩ : ∃ t, m.tangents[0]? = some t :=
      ⟨m.tangents[0], List.getElem?_eq_getElem (by omega)⟩
    obtain ⟨v, hv⟩ : ∃ v, m.normals[0]? = some v :=
      ⟨m.normals[0], List.getElem?_eq_getElem (by omega)⟩
    exact ⟨t, v, v, ht, hv, by rw [h0, hv], rfl, rfl, fun h => h⟩
  · obtain ⟨t, v, ht, hv, hres⟩ := hrow i hi0 hi
    have hu : inner t t = 1 := hunit t (List.getElem?_mem ht)
    refine ⟨t, v, _, ht, hv, hres, ?_, ?_, ?_⟩
    · exact rotate_around_inner t _ _ v v hu (Real.cos_sq_add_sin_sq _)
    · exact rotate_around_inner_axis t _ _ v hu
    · intro h
      rw [rotate_around_inner t _ _ v v hu (Real.cos_sq_add_sin_sq _),
        rotate_around_inner_axis t _ _ v hu]
      exact h

theorem C20_twist_keeps_length_and_tangent_component_witness :
    ∃ out, smooth_twist ⟨[⟨1, 0, 0⟩, ⟨0, 1, 0⟩], [⟨0, 1, 0⟩, ⟨0, 0, 1⟩], ⟨1, 0, 0⟩⟩
        (([⟨1, 0, 0⟩, ⟨0, 1, 0⟩] : List V3).length : Int) = some out ∧
      ∀ i, i < ([⟨1, 0, 0⟩, ⟨0, 1, 0⟩] : List V3).length → ∃ t v w,
        ([⟨1, 0, 0⟩, ⟨0, 1, 0⟩] : List V3)[i]? = some t ∧
        ([⟨0, 1, 0⟩, ⟨0, 0, 1⟩] : List V3)[i]? = some v ∧ out.normals[i]? = some w ∧
        inner w w = inner v v ∧ inner w t = inner v t ∧
        (inner v v = 1 ∧ inner v t = 0 → inner w w = 1 ∧ inner w t = 0) :=
  C20_twist_keeps_length_and_tangent_component
    ⟨[⟨1, 0, 0⟩, ⟨0, 1, 0⟩], [⟨0, 1, 0⟩, ⟨0, 0, 1⟩], ⟨1, 0, 0⟩⟩ (by simp) (by simp)
    (by intro t ht; simp at ht; rcases ht with rfl | rfl <;> simp [inner])

/-! ## The transport step as a rotation -/

theorem inner_self_nonneg (v : V3) : 0 ≤ inner v v := by
  simp only [inner]
  nlinarith [mul_self_nonneg v.x, mul_self_nonneg v.y, mul_self_nonneg v.z]

/-- When the binormal is not zero and `1 - c²` is not negative, the loop body
turns the normal about `b_hat` by the angle with cosine `c` and sine
`sqrt(1 - c²)`. -/
theorem transport_step_rotate (t0 t1 n : V3) (hB : 0 < inner (cross t0 t1) (cross t0 t1))
    (hc : 0 ≤ 1 - inner t0 t1 * inner t0 t1) :
    transport_step t0 t1 n
      = _rotate_around (unit_binormal t0 t1) (inner t0 t1)
          (Real.sqrt (1 - inner t0 t1 * inner t0 t1)) n := by
  have hs : 0 < Real.sqrt (inner (cross t0 t1) (cross t0 t1)) := Real.sqrt_pos.mpr hB
  simp only [transport_step, sqrtf, if_pos hB.le, if_pos hc, gt_iff_lt, if_pos hs, isnan,
    Option.isNone_some, Bool.not_false, if_true, unit_binormal]

theorem unit_binormal_unit (t0 t1 : V3) (hB : 0 < inner (cross t0 t1) (cross t0 t1)) :
    inner (unit_binormal t0 t1) (unit_binormal t0 t1) = 1 := by
  have hs : 0 < Real.sqrt (inner (cross t0 t1) (cross t0 t1)) := Real.sqrt_pos.mpr hB
  have hss := Real.mul_self_sqrt hB.le
  have hexp : inner (unit_binormal t0 t1) (unit_binormal t0 t1)
      = inner (cross t0 t1) (cross t0 t1)
        / (Real.sqrt (inner (cross t0 t1) (cross t0 t1))
          * Real.sqrt (inner (cross t0 t1) (cross t0 t1))) := by
    simp only [inner, unit_binormal]
    field_simp
  rw [hexp, hss, div_self hB.ne']

/-- The double cross product `(t0 x t1) x t0`, for all vectors. -/
theorem cross_cross_left (t0 t1 : V3) :
    cross (cross t0 t1) t0
      = { x := t1.x * inner t0 t0 - t0.x * inner t0 t1
          y := t1.y * inner t0 t0 - t0.y * inner t0 t1
          z := t1.z * inner t0 t0 - t0.z * inner t0 t1 } := by
  ext <;> simp only [inner, cross] <;> ring

/-- Turning about `b_hat` by a sine equal to the length of the binormal: the
divisions by that length cancel. -/
theorem rotate_unit_binormal (t0 t1 v : V3) (c : ℝ)
    (hB : 0 < inner (cross t0 t1) (cross t0 t1)) :
    _rotate_around (unit_binormal t0 t1) c (Real.sqrt (inner (cross t0 t1) (cross t0 t1))) v
      = { x := c * v.x + (cross (cross t0 t1) v).x
            + (1 - c) * inner (cross t0 t1) v * (cross t0 t1).x
              / inner (cross t0 t1) (cross t0 t1)
          y := c * v.y + (cross (cross t0 t1) v).y
            + (1 - c) * inner (cross t0 t1) v * (cross t0 t1).y
              / inner (cross t0 t1) (cross t0 t1)
          z := c * v.z + (cross (cross t0 t1) v).z
            + (1 - c) * inner (cross t0 t1) v * (cross t0 t1).z
              / inner (cross t0 t1) (cross t0 t1) } := by
  have hs : 0 < Real.sqrt (inner (cross t0 t1) (cross t0 t1)) := Real.sqrt_pos.mpr hB
  have hss := Real.mul_self_sqrt hB.le
  rw [rotate_around_formula]
  generalize Real.sqrt (inner (cross t0 t1) (cross t0 t1)) = k at hs hss ⊢
  simp only [unit_binormal] at hs hss ⊢
  rw [← hss]
  generalize cross t0 t1 = b
  ext <;> simp only [inner, cross] <;> field_simp

theorem inner_self_eq_zero (v : V3) (h : inner v v = 0) : v = { x := 0, y := 0, z := 0 } := by
  simp only [inner] at h
  have hx : v.x = 0 := by nlinarith [mul_self_nonneg v.x, mul_self_nonneg v.y, mul_self_nonneg v.z]
  have hy : v.y = 0 := by nlinarith [mul_self_nonneg v.x, mul_self_nonneg v.y, mul_self_nonneg v.z]
  have hz : v.z = 0 := by nlinarith [mul_self_nonneg v.x, mul_self_nonneg v.y, mul_self_nonneg v.z]
  ext <;> assumption

theorem cross_ne_zero_pos (t0 t1 : V3) (hne : cross t0 t1 ≠ { x := 0, y := 0, z := 0 }) :
    0 < inner (cross t0 t1) (cross t0 t1) := by
  rcases eq_or_lt_of_le (inner_self_nonneg (cross t0 t1)) with h | h
  · exact absurd (inner_self_eq_zero _ h.symm) hne
  · exact h

/-- For unit tangents the squared length of the binormal is `1 - c²`. -/
theorem lagrange_unit (t0 t1 : V3) (h0 : inner t0 t0 = 1) (h1 : inner t1 t1 = 1) :
    inner (cross t0 t1) (cross t0 t1) = 1 - inner t0 t1 * inner t0 t1 := by
  rw [lagrange, h0, h1]; ring

/-- The turn of a transport step between unit tangents carries the first
tangent onto the second. -/
theorem transport_turn_maps (t0 t1 : V3) (h0 : inner t0 t0 = 1) (h1 : inner t1 t1 = 1)
    (hB : 0 < inner (cross t0 t1) (cross t0 t1)) :
    _rotate_around (unit_binormal t0 t1) (inner t0 t1)
      (Real.sqrt (1 - inner t0 t1 * inner t0 t1)) t0 = t1 := by
  rw [← lagrange_unit t0 t1 h0 h1, rotate_unit_binormal t0 t1 t0 _ hB, inner_cross_left,
    cross_cross_left, h0]
  ext <;> simp <;> ring

/-- What the loop body does between two unit tangents: it keeps the normal when
the binormal is zero, and then the second tangent is `c` times the first;
otherwise it applies a rotation about a unit axis, with `c² + s² = 1`, that
carries the first tangent onto the second. -/
theorem transport_step_unit_cases (t0 t1 : V3) (h0 : inner t0 t0 = 1) (h1 : inner t1 t1 = 1) :
    ((∀ n, transport_step t0 t1 n = n) ∧ ∀ p, inner p t1 = inner t0 t1 * inner p t0) ∨
    (∃ a c s, inner a a = 1 ∧ c ^ 2 + s ^ 2 = 1 ∧
      (∀ n, transport_step t0 t1 n = _rotate_around a c s n) ∧ _rotate_around a c s t0 = t1) := by
  have hL := lagrange_unit t0 t1 h0 h1
  rcases eq_or_lt_of_le (inner_self_nonneg (cross t0 t1)) with hB | hB
  · left
    constructor
    · intro n
      apply transport_step_zero_cross
      rw [← hB]
      simp [sqrtf]
    · intro p
      have hd : inner ⟨t1.x - inner t0 t1 * t0.x, t1.y - inner t0 t1 * t0.y,
            t1.z - inner t0 t1 * t0.z⟩
          ⟨t1.x - inner t0 t1 * t0.x, t1.y - inner t0 t1 * t0.y,
            t1.z - inner t0 t1 * t0.z⟩ = 0 := by
        have e : inner ⟨t1.x - inner t0 t1 * t0.x, t1.y - inner t0 t1 * t0.y,
              t1.z - inner t0 t1 * t0.z⟩
            ⟨t1.x - inner t0 t1 * t0.x, t1.y - inner t0 t1 * t0.y,
              t1.z - inner t0 t1 * t0.z⟩
            = inner t1 t1 - 2 * inner t0 t1 * inner t0 t1
              + inner t0 t1 * inner t0 t1 * inner t0 t0 := by
          simp only [inner]; ring
        rw [e, h0, h1]
        linarith
      have hz := inner_self_eq_zero _ hd
      have hx := congrArg V3.x hz
      have hy := congrArg V3.y hz
      have hzz := congrArg V3.z hz
      simp only at hx hy hzz
      have ex : t1.x = inner t0 t1 * t0.x := by linarith
      have ey : t1.y = inner t0 t1 * t0.y := by linarith
      have ez : t1.z = inner t0 t1 * t0.z := by linarith
      have : inner p t1 = p.x * t1.x + p.y * t1.y + p.z * t1.z := rfl
      rw [this, ex, ey, ez]
      simp only [inner]; ring
  · right
    have hc : 0 ≤ 1 - inner t0 t1 * inner t0 t1 := by rw [← hL]; exact hB.le
    refine ⟨unit_binormal t0 t1, inner t0 t1, Real.sqrt (1 - inner t0 t1 * inner t0 t1),
      unit_binormal_unit t0 t1 hB, ?_, fun n => transport_step_rotate t0 t1 n hB hc,
      transport_turn_maps t0 t1 h0 h1 hB⟩
    rw [Real.sq_sqrt hc]; ring

/-- C15: for unit tangents `t0`, `t1` that are not parallel or antiparallel
(their cross product is not zero), the loop body applies the rotation about
`b_hat = cross(t0,t1)/|cross(t0,t1)|` with `c = t0 . t1` and the non-negative
sine `s = sqrt(1 - c²)`, and that rotation maps `t0` exactly onto `t1`. -/
theorem C15_transport_turn_maps_tangent (t0 t1 : V3) (h0 : inner t0 t0 = 1)
    (h1 : inner t1 t1 = 1) (hne : cross t0 t1 ≠ { x := 0, y := 0, z := 0 }) :
    0 ≤ Real.sqrt (1 - inner t0 t1 * inner t0 t1) ∧
    (∀ n, transport_step t0 t1 n
      = _rotate_around (unit_binormal t0 t1) (inner t0 t1)
          (Real.sqrt (1 - inner t0 t1 * inner t0 t1)) n) ∧
    _rotate_around (unit_binormal t0 t1) (inner t0 t1)
      (Real.sqrt (1 - inner t0 t1 * inner t0 t1)) t0 = t1 := by
  have hB := cross_ne_zero_pos t0 t1 hne
  have hc : 0 ≤ 1 - inner t0 t1 * inner t0 t1 := by
    rw [← lagrange_unit t0 t1 h0 h1]; exact hB.le
  exact ⟨Real.sqrt_nonneg _, fun n => transport_step_rotate t0 t1 n hB hc,
    transport_turn_maps t0 t1 h0 h1 hB⟩

theorem C15_transport_turn_maps_tangent_witness :
    0 ≤ Real.sqrt (1 - inner ⟨1, 0, 0⟩ ⟨0, 1, 0⟩ * inner ⟨1, 0, 0⟩ ⟨0, 1, 0⟩) ∧
    (∀ n, transport_step ⟨1, 0, 0⟩ ⟨0, 1, 0⟩ n
      = _rotate_around (unit_binormal ⟨1, 0, 0⟩ ⟨0, 1, 0⟩) (inner ⟨1, 0, 0⟩ ⟨0, 1, 0⟩)
          (Real.sqrt (1 - inner ⟨1, 0, 0⟩ ⟨0, 1, 0⟩ * inner ⟨1, 0, 0⟩ ⟨0, 1, 0⟩)) n) ∧
    _rotate_around (unit_binormal ⟨1, 0, 0⟩ ⟨0, 1, 0⟩) (inner ⟨1, 0, 0⟩ ⟨0, 1, 0⟩)
      (Real.sqrt (1 - inner ⟨1, 0, 0⟩ ⟨0, 1, 0⟩ * inner ⟨1, 0, 0⟩ ⟨0, 1, 0⟩)) ⟨1, 0, 0⟩
        = ⟨0, 1, 0⟩ :=
  C15_transport_turn_maps_tangent ⟨1, 0, 0⟩ ⟨0, 1, 0⟩ (by simp [inner]) (by simp [inner])
    (by simp [cross])

/-- Between unit tangents the loop body takes a normal perpendicular to the
first tangent to a normal perpendicular to the second. -/
theorem transport_step_keeps_perp (t0 t1 p : V3) (h0 : inner t0 t0 = 1)
    (h1 : inner t1 t1 = 1) (hp : inner p t0 = 0) : inner (transport_step t0 t1 p) t1 = 0 := by
  rcases transport_step_unit_cases t0 t1 h0 h1 with ⟨hid, hpar⟩ | ⟨a, c, s, ha, hcs, hrot, hmap⟩
  · rw [hid, hpar, hp, mul_zero]
  · have h := rotate_around_inner a c s p t0 ha hcs
    rw [hmap, ← hrot] at h
    rw [h, hp]

/-- Between unit tangents the loop body keeps the squared length of the normal. -/
theorem transport_step_keeps_norm (t0 t1 p : V3) (h0 : inner t0 t0 = 1)
    (h1 : inner t1 t1 = 1) :
    inner (transport_step t0 t1 p) (transport_step t0 t1 p) = inner p p := by
  rcases transport_step_unit_cases t0 t1 h0 h1 with ⟨hid, _⟩ | ⟨a, c, s, ha, hcs, hrot, _⟩
  · rw [hid]
  · rw [hrot, rotate_around_inner a c s p p ha hcs]

/-! ## Invariants of `_parallel_transport_normals` -/

/-- C16: on a path of `N ≥ 1` unit tangents with a start normal perpendicular
to tangent 0, the call returns and every normal it writes is perpendicular to
the tangent of its row, also across the steps that keep the normal because
consecutive tangents are parallel or antiparallel. -/
theorem C16_transport_keeps_perpendicular (tangents : List V3) (n0 t0 : V3)
    (normals : List V3) (h1 : 1 ≤ tangents.length) (hlen : normals.length = tangents.length)
    (hunit : ∀ t ∈ tangents, inner t t = 1) (ht0 : tangents[0]? = some t0)
    (hperp : inner n0 t0 = 0) :
    ∃ out, _parallel_transport_normals (tangents.length : Int) tangents n0 normals = some out ∧
      ∀ i, i < tangents.length → ∃ t w, tangents[i]? = some t ∧ out[i]? = some w ∧
        inner w t = 0 := by
  obtain ⟨out, hout, _, h0, hstep⟩ := transport_spec tangents n0 normals h1 hlen
  refine ⟨out, hout, ?_⟩
  intro i
  induction i with
  | zero => intro _; exact ⟨t0, n0, ht0, h0, hperp⟩
  | succ j ih =>
    intro hj
    obtain ⟨t, w, ht, hw, hwt⟩ := ih (by omega)
    obtain ⟨u1, u2, p, hu1, hu2, hp, hres⟩ := hstep (j + 1) (by omega) hj
    simp only [Nat.add_sub_cancel] at hu1 hp
    rw [ht] at hu1
    rw [hw] at hp
    obtain rfl := Option.some.inj hu1
    obtain rfl := Option.some.inj hp
    exact ⟨u2, _, hu2, hres, transport_step_keeps_perp t u2 w
      (hunit t (List.getElem?_mem ht)) (hunit u2 (List.getElem?_mem hu2)) hwt⟩

theorem C16_transport_keeps_perpendicular_witness :
    ∃ out, _parallel_transport_normals
        (([⟨1, 0, 0⟩, ⟨0, 1, 0⟩, ⟨0, -1, 0⟩] : List V3).length : Int)
        [⟨1, 0, 0⟩, ⟨0, 1, 0⟩, ⟨0, -1, 0⟩] ⟨0, 0, 1⟩ [⟨0, 0, 0⟩, ⟨0, 0, 0⟩, ⟨0, 0, 0⟩]
          = some out ∧
      ∀ i, i < ([⟨1, 0, 0⟩, ⟨0, 1, 0⟩, ⟨0, -1, 0⟩] : List V3).length → ∃ t w,
        ([⟨1, 0, 0⟩, ⟨0, 1, 0⟩, ⟨0, -1, 0⟩] : List V3)[i]? = some t ∧ out[i]? = some w ∧
        inner w t = 0 :=
  C16_transport_keeps_perpendicular [⟨1, 0, 0⟩, ⟨0, 1, 0⟩, ⟨0, -1, 0⟩] ⟨0, 0, 1⟩ ⟨1, 0, 0⟩
    [⟨0, 0, 0⟩, ⟨0, 0, 0⟩, ⟨0, 0, 0⟩] (by simp) (by simp)
    (by intro t ht; simp at ht; rcases ht with rfl | rfl | rfl <;> simp [inner])
    (by simp) (by simp [inner])

/-- C17: on a path of `N ≥ 1` unit tangents, for every start normal, the call
returns and every normal it writes has the squared length of the start normal;
a unit start normal gives unit normals at every index. -/
theorem C17_transport_keeps_length (tangents : List V3) (n0 : V3) (normals : List V3)
    (h1 : 1 ≤ tangents.length) (hlen : normals.length = tangents.length)
    (hunit : ∀ t ∈ tangents, inner t t = 1) :
    ∃ out, _parallel_transport_normals (tangents.length : Int) tangents n0 normals = some out ∧
      ∀ i, i < tangents.length → ∃ w, out[i]? = some w ∧ inner w w = inner n0 n0 ∧
        (inner n0 n0 = 1 → inner w w = 1) := by
  obtain ⟨out, hout, _, h0, hstep⟩ := transport_spec tangents n0 normals h1 hlen
  refine ⟨out, hout, ?_⟩
  have key : ∀ i, i < tangents.length → ∃ w, out[i]? = some w ∧ inner w w = inner n0 n0 := by
    intro i
    induction i with
    | zero => intro _; exact ⟨n0, h0, rfl⟩
    | succ j ih =>
      intro hj
      obtain ⟨w, hw, hww⟩ := ih (by omega)
      obtain ⟨u1, u2, p, hu1, hu2, hp, hres⟩ := hstep (j + 1) (by omega) hj
      simp only [Nat.add_sub_cancel] at hu1 hp
      rw [hw] at hp
      obtain rfl := Option.some.inj hp
      refine ⟨_, hres, ?_⟩
      rw [transport_step_keeps_norm u1 u2 w (hunit u1 (List.getElem?_mem hu1))
        (hunit u2 (List.getElem?_mem hu2)), hww]
  intro i hi
  obtain ⟨w, hw, hww⟩ := key i hi
  exact ⟨w, hw, hww, fun h => by rw [hww, h]⟩

theorem C17_transport_keeps_length_witness :
    ∃ out, _parallel_transport_normals (([⟨1, 0, 0⟩, ⟨0, 1, 0⟩] : List V3).length : Int)
        [⟨1, 0, 0⟩, ⟨0, 1, 0⟩] ⟨1, 2, 3⟩ [⟨0, 0, 0⟩, ⟨0, 0, 0⟩] = some out ∧
      ∀ i, i < ([⟨1, 0, 0⟩, ⟨0, 1, 0⟩] : List V3).length → ∃ w, out[i]? = some w ∧
        inner w w = inner ⟨1, 2, 3⟩ ⟨1, 2, 3⟩ ∧
        (inner ⟨1, 2, 3⟩ ⟨1, 2, 3⟩ = 1 → inner w w = 1) :=
  C17_transport_keeps_length [⟨1, 0, 0⟩, ⟨0, 1, 0⟩] ⟨1, 2, 3⟩ [⟨0, 0, 0⟩, ⟨0, 0, 0⟩]
    (by simp) (by simp)
    (by intro t ht; simp at ht; rcases ht with rfl | rfl <;> simp [inner])

theorem rd_none_of_le (a : List V3) (i : Int) (h : (a.length : Int) ≤ i) : rd a i = none := by
  unfold rd
  split_ifs with h0
  · exact List.getElem?_eq_none (by omega)
  · rfl

/-- The loop of `_parallel_transport_normals` is its test followed by one pass
and the loop again. -/
theorem transport_loop_unfold (num_pts : Int) (tangents : List V3) (s : TransportState) :
    transport_loop num_pts tangents s.i s.n s.normals
      = if s.i = num_pts then some s.normals
        else (transport_pass tangents s).bind
          (fun s1 => transport_loop num_pts tangents s1.i s1.n s1.normals) := by
  conv_lhs => rw [transport_loop]
  by_cases h : s.i = num_pts
  · simp only [if_pos h]
  · simp only [if_neg h]
    by_cases hlt : s.i < (tangents.length : Int)
    · simp only [dif_pos hlt, transport_pass]
      cases rd tangents (s.i - 1) <;> cases rd tangents s.i <;> simp only [Option.bind]
      cases wr s.normals s.i _ <;> rfl
    · simp only [dif_neg hlt, transport_pass, rd_none_of_le tangents s.i (not_lt.mp hlt)]
      cases rd tangents (s.i - 1) <;> rfl

/-- The loop of `smooth_twist` is its test followed by one pass and the loop again. -/
theorem twist_loop_unfold (num_pts : Int) (twist delta : ℝ) (s : TwistState) :
    twist_loop num_pts twist delta s.i s.m
      = if s.i = num_pts then some s.m
        else (twist_pass twist delta s).bind
          (fun s1 => twist_loop num_pts twist delta s1.i s1.m) := by
  conv_lhs => rw [twist_loop]
  by_cases h : s.i = num_pts
  · simp only [if_pos h]
  · simp only [if_neg h]
    by_cases hlt : s.i < (s.m.tangents.length : Int)
    · simp only [dif_pos hlt, twist_pass]
      cases rd s.m.tangents s.i <;> cases rd s.m.normals s.i <;> rfl
    · simp only [dif_neg hlt, twist_pass, rd_none_of_le s.m.tangents s.i (not_lt.mp hlt)]
      rfl

/-- A pass of the transport loop at a row inside both arrays is defined and
moves the index on by one. -/
theorem transport_pass_some (tangents : List V3) (s : TransportState) (k : ℕ)
    (hi : s.i = (k : Int)) (h1 : 1 ≤ k) (hk : k < tangents.length)
    (hn : k < s.normals.length) :
    ∃ s1, transport_pass tangents s = some s1 ∧ s1.i = ((k + 1 : ℕ) : Int) ∧
      s1.normals.length = s.normals.length := by
  obtain ⟨t1, ht1⟩ : ∃ t1, tangents[k - 1]? = some t1 :=
    ⟨tangents[k - 1], List.getElem?_eq_getElem (by omega)⟩
  obtain ⟨t2, ht2⟩ : ∃ t2, tangents[k]? = some t2 :=
    ⟨tangents[k], List.getElem?_eq_getElem hk⟩
  refine ⟨{ i := s.i + 1, n := transport_step t1 t2 s.n
            normals := s.normals.set k (transport_step t1 t2 s.n) }, ?_, ?_, ?_⟩
  · simp only [transport_pass, hi, rd_nat_pred _ _ h1, rd_nat, ht1, ht2, wr_nat _ _ _ hn]
  · simp only [hi]; push_cast; rfl
  · simp

/-- A pass of the twist loop at a row inside both arrays is defined, moves the
index on by one and keeps the sizes of the arrays. -/
theorem twist_pass_some (twist delta : ℝ) (s : TwistState) (k : ℕ)
    (hi : s.i = (k : Int)) (hk : k < s.m.tangents.length) (hn : k < s.m.normals.length) :
    ∃ s1, twist_pass twist delta s = some s1 ∧ s1.i = ((k + 1 : ℕ) : Int) ∧
      s1.m.tangents = s.m.tangents ∧ s1.m.normals.length = s.m.normals.length := by
  obtain ⟨t, ht⟩ : ∃ t, s.m.tangents[k]? = some t :=
    ⟨s.m.tangents[k], List.getElem?_eq_getElem hk⟩
  obtain ⟨v, hv⟩ : ∃ v, s.m.normals[k]? = some v :=
    ⟨s.m.normals[k], List.getElem?_eq_getElem hn⟩
  refine ⟨{ i := s.i + 1
            m := { s.m with normals := s.m.normals.set s.i.toNat (_rotate_around t
              (Real.cos (delta_to_angle twist (s.i * delta)))
              (Real.sin (delta_to_angle twist (s.i * delta))) v) } }, ?_, ?_, ?_, ?_⟩
  · simp only [twist_pass, hi, rd_nat, ht, hv]
  · simp only [hi]; push_cast; rfl
  · rfl
  · simp

/-- Entered at `k` with `d` rows left, the transport loop makes exactly `d`
passes: after `j < d` passes the index is `k + j`, after `d` passes it is
`num_pts`, and the loop returns the buffer of that state. -/
theorem transport_passes_run (tangents : List V3) (N : ℕ) (hN : tangents.length = N) :
    ∀ (d : ℕ) (s : TransportState) (k : ℕ), s.i = (k : Int) → k + d = N → 1 ≤ k →
      s.normals.length = N →
      ∃ s1, passes (transport_pass tangents) d s = some s1 ∧ s1.i = (N : Int) ∧
        (∀ j, j < d → ∃ sj, passes (transport_pass tangents) j s = some sj ∧
          sj.i = ((k + j : ℕ) : Int)) ∧
        transport_loop (N : Int) tangents s.i s.n s.normals = some s1.normals := by
  intro d
  induction d with
  | zero =>
    intro s k hi hk _ _
    have hkN : k = N := by omega
    refine ⟨s, rfl, by rw [hi, hkN], fun j hj => absurd hj (Nat.not_lt_zero j), ?_⟩
    rw [transport_loop_unfold, if_pos (by rw [hi, hkN])]
  | succ d ih =>
    intro s k hi hk h1 hlen
    obtain ⟨s1, hpass, hi1, hlen1⟩ :=
      transport_pass_some tangents s k hi h1 (by omega) (by omega)
    obtain ⟨s2, hrun, hend, hmid, hloop⟩ :=
      ih s1 (k + 1) hi1 (by omega) (by omega) (by rw [hlen1, hlen])
    refine ⟨s2, ?_, hend, ?_, ?_⟩
    · simp only [passes, hpass, Option.bind]
      exact hrun
    · intro j hj
      cases j with
      | zero => exact ⟨s, rfl, by simpa using hi⟩
      | succ j =>
        obtain ⟨sj, hsj, hij⟩ := hmid j (by omega)
        refine ⟨sj, ?_, ?_⟩
        · simp only [passes, hpass, Option.bind]
          exact hsj
        · rw [hij]; congr 1; omega
    · rw [transport_loop_unfold, if_neg (by rw [hi]; omega), hpass]
      exact hloop

/-- Entered at `k` with `d` rows left, the twist loop makes exactly `d`
passes: after `j < d` passes the index is `k + j`, after `d` passes it is
`num_pts`, and the loop returns the buffers of that state. -/
theorem twist_passes_run (N : ℕ) (twist delta : ℝ) :
    ∀ (d : ℕ) (s : TwistState) (k : ℕ), s.i = (k : Int) → k + d = N →
      s.m.tangents.length = N → s.m.normals.length = N →
      ∃ s1, passes (twist_pass twist delta) d s = some s1 ∧ s1.i = (N : Int) ∧
        (∀ j, j < d → ∃ sj, passes (twist_pass twist delta) j s = some sj ∧
          sj.i = ((k + j : ℕ) : Int)) ∧
        twist_loop (N : Int) twist delta s.i s.m = some s1.m := by
  intro d
  induction d with
  | zero =>
    intro s k hi hk _ _
    have hkN : k = N := by omega
    refine ⟨s, rfl, by rw [hi, hkN], fun j hj => absurd hj (Nat.not_lt_zero j), ?_⟩
    rw [twist_loop_unfold, if_pos (by rw [hi, hkN])]
  | succ d ih =>
    intro s k hi hk htl hnl
    obtain ⟨s1, hpass, hi1, htl1, hnl1⟩ :=
      twist_pass_some twist delta s k hi (by omega) (by omega)
    obtain ⟨s2, hrun, hend, hmid, hloop⟩ :=
      ih s1 (k + 1) hi1 (by omega) (by rw [htl1, htl]) (by rw [hnl1, hnl])
    refine ⟨s2, ?_, hend, ?_, ?_⟩
    · simp only [passes, hpass, Option.bind]
      exact hrun
    · intro j hj
      cases j with
      | zero => exact ⟨s, rfl, by simpa using hi⟩
      | succ j =>
        obtain ⟨sj, hsj, hij⟩ := hmid j (by omega)
        refine ⟨sj, ?_, ?_⟩
        · simp only [passes, hpass, Option.bind]
          exact hsj
        · rw [hij]; congr 1; omega
    · rw [twist_loop_unfold, if_neg (by rw [hi]; omega), hpass]
      exact hloop

/-! ## Termination of the two loops -/

/-- C13, as stated, fails at `num_pts = 0`: on the empty path neither function
returns (both touch rows outside their arrays), and entered with
`num_pts = 0` on two-row buffers each loop makes a pass, finds `i = 2 != 0`
and runs off the arrays instead of stopping. -/
theorem C13_counterexample :
    _parallel_transport_normals 0 [] ⟨0, 0, 1⟩ [] = none ∧
    smooth_twist ⟨[], [], ⟨0, 0, 1⟩⟩ 0 = none ∧
    transport_loop 0 [⟨1, 0, 0⟩, ⟨0, 1, 0⟩] 1 ⟨0, 0, 1⟩ [⟨0, 0, 1⟩, ⟨0, 0, 0⟩] = none ∧
    twist_loop 0 0 (-1) 1 ⟨[⟨1, 0, 0⟩, ⟨1, 0, 0⟩], [⟨0, 1, 0⟩, ⟨0, 1, 0⟩], ⟨0, 1, 0⟩⟩ = none := by
  refine ⟨?_, ?_, ?_, ?_⟩
  · simp [_parallel_transport_normals, wr]
  · simp [smooth_twist, rd]
  · have e0 : rd [⟨1, 0, 0⟩, ⟨0, 1, 0⟩] ((1 : Int) - 1) = some ⟨1, 0, 0⟩ := by simp [rd]
    have e1 : rd [⟨1, 0, 0⟩, ⟨0, 1, 0⟩] (1 : Int) = some ⟨0, 1, 0⟩ := by simp [rd]
    have ew : ∀ v : V3, wr [⟨0, 0, 1⟩, ⟨0, 0, 0⟩] (1 : Int) v = some [⟨0, 0, 1⟩, v] := by
      intro v; simp [wr]
    rw [transport_loop]
    simp only [e0, e1, ew]
    rw [transport_loop]
    norm_num
  · have e0 : rd [⟨1, 0, 0⟩, ⟨1, 0, 0⟩] (1 : Int) = some ⟨1, 0, 0⟩ := by simp [rd]
    have e1 : rd [⟨0, 1, 0⟩, ⟨0, 1, 0⟩] (1 : Int) = some ⟨0, 1, 0⟩ := by simp [rd]
    rw [twist_loop]
    simp only [e0, e1]
    rw [twist_loop]
    norm_num

/-- C13, amended: for every point count `num_pts ≥ 1`, with arrays of
`num_pts` rows, the loop `for (i = 1; i != num_pts; ++i)` of each function
makes exactly `num_pts - 1` passes: the test lets every one of the first
`num_pts - 1` passes through (the index is not `num_pts` yet), the index is
`num_pts` after them, and the function returns the buffers of that state. -/
theorem C13_loops_make_num_pts_minus_one_passes (tangents : List V3) (n0 : V3)
    (normals : List V3) (m : Bufs) (twist delta : ℝ)
    (h1 : 1 ≤ tangents.length) (hlen : normals.length = tangents.length)
    (hm1 : 1 ≤ m.tangents.length) (hmn : m.normals.length = m.tangents.length) :
    (∃ s, passes (transport_pass tangents) (tangents.length - 1)
          { i := 1, n := n0, normals := normals.set 0 n0 } = some s ∧
        s.i = (tangents.length : Int) ∧
        (∀ j, j < tangents.length - 1 → ∃ sj, passes (transport_pass tangents) j
            { i := 1, n := n0, normals := normals.set 0 n0 } = some sj ∧
          sj.i ≠ (tangents.length : Int)) ∧
        _parallel_transport_normals (tangents.length : Int) tangents n0 normals
          = some s.normals) ∧
    (∃ s, passes (twist_pass twist delta) (m.tangents.length - 1) { i := 1, m := m } = some s ∧
        s.i = (m.tangents.length : Int) ∧
        (∀ j, j < m.tangents.length - 1 → ∃ sj, passes (twist_pass twist delta) j
            { i := 1, m := m } = some sj ∧
          sj.i ≠ (m.tangents.length : Int)) ∧
        twist_loop (m.tangents.length : Int) twist delta 1 m = some s.m) ∧
    (∃ out, smooth_twist m (m.tangents.length : Int) = some out) := by
  refine ⟨?_, ?_, ?_⟩
  · obtain ⟨s, hrun, hend, hmid, hloop⟩ :=
      transport_passes_run tangents tangents.length rfl (tangents.length - 1)
        { i := 1, n := n0, normals := normals.set 0 n0 } 1 (by simp) (by omega) (le_refl 1)
        (by simpa using hlen)
    refine ⟨s, hrun, hend, ?_, ?_⟩
    · intro j hj
      obtain ⟨sj, hsj, hij⟩ := hmid j hj
      refine ⟨sj, hsj, ?_⟩
      rw [hij]
      omega
    · have hw : wr normals 0 n0 = some (normals.set 0 n0) := by
        have := wr_nat normals 0 n0 (by omega)
        simpa using this
      rw [_parallel_transport_normals, hw]
      exact hloop
  · obtain ⟨s, hrun, hend, hmid, hloop⟩ :=
      twist_passes_run m.tangents.length twist delta (m.tangents.length - 1)
        { i := 1, m := m } 1 (by simp) (by omega) rfl hmn
    refine ⟨s, hrun, hend, ?_, hloop⟩
    intro j hj
    obtain ⟨sj, hsj, hij⟩ := hmid j hj
    refine ⟨sj, hsj, ?_⟩
    rw [hij]
    omega
  · obtain ⟨_, _, out, _, _, hout, _⟩ := smooth_twist_spec m m.tangents.length hm1 rfl hmn
    exact ⟨out, hout⟩

theorem C13_loops_make_num_pts_minus_one_passes_witness :
    (∃ s, passes (transport_pass [⟨1, 0, 0⟩, ⟨0, 1, 0⟩, ⟨0, 0, 1⟩])
          (([⟨1, 0, 0⟩, ⟨0, 1, 0⟩, ⟨0, 0, 1⟩] : List V3).length - 1)
          { i := 1, n := ⟨0, 0, 1⟩
            normals := ([⟨0, 0, 0⟩, ⟨0, 0, 0⟩, ⟨0, 0, 0⟩] : List V3).set 0 ⟨0, 0, 1⟩ } = some s ∧
        s.i = (([⟨1, 0, 0⟩, ⟨0, 1, 0⟩, ⟨0, 0, 1⟩] : List V3).length : Int) ∧
        (∀ j, j < ([⟨1, 0, 0⟩, ⟨0, 1, 0⟩, ⟨0, 0, 1⟩] : List V3).length - 1 →
          ∃ sj, passes (transport_pass [⟨1, 0, 0⟩, ⟨0, 1, 0⟩, ⟨0, 0, 1⟩]) j
            { i := 1, n := ⟨0, 0, 1⟩
              normals := ([⟨0, 0, 0⟩, ⟨0, 0, 0⟩, ⟨0, 0, 0⟩] : List V3).set 0 ⟨0, 0, 1⟩ }
              = some sj ∧
          sj.i ≠ (([⟨1, 0, 0⟩, ⟨0, 1, 0⟩, ⟨0, 0, 1⟩] : List V3).length : Int)) ∧
        _parallel_transport_normals
          (([⟨1, 0, 0⟩, ⟨0, 1, 0⟩, ⟨0, 0, 1⟩] : List V3).length : Int)
          [⟨1, 0, 0⟩, ⟨0, 1, 0⟩, ⟨0, 0, 1⟩] ⟨0, 0, 1⟩ [⟨0, 0, 0⟩, ⟨0, 0, 0⟩, ⟨0, 0, 0⟩]
          = some s.normals) ∧
    (∃ s, passes (twist_pass 1 (1 / 2))
          ((⟨[⟨1, 0, 0⟩, ⟨1, 0, 0⟩, ⟨1, 0, 0⟩], [⟨0, 1, 0⟩, ⟨0, 1, 0⟩, ⟨0, 1, 0⟩],
            ⟨0, 0, 1⟩⟩ : Bufs).tangents.length - 1)
          { i := 1, m := ⟨[⟨1, 0, 0⟩, ⟨1, 0, 0⟩, ⟨1, 0, 0⟩],
            [⟨0, 1, 0⟩, ⟨0, 1, 0⟩, ⟨0, 1, 0⟩], ⟨0, 0, 1⟩⟩ } = some s ∧
        s.i = ((⟨[⟨1, 0, 0⟩, ⟨1, 0, 0⟩, ⟨1, 0, 0⟩], [⟨0, 1, 0⟩, ⟨0, 1, 0⟩, ⟨0, 1, 0⟩],
            ⟨0, 0, 1⟩⟩ : Bufs).tangents.length : Int) ∧
        (∀ j, j < (⟨[⟨1, 0, 0⟩, ⟨1, 0, 0⟩, ⟨1, 0, 0⟩], [⟨0, 1, 0⟩, ⟨0, 1, 0⟩, ⟨0, 1, 0⟩],
            ⟨0, 0, 1⟩⟩ : Bufs).tangents.length - 1 →
          ∃ sj, passes (twist_pass 1 (1 / 2)) j
            { i := 1, m := ⟨[⟨1, 0, 0⟩, ⟨1, 0, 0⟩, ⟨1, 0, 0⟩],
              [⟨0, 1, 0⟩, ⟨0, 1, 0⟩, ⟨0, 1, 0⟩], ⟨0, 0, 1⟩⟩ } = some sj ∧
          sj.i ≠ ((⟨[⟨1, 0, 0⟩, ⟨1, 0, 0⟩, ⟨1, 0, 0⟩], [⟨0, 1, 0⟩, ⟨0, 1, 0⟩, ⟨0, 1, 0⟩],
            ⟨0, 0, 1⟩⟩ : Bufs).tangents.length : Int)) ∧
        twist_loop ((⟨[⟨1, 0, 0⟩, ⟨1, 0, 0⟩, ⟨1, 0, 0⟩], [⟨0, 1, 0⟩, ⟨0, 1, 0⟩, ⟨0, 1, 0⟩],
            ⟨0, 0, 1⟩⟩ : Bufs).tangents.length : Int) 1 (1 / 2) 1
          ⟨[⟨1, 0, 0⟩, ⟨1, 0, 0⟩, ⟨1, 0, 0⟩], [⟨0, 1, 0⟩, ⟨0, 1, 0⟩, ⟨0, 1, 0⟩], ⟨0, 0, 1⟩⟩
          = some s.m) ∧
    (∃ out, smooth_twist
        ⟨[⟨1, 0, 0⟩, ⟨1, 0, 0⟩, ⟨1, 0, 0⟩], [⟨0, 1, 0⟩, ⟨0, 1, 0⟩, ⟨0, 1, 0⟩], ⟨0, 0, 1⟩⟩
        ((⟨[⟨1, 0, 0⟩, ⟨1, 0, 0⟩, ⟨1, 0, 0⟩], [⟨0, 1, 0⟩, ⟨0, 1, 0⟩, ⟨0, 1, 0⟩],
            ⟨0, 0, 1⟩⟩ : Bufs).tangents.length : Int) = some out) :=
  C13_loops_make_num_pts_minus_one_passes [⟨1, 0, 0⟩, ⟨0, 1, 0⟩, ⟨0, 0, 1⟩] ⟨0, 0, 1⟩
    [⟨0, 0, 0⟩, ⟨0, 0, 0⟩, ⟨0, 0, 0⟩]
    ⟨[⟨1, 0, 0⟩, ⟨1, 0, 0⟩, ⟨1, 0, 0⟩], [⟨0, 1, 0⟩, ⟨0, 1, 0⟩, ⟨0, 1, 0⟩], ⟨0, 0, 1⟩⟩
    1 (1 / 2) (by simp) (by simp) (by simp) (by simp)

end Ribbon

namespace atomstruct

/-! ## The loop of `ungapped` -/

theorem ungapped_loop_contents (rest : List Char) :
    ∀ (i ug : Nat) (s : Sequence), (ungapped_loop rest i ug s)._contents = s._contents := by
  induction rest with
  | nil => intro i ug s; rfl
  | cons c rest ih =>
    intro i ug s
    simp only [ungapped_loop]
    split_ifs
    · rw [ih]
    · rw [ih]

/-- The loop appends the residue characters it passes to the ungapped cache. -/
theorem ungapped_loop_cache (rest : List Char) :
    ∀ (i ug : Nat) (s : Sequence),
      (ungapped_loop rest i ug s)._cache_ungapped
        = s._cache_ungapped ++ rest.filter counts_as_residue := by
  induction rest with
  | nil => intro i ug s; simp [ungapped_loop]
  | cons c rest ih =>
    intro i ug s
    simp only [ungapped_loop]
    split_ifs with hc
    · rw [ih]; simp [List.filter, hc]
    · rw [ih]; simp [List.filter, hc]

/-- The loop leaves the gapped-to-ungapped entries below its start index alone. -/
theorem ungapped_loop_g2ug_below (rest : List Char) :
    ∀ (i ug : Nat) (s : Sequence) (j : Nat), j < i →
      (ungapped_loop rest i ug s)._cache_g2ug j = s._cache_g2ug j := by
  induction rest with
  | nil => intro i ug s j _; rfl
  | cons c rest ih =>
    intro i ug s j hj
    simp only [ungapped_loop]
    split_ifs with hc
    · rw [ih _ _ _ j (by omega)]
      simp only [map_set]
      rw [if_neg (by omega)]
    · rw [ih _ _ _ j (by omega)]

/-- The loop leaves the ungapped-to-gapped entries below its start count alone. -/
theorem ungapped_loop_ug2g_below (rest : List Char) :
    ∀ (i ug : Nat) (s : Sequence) (k : Nat), k < ug →
      (ungapped_loop rest i ug s)._cache_ug2g k = s._cache_ug2g k := by
  induction rest with
  | nil => intro i ug s k _; rfl
  | cons c rest ih =>
    intro i ug s k hk
    simp only [ungapped_loop]
    split_ifs with hc
    · rw [ih _ _ _ k (by omega)]
      simp only [map_set]
      rw [if_neg (by omega)]
    · rw [ih _ _ _ k hk]

/-- The gapped-to-ungapped entry the loop leaves at offset `d` from its start:
the count so far for a residue character, the old entry otherwise. -/
theorem ungapped_loop_g2ug_at (rest : List Char) :
    ∀ (i ug : Nat) (s : Sequence) (d : Nat),
      (ungapped_loop rest i ug s)._cache_g2ug (i + d)
        = match rest[d]? with
          | some c =>
            if counts_as_residue c then some (ug + (rest.take d).countP counts_as_residue)
            else s._cache_g2ug (i + d)
          | none => s._cache_g2ug (i + d) := by
  induction rest with
  | nil => intro i ug s d; simp [ungapped_loop]
  | cons c rest ih =>
    intro i ug s d
    simp only [ungapped_loop]
    cases d with
    | zero =>
      split_ifs with hc
      · rw [ungapped_loop_g2ug_below _ _ _ _ _ (by omega)]
        simp [map_set, hc]
      · rw [ungapped_loop_g2ug_below _ _ _ _ _ (by omega)]
        simp [hc]
    | succ d =>
      have hidx : i + (d + 1) = (i + 1) + d := by omega
      split_ifs with hc
      · rw [hidx, ih]
        simp only [List.getElem?_cons_succ, List.take_succ_cons, List.countP_cons_of_pos _ _ hc,
          map_set]
        rw [if_neg (by omega)]
        cases rest[d]? with
        | none => rfl
        | some c2 =>
          simp only []
          split_ifs
          · congr 1; omega
          · rfl
      · rw [hidx, ih]
        simp only [List.getElem?_cons_succ, List.take_succ_cons, List.countP_cons_of_neg _ _ hc]

/-- The ungapped-to-gapped entry the loop leaves for the residue character at
offset `d` from its start. -/
theorem ungapped_loop_ug2g_at (rest : List Char) :
    ∀ (i ug : Nat) (s : Sequence) (d : Nat) (c : Char), rest[d]? = some c →
      counts_as_residue c = true →
      (ungapped_loop rest i ug s)._cache_ug2g (ug + (rest.take d).countP counts_as_residue)
        = some (i + d) := by
  induction rest with
  | nil => intro i ug s d c h; simp at h
  | cons c0 rest ih =>
    intro i ug s d c hd hc
    simp only [ungapped_loop]
    cases d with
    | zero =>
      simp only [List.getElem?_cons_zero, Option.some.injEq] at hd
      subst hd
      rw [if_pos hc]
      simp only [List.take_zero, List.countP_nil, Nat.add_zero]
      rw [ungapped_loop_ug2g_below _ _ _ _ _ (by omega)]
      simp [map_set]
    | succ d =>
      simp only [List.getElem?_cons_succ] at hd
      split_ifs with hc0
      · simp only [List.take_succ_cons, List.countP_cons_of_pos _ _ hc0]
        have e1 : ug + ((rest.take d).countP counts_as_residue + 1)
            = ug + 1 + (rest.take d).countP counts_as_residue := by omega
        have e2 : i + (d + 1) = i + 1 + d := by omega
        rw [e1, e2]
        exact ih (i + 1) (ug + 1) _ d c hd hc
      · have h := ih (i + 1) ug s d c hd hc
        simp only [List.take_succ_cons, List.countP_cons_of_neg _ _ hc0]
        have e2 : i + (d + 1) = i + 1 + d := by omega
        rw [e2]
        exact h

/-- A loop over characters none of which is a residue character changes nothing. -/
theorem ungapped_loop_no_residue (rest : List Char) :
    ∀ (i ug : Nat) (s : Sequence), rest.filter counts_as_residue = [] →
      ungapped_loop rest i ug s = s := by
  induction rest with
  | nil => intro i ug s _; rfl
  | cons c rest ih =>
    intro i ug s h
    by_cases hc : counts_as_residue c = true
    · simp [List.filter, hc] at h
    · have hr : rest.filter counts_as_residue = [] := by
        simpa [List.filter, hc] using h
      simp only [ungapped_loop, if_neg hc]
      exact ih _ _ _ hr

/-- The residue character at gapped position `i` sits in the filtered list at
the number of residue characters before `i`. -/
theorem filter_getElem_countP (l : List Char) :
    ∀ (i : Nat) (c : Char), l[i]? = some c → counts_as_residue c = true →
      (l.filter counts_as_residue)[(l.take i).countP counts_as_residue]? = some c := by
  induction l with
  | nil => intro i c h; simp at h
  | cons c0 l ih =>
    intro i c h hc
    cases i with
    | zero =>
      simp only [List.getElem?_cons_zero, Option.some.injEq] at h
      subst h
      simp [List.filter, hc]
    | succ i =>
      simp only [List.getElem?_cons_succ] at h
      by_cases hc0 : counts_as_residue c0 = true
      · simp only [List.take_succ_cons, List.countP_cons_of_pos _ _ hc0, List.filter, hc0,
          List.getElem?_cons_succ]
        exact ih i c h hc
      · simp only [List.take_succ_cons, List.countP_cons_of_neg _ _ hc0, List.filter]
        simp only [hc0]
        exact ih i c h hc

/-! ## The cache invariant -/

theorem ungapped_contents (s : Sequence) : (s.ungapped).1._contents = s._contents := by
  simp only [Sequence.ungapped]
  split_ifs
  · exact ungapped_loop_contents _ _ _ _
  · rfl

/-- Filling cleared caches gives filled caches. -/
theorem ungapped_loop_filled (s : Sequence) (h0 : s._cache_ungapped = [])
    (hg : ∀ j, s._cache_g2ug j = none) :
    (ungapped_loop s._contents 0 0 s).cache_filled := by
  refine ⟨?_, ?_, ?_⟩
  · rw [ungapped_loop_cache, h0, ungapped_loop_contents]; rfl
  · intro j
    have h := ungapped_loop_g2ug_at s._contents 0 0 s j
    simp only [Nat.zero_add] at h
    rw [h, ungapped_loop_contents, hg]
  · intro d c hd hc
    rw [ungapped_loop_contents] at hd ⊢
    have h := ungapped_loop_ug2g_at s._contents 0 0 s d c hd hc
    simpa using h

/-- After `ungapped` the caches are filled, whatever coherent state they were in. -/
theorem ungapped_filled (s : Sequence) (h : s.cache_ok) : (s.ungapped).1.cache_filled := by
  simp only [Sequence.ungapped]
  split_ifs with he
  · rcases h with ⟨h0, hg⟩ | hf
    · exact ungapped_loop_filled s h0 hg
    · have hnil : s._contents.filter counts_as_residue = [] := by
        rw [← hf.1]; exact List.isEmpty_iff.mp he
      rw [ungapped_loop_no_residue _ _ _ _ hnil]
      exact hf
  · rcases h with ⟨h0, _⟩ | hf
    · rw [h0] at he; exact absurd rfl he
    · exact hf

/-- The state the index functions look their key up in is the state `ungapped` leaves. -/
theorem settle_eq (s : Sequence) :
    (if s._cache_ungapped.isEmpty then (s.ungapped).1 else s) = (s.ungapped).1 := by
  split_ifs with he
  · rfl
  · simp only [Sequence.ungapped]
    rw [if_neg he]

theorem gapped_to_ungapped_state (s : Sequence) (index : Nat) :
    (s.gapped_to_ungapped index).1 = (s.ungapped).1 := by
  simp only [Sequence.gapped_to_ungapped, settle_eq]
  cases (s.ungapped).1._cache_g2ug index <;> rfl

/-- The invariant holds in every reachable state. -/
theorem reachable_cache_ok (s : Sequence) (h : s.reachable) : s.cache_ok := by
  induction h with
  | fresh contents => exact Or.inl ⟨rfl, fun _ => rfl⟩
  | ungapped s _ ih => exact Or.inr (ungapped_filled s ih)
  | gapped_to_ungapped s index _ ih =>
    rw [gapped_to_ungapped_state]
    exact Or.inr (ungapped_filled s ih)
  | ungapped_to_gapped s index _ ih =>
    have hf := ungapped_filled s ih
    simp only [Sequence.ungapped_to_gapped, settle_eq]
    cases hk : (s.ungapped).1._cache_ug2g index with
    | some v => exact Or.inr hf
    | none =>
      refine Or.inr ⟨hf.1, hf.2.1, ?_⟩
      intro d c hd hc
      have hv := hf.2.2 d c hd hc
      simp only [map_set]
      rw [if_neg]
      · exact hv
      · intro heq
        rw [heq, hk] at hv
        exact Option.noConfusion hv

/-! ## Claims on `Sequence` -/

/-- C21, evaluated: `push_front` does not prepend one character.  For every
sequence with contents `s` it leaves `|s| + 1` NUL characters, then `c`, then
`s` (the contents as `_clear_cache` leaves them), of length `2 |s| + 2`; on
the contents `A` with `c = G` the result is `NUL NUL G A`, not `G A`. -/
theorem C21_push_front_pads_with_nul :
    (∀ (clear_cache : Sequence → Sequence) (s : Sequence) (c : Char),
      (s.push_front clear_cache c)._contents
        = List.replicate ((clear_cache s)._contents.length + 1) (Char.ofNat 0)
          ++ c :: (clear_cache s)._contents ∧
      (s.push_front clear_cache c)._contents.length
        = 2 * (clear_cache s)._contents.length + 2) ∧
    ((Sequence.fresh ['A']).push_front (fun s => Sequence.fresh s._contents) 'G')._contents
      = [Char.ofNat 0, Char.ofNat 0, 'G', 'A'] ∧
    ((Sequence.fresh ['A']).push_front (fun s => Sequence.fresh s._contents) 'G')._contents
      ≠ ['G', 'A'] := by
  refine ⟨?_, ?_, ?_⟩
  · intro clear_cache s c
    constructor
    · simp [Sequence.push_front]
    · simp [Sequence.push_front]
      omega
  · rfl
  · intro h
    have hl := congrArg List.length h
    simp [Sequence.push_front, Sequence.fresh] at hl

/-- C22: in every state a sequence reaches from cleared caches through the
three functions, for every position `i` whose character is alphabetic or `?`:
`gapped_to_ungapped(i)` returns the number of such characters before `i`,
`ungapped_to_gapped` of that number returns `i`, and `ungapped()` holds the
character of position `i` at that number; for every position that holds any
other character or is out of range, `gapped_to_ungapped` throws
`SeqIndexError`. -/
theorem C22_index_maps_agree (s : Sequence) (hr : s.reachable) (i : Nat) :
    (∀ c, s._contents[i]? = some c → counts_as_residue c = true →
      (s.gapped_to_ungapped i).2
        = Except.ok ((s._contents.take i).countP counts_as_residue) ∧
      ((s.gapped_to_ungapped i).1.ungapped_to_gapped
          ((s._contents.take i).countP counts_as_residue)).2 = i ∧
      (s.ungapped).2[(s._contents.take i).countP counts_as_residue]? = some c) ∧
    ((s._contents[i]? = none ∨ ∃ c, s._contents[i]? = some c ∧ counts_as_residue c = false) →
      (s.gapped_to_ungapped i).2 = Except.error Thrown.SeqIndexError) := by
  have hok := reachable_cache_ok s hr
  have hf := ungapped_filled s hok
  have hcont := ungapped_contents s
  have hg := hf.2.1 i
  rw [hcont] at hg
  constructor
  · intro c hc hres
    rw [hc] at hg
    simp only [hres, if_true] at hg
    refine ⟨?_, ?_, ?_⟩
    · simp only [Sequence.gapped_to_ungapped, settle_eq, hg]
    · rw [gapped_to_ungapped_state]
      have hf2 := ungapped_filled (s.ungapped).1 (Or.inr hf)
      have hu := hf2.2.2 i c (by rw [ungapped_contents, hcont]; exact hc) hres
      rw [ungapped_contents, hcont] at hu
      simp only [Sequence.ungapped_to_gapped, settle_eq, hu]
    · have h1 : (s.ungapped).2 = (s.ungapped).1._cache_ungapped := rfl
      rw [h1, hf.1, hcont]
      exact filter_getElem_countP s._contents i c hc hres
  · intro h
    have hnone : (s.ungapped).1._cache_g2ug i = none := by
      rcases h with h | ⟨c, hc, hres⟩
      · rw [h] at hg; exact hg
      · rw [hc] at hg
        simp only [hres] at hg
        exact hg
    simp only [Sequence.gapped_to_ungapped, settle_eq, hnone]

theorem C22_index_maps_agree_witness :
    ((Sequence.fresh ['A', '-', '?', 'c']).gapped_to_ungapped 2).2 = Except.ok 1 ∧
    (((Sequence.fresh ['A', '-', '?', 'c']).gapped_to_ungapped 2).1.ungapped_to_gapped 1).2 = 2 ∧
    ((Sequence.fresh ['A', '-', '?', 'c']).ungapped).2[1]? = some '?' ∧
    ((Sequence.fresh ['A', '-', '?', 'c']).gapped_to_ungapped 1).2
      = Except.error Thrown.SeqIndexError ∧
    ((Sequence.fresh ['A', '-', '?', 'c']).gapped_to_ungapped 7).2
      = Except.error Thrown.SeqIndexError :=
  ⟨((C22_index_maps_agree (Sequence.fresh ['A', '-', '?', 'c'])
      (Sequence.reachable.fresh ['A', '-', '?', 'c']) 2).1 '?' rfl (by decide)).1,
   ((C22_index_maps_agree (Sequence.fresh ['A', '-', '?', 'c'])
      (Sequence.reachable.fresh ['A', '-', '?', 'c']) 2).1 '?' rfl (by decide)).2.1,
   ((C22_index_maps_agree (Sequence.fresh ['A', '-', '?', 'c'])
      (Sequence.reachable.fresh ['A', '-', '?', 'c']) 2).1 '?' rfl (by decide)).2.2,
   (C22_index_maps_agree (Sequence.fresh ['A', '-', '?', 'c'])
      (Sequence.reachable.fresh ['A', '-', '?', 'c']) 1).2 (Or.inr ⟨'-', rfl, by decide⟩),
   (C22_index_maps_agree (Sequence.fresh ['A', '-', '?', 'c'])
      (Sequence.reachable.fresh ['A', '-', '?', 'c']) 7).2 (Or.inl rfl)⟩

end atomstruct

namespace RibbonFloat

/-! ## Rounding of 0 and 1 -/

theorem r32_zero {A : Arith} (hA : A.Lawful) : A.r32 0 = 0 := by
  simpa using hA.r32_nat 0 (by norm_num)

theorem r32_one {A : Arith} (hA : A.Lawful) : A.r32 1 = 1 := by
  simpa using hA.r32_nat 1 (by norm_num)

theorem r64_zero {A : Arith} (hA : A.Lawful) : A.r64 0 = 0 := by
  simpa using hA.r64_nat 0 (by norm_num)

theorem r64_one {A : Arith} (hA : A.Lawful) : A.r64 1 = 1 := by
  simpa using hA.r64_nat 1 (by norm_num)

/-! ## Operations on a zero -/

theorem fmul_zero_right (r : ENNReal → ENNReal) (hr0 : r 0 = 0) (s t : Bool) (a : ENNReal)
    (ha : a ≠ ⊤) : fmul r (.num s a) (.num t 0) = .num (xor s t) 0 := by
  simp [fmul, ha, hr0]

theorem fmul_zero_left (r : ENNReal → ENNReal) (hr0 : r 0 = 0) (s t : Bool) (a : ENNReal)
    (ha : a ≠ ⊤) : fmul r (.num t 0) (.num s a) = .num (xor t s) 0 := by
  simp [fmul, ha, hr0]

theorem fadd_zeros (r : ENNReal → ENNReal) (hr0 : r 0 = 0) (s t : Bool) :
    ∃ b, fadd r (.num s 0) (.num t 0) = .num b 0 := by
  by_cases h : s = t <;> simp [fadd, h, hr0]

theorem fsub_zeros (r : ENNReal → ENNReal) (hr0 : r 0 = 0) (s t : Bool) :
    ∃ b, fsub r (.num s 0) (.num t 0) = .num b 0 := by
  unfold fsub fneg
  exact fadd_zeros r hr0 s (!t)

theorem fadd_one_zero (r : ENNReal → ENNReal) (hr1 : r 1 = 1) (t : Bool) :
    fadd r (.num false 1) (.num t 0) = .num false 1 := by
  cases t <;> simp [fadd, hr1]

/-- Adding a zero on the right keeps a finite float, up to the sign of a zero. -/
theorem fadd_zero_right_kept (r : ENNReal → ENNReal) (s t : Bool) (a : ENNReal)
    (hra : r a = a) :
    ∃ s1, fadd r (.num s a) (.num t 0) = .num s1 a ∧ (s1 = s ∨ (a = 0 ∧ s = true ∧ s1 = false)) := by
  by_cases h : s = t
  · exact ⟨s, by simp [fadd, h, hra], Or.inl rfl⟩
  · by_cases ha : a = 0
    · subst ha
      refine ⟨false, by simp [fadd, h], ?_⟩
      cases s
      · exact Or.inl rfl
      · exact Or.inr ⟨rfl, rfl, rfl⟩
    · have hpos : 0 < a := pos_iff_ne_zero.mpr ha
      exact ⟨s, by simp [fadd, h, ha, hpos, hra], Or.inl rfl⟩

/-- Adding a zero on the left keeps a finite float, up to the sign of a zero. -/
theorem fadd_zero_left_kept (r : ENNReal → ENNReal) (s t : Bool) (a : ENNReal)
    (hra : r a = a) :
    ∃ s1, fadd r (.num t 0) (.num s a) = .num s1 a ∧ (s1 = s ∨ (a = 0 ∧ s = true ∧ s1 = false)) := by
  by_cases h : t = s
  · exact ⟨s, by simp [fadd, h, hra], Or.inl rfl⟩
  · by_cases ha : a = 0
    · subst ha
      refine ⟨false, by simp [fadd, h], ?_⟩
      cases s
      · exact Or.inl rfl
      · exact Or.inr ⟨rfl, rfl, rfl⟩
    · have ha2 : ¬ (0 = a) := fun e => ha e.symm
      exact ⟨s, by simp [fadd, h, ha2, hra], Or.inl rfl⟩

/-! ## Products of the components of a tangent -/

/-- A value whose `float` square is finite is a finite number. -/
theorem finite_of_square_finite (r : ENNReal → ENNReal) (htop : r ⊤ = ⊤) (u : Fl)
    (h : (fmul r u u).finite) : ∃ s a, u = .num s a ∧ a ≠ ⊤ ∧ r (a * a) ≠ ⊤ := by
  cases u with
  | nan => simp [fmul, Fl.finite] at h
  | num s a =>
    refine ⟨s, a, rfl, ?_, ?_⟩
    · rintro rfl
      simp [fmul, Fl.finite, htop] at h
    · by_cases hc : (a = 0 ∧ a = ⊤) ∨ (a = ⊤ ∧ a = 0)
      · simp [fmul, hc, Fl.finite] at h
      · simpa [fmul, hc, Fl.finite] using h

/-- When the squares of two values do not overflow, their product does not
overflow either: it is a finite number. -/
theorem fmul_finite_of_squares (r : ENNReal → ENNReal) (hmono : Monotone r) (htop : r ⊤ = ⊤)
    (u w : Fl) (hu : (fmul r u u).finite) (hw : (fmul r w w).finite) :
    ∃ s p, fmul r u w = .num s p ∧ p ≠ ⊤ := by
  obtain ⟨s, a, rfl, ha, haa⟩ := finite_of_square_finite r htop u hu
  obtain ⟨t, b, rfl, hb, hbb⟩ := finite_of_square_finite r htop w hw
  refine ⟨xor s t, r (a * b), by simp [fmul, ha, hb], ?_⟩
  rcases le_total a b with hab | hab
  · exact ne_top_of_le_ne_top hbb (hmono (mul_le_mul_right' hab b))
  · exact ne_top_of_le_ne_top haa (hmono (mul_le_mul_left' hab a))

/-! ## The rotation by the angle zero -/

/-- An entry of the matrix off the diagonal, with `c1` and `s` zeros, is a zero. -/
theorem offdiag_sub_zero (r : ENNReal → ENNReal) (hr0 : r 0 = 0) (sp b sk : Bool)
    (p ak : ENNReal) (hp : p ≠ ⊤) (hak : ak ≠ ⊤) :
    ∃ z, fsub r (fmul r (.num sp p) (.num false 0)) (fmul r (.num b 0) (.num sk ak))
      = .num z 0 := by
  rw [fmul_zero_right r hr0 _ _ _ hp, fmul_zero_left r hr0 _ _ _ hak]
  exact fsub_zeros r hr0 _ _

theorem offdiag_add_zero (r : ENNReal → ENNReal) (hr0 : r 0 = 0) (sp b sk : Bool)
    (p ak : ENNReal) (hp : p ≠ ⊤) (hak : ak ≠ ⊤) :
    ∃ z, fadd r (fmul r (.num sp p) (.num false 0)) (fmul r (.num b 0) (.num sk ak))
      = .num z 0 := by
  rw [fmul_zero_right r hr0 _ _ _ hp, fmul_zero_left r hr0 _ _ _ hak]
  exact fadd_zeros r hr0 _ _

/-- An entry of the matrix on the diagonal, with `c = 1` and `c1` a zero, is 1. -/
theorem diag_one (r : ENNReal → ENNReal) (hr0 : r 0 = 0) (hr1 : r 1 = 1) (sp : Bool)
    (p : ENNReal) (hp : p ≠ ⊤) :
    fadd r (.num false 1) (fmul r (.num sp p) (.num false 0)) = .num false 1 := by
  rw [fmul_zero_right r hr0 _ _ _ hp]
  exact fadd_one_zero r hr1 _

theorem kept_of_sign (q s2 : Bool) (b : ENNReal)
    (h : s2 = q ∨ (b = 0 ∧ q = true ∧ s2 = false)) : Fl.kept (.num q b) (.num s2 b) := by
  rcases h with h | ⟨h1, h2, h3⟩
  · exact Or.inl (by rw [h])
  · exact Or.inr ⟨by rw [h1, h2], by rw [h1, h3]⟩

theorem sign_chain (q s1 s2 : Bool) (b : ENNReal)
    (h1 : s1 = q ∨ (b = 0 ∧ q = true ∧ s1 = false))
    (h2 : s2 = s1 ∨ (b = 0 ∧ s1 = true ∧ s2 = false)) :
    s2 = q ∨ (b = 0 ∧ q = true ∧ s2 = false) := by
  rcases h1 with h1 | ⟨hb, hq, hs1⟩
  · rw [h1] at h2; exact h2
  · rcases h2 with h2 | ⟨_, h3, _⟩
    · exact Or.inr ⟨hb, hq, by rw [h2, hs1]⟩
    · rw [hs1] at h3; exact absurd h3 (by decide)

/-- Row 0 of the matrix applied to `v`: `1 * v0 + 0 * v1 + 0 * v2` keeps `v0`. -/
theorem sum_first_kept (r : ENNReal → ENNReal) (hr0 : r 0 = 0) (q q1 q2 z1 z2 : Bool)
    (b b1 b2 : ENNReal) (hrb : r b = b) (hb1 : b1 ≠ ⊤) (hb2 : b2 ≠ ⊤) :
    Fl.kept (.num q b)
      (fadd r (fadd r (fmul r (.num false 1) (.num q b)) (fmul r (.num z1 0) (.num q1 b1)))
        (fmul r (.num z2 0) (.num q2 b2))) := by
  have h1 : fmul r (.num false 1) (.num q b) = .num q b := by simp [fmul, hrb]
  rw [h1, fmul_zero_left r hr0 _ _ _ hb1, fmul_zero_left r hr0 _ _ _ hb2]
  obtain ⟨s1, e1, c1⟩ := fadd_zero_right_kept r q (xor z1 q1) b hrb
  rw [e1]
  obtain ⟨s2, e2, c2⟩ := fadd_zero_right_kept r s1 (xor z2 q2) b hrb
  rw [e2]
  exact kept_of_sign q s2 b (sign_chain q s1 s2 b c1 c2)

/-- Row 1 of the matrix applied to `v`: `0 * v0 + 1 * v1 + 0 * v2` keeps `v1`. -/
theorem sum_second_kept (r : ENNReal → ENNReal) (hr0 : r 0 = 0) (q q0 q2 z0 z2 : Bool)
    (b b0 b2 : ENNReal) (hrb : r b = b) (hb0 : b0 ≠ ⊤) (hb2 : b2 ≠ ⊤) :
    Fl.kept (.num q b)
      (fadd r (fadd r (fmul r (.num z0 0) (.num q0 b0)) (fmul r (.num false 1) (.num q b)))
        (fmul r (.num z2 0) (.num q2 b2))) := by
  have h1 : fmul r (.num false 1) (.num q b) = .num q b := by simp [fmul, hrb]
  rw [h1, fmul_zero_left r hr0 _ _ _ hb0, fmul_zero_left r hr0 _ _ _ hb2]
  obtain ⟨s1, e1, c1⟩ := fadd_zero_left_kept r q (xor z0 q0) b hrb
  rw [e1]
  obtain ⟨s2, e2, c2⟩ := fadd_zero_right_kept r s1 (xor z2 q2) b hrb
  rw [e2]
  exact kept_of_sign q s2 b (sign_chain q s1 s2 b c1 c2)

/-- Row 2 of the matrix applied to `v`: `0 * v0 + 0 * v1 + 1 * v2` keeps `v2`. -/
theorem sum_third_kept (r : ENNReal → ENNReal) (hr0 : r 0 = 0) (q q0 q1 z0 z1 : Bool)
    (b b0 b1 : ENNReal) (hrb : r b = b) (hb0 : b0 ≠ ⊤) (hb1 : b1 ≠ ⊤) :
    Fl.kept (.num q b)
      (fadd r (fadd r (fmul r (.num z0 0) (.num q0 b0)) (fmul r (.num z1 0) (.num q1 b1)))
        (fmul r (.num false 1) (.num q b))) := by
  have h1 : fmul r (.num false 1) (.num q b) = .num q b := by simp [fmul, hrb]
  rw [h1, fmul_zero_left r hr0 _ _ _ hb0, fmul_zero_left r hr0 _ _ _ hb1]
  obtain ⟨z, ez⟩ := fadd_zeros r hr0 (xor z0 q0) (xor z1 q1)
  rw [ez]
  obtain ⟨s1, e1, c1⟩ := fadd_zero_left_kept r q z b hrb
  rw [e1]
  exact kept_of_sign q s1 b c1

/-- The difference `1 - c` for `c = 1` is the positive zero. -/
theorem one_minus_one {A : Arith} (hA : A.Lawful) :
    fsub A.r32 (of_int A.r32 1) (.num false 1) = .num false 0 := by
  simp [fsub, fneg, of_int, fadd, r32_one hA]

theorem is_finite_float_num {A : Arith} {u : Fl} (h : is_finite_float A u) :
    ∃ q b, u = .num q b ∧ b ≠ ⊤ ∧ A.r32 b = b := by
  cases u with
  | nan => exact absurd h (by simp [is_finite_float])
  | num q b => exact ⟨q, b, rfl, h.1, h.2⟩

/-- With cosine 1 and sine a zero, `_rotate_around` about a tangent whose
squares do not overflow keeps every component of a row of finite floats. -/
theorem rotate_around_zero_angle {A : Arith} (hA : A.Lawful) (t v : Row) (b : Bool)
    (ht : t.squares_finite A) (hv : v.finite_floats A) :
    Row.kept v (_rotate_around A t (.num false 1) (.num b 0) v) := by
  have hr0 := r32_zero hA
  have hr1 := r32_one hA
  obtain ⟨htx, hty, htz⟩ := ht
  obtain ⟨s0, a0, ex, ha0, -⟩ := finite_of_square_finite A.r32 hA.r32_top t.x htx
  obtain ⟨s1, a1, ey, ha1, -⟩ := finite_of_square_finite A.r32 hA.r32_top t.y hty
  obtain ⟨s2, a2, ez, ha2, -⟩ := finite_of_square_finite A.r32 hA.r32_top t.z htz
  obtain ⟨sxx, pxx, exx, hxx⟩ := fmul_finite_of_squares A.r32 hA.r32_mono hA.r32_top _ _ htx htx
  obtain ⟨sxy, pxy, exy, hxy⟩ := fmul_finite_of_squares A.r32 hA.r32_mono hA.r32_top _ _ htx hty
  obtain ⟨sxz, pxz, exz, hxz⟩ := fmul_finite_of_squares A.r32 hA.r32_mono hA.r32_top _ _ htx htz
  obtain ⟨syy, pyy, eyy, hyy⟩ := fmul_finite_of_squares A.r32 hA.r32_mono hA.r32_top _ _ hty hty
  obtain ⟨syz, pyz, eyz, hyz⟩ := fmul_finite_of_squares A.r32 hA.r32_mono hA.r32_top _ _ hty htz
  obtain ⟨szx, pzx, ezx, hzx⟩ := fmul_finite_of_squares A.r32 hA.r32_mono hA.r32_top _ _ htz htx
  obtain ⟨szy, pzy, ezy, hzy⟩ := fmul_finite_of_squares A.r32 hA.r32_mono hA.r32_top _ _ htz hty
  obtain ⟨szz, pzz, ezz, hzz⟩ := fmul_finite_of_squares A.r32 hA.r32_mono hA.r32_top _ _ htz htz
  obtain ⟨hvx, hvy, hvz⟩ := hv
  obtain ⟨q0, b0, fx, hb0, hrb0⟩ := is_finite_float_num hvx
  obtain ⟨q1, b1, fy, hb1, hrb1⟩ := is_finite_float_num hvy
  obtain ⟨q2, b2, fz, hb2, hrb2⟩ := is_finite_float_num hvz
  obtain ⟨z01, e01⟩ := offdiag_sub_zero A.r32 hr0 sxy b s2 pxy a2 hxy ha2
  obtain ⟨z02, e02⟩ := offdiag_add_zero A.r32 hr0 szx b s1 pzx a1 hzx ha1
  obtain ⟨z10, e10⟩ := offdiag_add_zero A.r32 hr0 sxy b s2 pxy a2 hxy ha2
  obtain ⟨z12, e12⟩ := offdiag_sub_zero A.r32 hr0 szy b s0 pzy a0 hzy ha0
  obtain ⟨z20, e20⟩ := offdiag_sub_zero A.r32 hr0 sxz b s1 pxz a1 hxz ha1
  obtain ⟨z21, e21⟩ := offdiag_add_zero A.r32 hr0 syz b s0 pyz a0 hyz ha0
  have d00 := diag_one A.r32 hr0 hr1 sxx pxx hxx
  have d11 := diag_one A.r32 hr0 hr1 syy pyy hyy
  have d22 := diag_one A.r32 hr0 hr1 szz pzz hzz
  unfold _rotate_around Row.kept
  simp only [one_minus_one hA, exx, exy, exz, eyy, eyz, ezx, ezy, ezz]
  simp only [ex, ey, ez]
  simp only [e01, e02, e10, e12, e20, e21, d00, d11, d22, fx, fy, fz]
  exact ⟨sum_first_kept A.r32 hr0 q0 q1 q2 z01 z02 b0 b1 b2 hrb0 hb1 hb2,
    sum_second_kept A.r32 hr0 q1 q0 q2 z10 z12 b1 b0 b2 hrb1 hb0 hb2,
    sum_third_kept A.r32 hr0 q2 q0 q1 z20 z21 b2 b0 b1 hrb2 hb0 hb1⟩

theorem kept_eq_of_not_neg_zero (old new : Fl) (h : Fl.kept old new) (hz : old ≠ .num true 0) :
    new = old := by
  rcases h with h | ⟨h, _⟩
  · exact h
  · exact absurd h hz

theorem row_kept_eq (old new : Row) (h : Row.kept old new) (hz : old.no_neg_zero) :
    new = old := by
  obtain ⟨h1, h2, h3⟩ := h
  obtain ⟨z1, z2, z3⟩ := hz
  cases old
  cases new
  simp only [Row.mk.injEq]
  exact ⟨kept_eq_of_not_neg_zero _ _ h1 z1, kept_eq_of_not_neg_zero _ _ h2 z2,
    kept_eq_of_not_neg_zero _ _ h3 z3⟩

/-! ## The eased angle of a zero twist -/

/-- A sum of two numbers, the second finite, is a number. -/
theorem fadd_num (r : ENNReal → ENNReal) (s t : Bool) (a b : ENNReal) (hb : b ≠ ⊤) :
    ∃ s1 c, fadd r (.num s a) (.num t b) = .num s1 c := by
  simp only [fadd]
  split_ifs with h1 h2 h3 h4
  · exact ⟨_, _, rfl⟩
  · exact absurd h2.2 hb
  · exact ⟨_, _, rfl⟩
  · exact ⟨_, _, rfl⟩
  · exact ⟨_, _, rfl⟩

/-- The weight `1.0 / (1 + exp(...))` is a finite number that is not negative. -/
theorem sigmoid_finite {A : Arith} (hA : A.Lawful) (s : Bool) (a : ENNReal) :
    ∃ g, g ≠ ⊤ ∧
      fdiv A.r64 (.num false 1)
        (fadd A.r64 (of_int A.r64 1)
          (A.exp (fmul A.r64 (.num true 8) (fsub A.r64 (.num s a) (.num false (1 / 2))))))
        = .num false g := by
  obtain ⟨s1, c, e1⟩ : ∃ s1 c, fsub A.r64 (.num s a) (.num false (1 / 2)) = .num s1 c := by
    unfold fsub fneg
    exact fadd_num A.r64 s _ a _ (by simp)
  have e2 : fmul A.r64 (.num true 8) (.num s1 c) = .num (xor true s1) (A.r64 (8 * c)) := by
    simp [fmul]
  obtain ⟨e, e3⟩ := hA.exp_num (xor true s1) (A.r64 (8 * c))
  have e4 : fadd A.r64 (of_int A.r64 1) (.num false e) = .num false (A.r64 (1 + e)) := by
    simp [of_int, fadd, r64_one hA]
  have hw : 1 ≤ A.r64 (1 + e) := by
    have := hA.r64_mono (show (1 : ENNReal) ≤ 1 + e from le_self_add)
    rwa [r64_one hA] at this
  have e5 : fdiv A.r64 (.num false 1) (.num false (A.r64 (1 + e)))
      = .num false (A.r64 (1 / A.r64 (1 + e))) := by
    simp [fdiv]
  have hg : A.r64 (1 / A.r64 (1 + e)) ≠ ⊤ := by
    have h1 : 1 / A.r64 (1 + e) ≤ 1 := by
      rw [one_div]
      exact ENNReal.inv_le_one.mpr hw
    have h2 := hA.r64_mono h1
    rw [r64_one hA] at h2
    exact ne_top_of_le_ne_top ENNReal.one_ne_top h2
  exact ⟨_, hg, by rw [e1, e2, e3, e4, e5]⟩

/-- The eased angle of a zero twist is that zero, at every fraction that is a
number. -/
theorem delta_to_angle_of_zero_twist {A : Arith} (hA : A.Lawful) (b s : Bool) (a : ENNReal) :
    delta_to_angle A (.num b 0) (.num s a) = .num b 0 := by
  obtain ⟨g, hg, e⟩ := sigmoid_finite hA s a
  unfold delta_to_angle
  rw [e, fmul_zero_right A.r64 (r64_zero hA) _ _ _ hg]
  simp [to_float, r32_zero hA]

/-- The fraction `i * delta` of pass `i ≥ 1` is a number. -/
theorem fraction_num {A : Arith} (hA : A.Lawful) (i N : ℕ) (hi : 1 ≤ i) (hi2 : i < 2 ^ 31) :
    ∃ s a, fmul A.r32 (of_int A.r32 (i : Int))
      (to_float A (fdiv A.r64 (.num false 1) (of_int A.r64 ((N : Int) - 1)))) = .num s a := by
  have hd : ∃ t d, to_float A (fdiv A.r64 (.num false 1) (of_int A.r64 ((N : Int) - 1)))
      = .num t d := by
    simp [of_int, fdiv, to_float]
  obtain ⟨t, d, ed⟩ := hd
  have h1 : 1 ≤ A.r32 (i : ENNReal) := by
    have := hA.r32_mono (show (1 : ENNReal) ≤ (i : ENNReal) by exact_mod_cast hi)
    rwa [r32_one hA] at this
  have h2 : A.r32 (i : ENNReal) ≠ ⊤ := by
    apply hA.r32_finite
    have h : i ≤ 2 ^ 127 :=
      le_trans hi2.le (Nat.pow_le_pow_right (by norm_num) (by norm_num))
    have h3 : ((i : ℕ) : ENNReal) ≤ ((2 ^ 127 : ℕ) : ENNReal) := Nat.cast_le.mpr h
    rwa [Nat.cast_pow, Nat.cast_ofNat] at h3
  have h0 : A.r32 (i : ENNReal) ≠ 0 := by
    intro h
    rw [h] at h1
    exact absurd h1 (by simp)
  rw [ed]
  have hneg : ¬ ((i : Int) < 0) := by omega
  exact ⟨xor false t, A.r32 (A.r32 (i : ENNReal) * d), by simp [of_int, fmul, h0, h2, hneg]⟩

/-! ## When the measured twist is a zero -/

/-- A computed dot product outside `[-1, 1]` makes `acos` not-a-number: the
twist is set to 0, and the sign test can change only the sign of that zero. -/
theorem measured_twist_outside {A : Arith} (hA : A.Lawful) (n e lt : Row)
    (h : (inner A n e).outside_unit) : ∃ b, measured_twist A n e lt = .num b 0 := by
  unfold measured_twist
  cases hd : inner A n e with
  | nan => rw [hd] at h; exact absurd h (by simp [Fl.outside_unit])
  | num s a =>
    rw [hd] at h
    have ha : 1 < a := h
    simp only [hA.acos_outside s a ha, to_float, isnan, if_true, of_int]
    split_ifs
    · exact ⟨true, by simp [fneg, r32_zero hA]⟩
    · exact ⟨false, by simp [r32_zero hA]⟩

/-- A computed dot product that is at least 1 makes `acos` zero or
not-a-number: the twist is a zero. -/
theorem measured_twist_at_least_one {A : Arith} (hA : A.Lawful) (n e lt : Row)
    (h : (inner A n e).at_least_one) : ∃ b, measured_twist A n e lt = .num b 0 := by
  cases hd : inner A n e with
  | nan => rw [hd] at h; exact absurd h (by simp [Fl.at_least_one])
  | num s a =>
    rw [hd] at h
    cases s with
    | true => exact absurd h (by simp [Fl.at_least_one])
    | false =>
      have ha : 1 ≤ a := h
      rcases eq_or_lt_of_le ha with h1 | h1
      · have e0 : to_float A (.num false 0) = .num false 0 := by
          simp [to_float, r32_zero hA]
        unfold measured_twist
        rw [hd, ← h1, hA.acos_one, e0]
        simp only [isnan, Bool.false_eq_true, if_false]
        split_ifs
        · exact ⟨true, rfl⟩
        · exact ⟨false, rfl⟩
      · exact measured_twist_outside hA n e lt (by rw [hd]; exact h1)

/-! ## The twist loop in IEEE arithmetic -/

theorem rd_row_nat (a : List Row) (k : ℕ) : rd a (k : Int) = a[k]? := by
  simp [rd]

theorem rd_row_nat_pred (a : List Row) (k : ℕ) (hk : 1 ≤ k) :
    rd a ((k : Int) - 1) = a[k - 1]? := by
  have h : ((k : Int) - 1) = ((k - 1 : ℕ) : Int) := by omega
  rw [h, rd_row_nat]

/-- The loop of `smooth_twist` entered at `k` with `d` rows left returns; it
leaves the tangents, the end normal and the rows of `normals` below `k` as
they are, and turns each row `j ≥ k` about tangent `j` by the eased angle. -/
theorem twist_loop_rows (A : Arith) (N : ℕ) (twist delta : Fl) :
    ∀ (d k : ℕ) (m : Bufs), k + d = N → m.tangents.length = N → m.normals.length = N →
      ∃ out, twist_loop A (N : Int) twist delta (k : Int) m = some out ∧
        out.tangents = m.tangents ∧ out.n_end = m.n_end ∧ out.normals.length = N ∧
        (∀ j, j < k → out.normals[j]? = m.normals[j]?) ∧
        (∀ j, k ≤ j → j < N → ∃ t v, m.tangents[j]? = some t ∧ m.normals[j]? = some v ∧
          out.normals[j]? = some (_rotate_around A t
            (to_float A (A.cos
              (delta_to_angle A twist (fmul A.r32 (of_int A.r32 (j : Int)) delta))))
            (to_float A (A.sin
              (delta_to_angle A twist (fmul A.r32 (of_int A.r32 (j : Int)) delta)))) v)) := by
  intro d
  induction d with
  | zero =>
    intro k m hk _ hlen
    have hkN : k = N := by omega
    subst hkN
    refine ⟨m, ?_, rfl, rfl, hlen, fun j _ => rfl, fun j h1 h2 => absurd h2 (by omega)⟩
    rw [twist_loop]; simp
  | succ d ih =>
    intro k m hk htl hnl
    have hkN : k < N := by omega
    obtain ⟨t, ht⟩ : ∃ t, m.tangents[k]? = some t :=
      ⟨m.tangents[k], List.getElem?_eq_getElem (by omega)⟩
    obtain ⟨v, hv⟩ : ∃ v, m.normals[k]? = some v :=
      ⟨m.normals[k], List.getElem?_eq_getElem (by omega)⟩
    obtain ⟨out, hout, hot, hoe, holen, hlow, hhigh⟩ :=
      ih (k + 1) { m with normals := m.normals.set k (_rotate_around A t
            (to_float A (A.cos
              (delta_to_angle A twist (fmul A.r32 (of_int A.r32 (k : Int)) delta))))
            (to_float A (A.sin
              (delta_to_angle A twist (fmul A.r32 (of_int A.r32 (k : Int)) delta)))) v) }
        (by omega) htl (by simpa using hnl)
    refine ⟨out, ?_, hot, hoe, holen, ?_, ?_⟩
    · rw [twist_loop]
      have hne : ¬ ((k : Int) = (N : Int)) := by omega
      have hlt : (k : Int) < (m.tangents.length : Int) := by omega
      rw [if_neg hne, dif_pos hlt, rd_row_nat, rd_row_nat, ht, hv]
      simp only [Int.toNat_ofNat]
      have hc : ((k : Int) + 1) = ((k + 1 : ℕ) : Int) := by push_cast; rfl
      rw [hc]; exact hout
    · intro j hj
      rw [hlow j (by omega)]
      simp only []
      rw [List.getElem?_set_ne (by omega)]
    · intro j hj1 hj2
      rcases Nat.eq_or_lt_of_le hj1 with hjk | hjk
      · subst hjk
        refine ⟨t, v, ht, hv, ?_⟩
        rw [hlow k (by omega)]
        simp [List.getElem?_set, hnl, hkN]
      · obtain ⟨t2, v2, h1, h2, h3⟩ := hhigh j (by omega) hj2
        refine ⟨t2, v2, h1, ?_, h3⟩
        simp only [] at h2
        rw [List.getElem?_set_ne (by omega)] at h2
        exact h2

/-- On a path of `N ≥ 1` points with `N` normals `smooth_twist` returns; row 0
and the other two buffers are kept and each row `j ≥ 1` is turned about
tangent `j` by the eased angle of the measured twist. -/
theorem smooth_twist_rows (A : Arith) (m : Bufs) (N : ℕ) (h1 : 1 ≤ N)
    (htl : m.tangents.length = N) (hnl : m.normals.length = N) :
    ∃ n lt out, m.normals[N - 1]? = some n ∧ m.tangents[N - 1]? = some lt ∧
      smooth_twist A m (N : Int) = some out ∧
      out.tangents = m.tangents ∧ out.n_end = m.n_end ∧ out.normals.length = N ∧
      out.normals[0]? = m.normals[0]? ∧
      (∀ j, 1 ≤ j → j < N → ∃ t v, m.tangents[j]? = some t ∧ m.normals[j]? = some v ∧
        out.normals[j]? = some (_rotate_around A t
          (to_float A (A.cos (delta_to_angle A (measured_twist A n m.n_end lt)
            (fmul A.r32 (of_int A.r32 (j : Int))
              (to_float A (fdiv A.r64 (.num false 1) (of_int A.r64 ((N : Int) - 1))))))))
          (to_float A (A.sin (delta_to_angle A (measured_twist A n m.n_end lt)
            (fmul A.r32 (of_int A.r32 (j : Int))
              (to_float A (fdiv A.r64 (.num false 1) (of_int A.r64 ((N : Int) - 1)))))))) v)) := by
  obtain ⟨n, hn⟩ : ∃ n, m.normals[N - 1]? = some n :=
    ⟨m.normals[N - 1], List.getElem?_eq_getElem (by omega)⟩
  obtain ⟨lt, hlt⟩ : ∃ lt, m.tangents[N - 1]? = some lt :=
    ⟨m.tangents[N - 1], List.getElem?_eq_getElem (by omega)⟩
  obtain ⟨out, hout, hot, hoe, holen, hlow, hhigh⟩ :=
    twist_loop_rows A N (measured_twist A n m.n_end lt)
      (to_float A (fdiv A.r64 (.num false 1) (of_int A.r64 ((N : Int) - 1))))
      (N - 1) 1 m (by omega) htl hnl
  refine ⟨n, lt, out, hn, hlt, ?_, hot, hoe, holen, hlow 0 (by omega), hhigh⟩
  rw [smooth_twist, rd_row_nat_pred _ _ h1, rd_row_nat_pred _ _ h1, hn, hlt]
  simpa using hout

theorem kept_refl (u : Fl) : Fl.kept u u := Or.inl rfl

theorem row_kept_refl (v : Row) : Row.kept v v := ⟨kept_refl _, kept_refl _, kept_refl _⟩

/-- A call whose measured twist is a zero returns; the tangents and the end
normal are as they were and every entry of `normals` is kept: it is unchanged,
or it was the negative zero and is now the positive zero. -/
theorem smooth_twist_zero_twist_kept {A : Arith} (hA : A.Lawful) (m : Bufs) (n lt : Row)
    (b : Bool) (h1 : 1 ≤ m.tangents.length) (hint : m.tangents.length < 2 ^ 31)
    (hnl : m.normals.length = m.tangents.length)
    (htan : ∀ (j : ℕ) (t : Row), 1 ≤ j → m.tangents[j]? = some t → t.squares_finite A)
    (hnor : ∀ (j : ℕ) (v : Row), 1 ≤ j → m.normals[j]? = some v → v.finite_floats A)
    (hn : m.normals[m.tangents.length - 1]? = some n)
    (hlt : m.tangents[m.tangents.length - 1]? = some lt)
    (h0 : measured_twist A n m.n_end lt = .num b 0) :
    ∃ out, smooth_twist A m (m.tangents.length : Int) = some out ∧
      out.tangents = m.tangents ∧ out.n_end = m.n_end ∧
      out.normals.length = m.normals.length ∧
      (∀ (j : ℕ) (v : Row), m.normals[j]? = some v → ∃ w, out.normals[j]? = some w ∧ Row.kept v w) ∧
      ((∀ (j : ℕ) (v : Row), 1 ≤ j → m.normals[j]? = some v → v.no_neg_zero) → out = m) := by
  obtain ⟨n1, lt1, out, hn1, hlt1, hout, hot, hoe, holen, hz, hrow⟩ :=
    smooth_twist_rows A m m.tangents.length h1 rfl hnl
  rw [hn] at hn1
  rw [hlt] at hlt1
  obtain rfl := Option.some.inj hn1
  obtain rfl := Option.some.inj hlt1
  have hturn : ∀ j, 1 ≤ j → j < m.tangents.length → ∃ v w, m.normals[j]? = some v ∧
      out.normals[j]? = some w ∧ Row.kept v w := by
    intro j hj1 hj2
    obtain ⟨t, v, ht, hv, hres⟩ := hrow j hj1 hj2
    obtain ⟨s, a, hf⟩ := fraction_num hA j m.tangents.length hj1 (by omega)
    refine ⟨v, _, hv, hres, ?_⟩
    rw [h0, hf, delta_to_angle_of_zero_twist hA, hA.cos_zero, hA.sin_zero]
    have e1 : to_float A (.num false 1) = .num false 1 := by simp [to_float, r32_one hA]
    have e0 : to_float A (.num b 0) = .num b 0 := by simp [to_float, r32_zero hA]
    rw [e1, e0]
    exact rotate_around_zero_angle hA t v b (htan j t hj1 ht) (hnor j v hj1 hv)
  refine ⟨out, hout, hot, hoe, by rw [holen, hnl], ?_, ?_⟩
  · intro j v hv
    rcases Nat.eq_zero_or_pos j with hj0 | hj0
    · subst hj0
      exact ⟨v, by rw [hz, hv], row_kept_refl v⟩
    · have hj2 : j < m.tangents.length := by
        have := (List.getElem?_eq_some_iff.mp hv).1
        omega
      obtain ⟨v1, w, hv1, hw, hk⟩ := hturn j hj0 hj2
      rw [hv] at hv1
      obtain rfl := Option.some.inj hv1
      exact ⟨w, hw, hk⟩
  · intro hzero
    have hnormals : out.normals = m.normals := by
      apply List.ext_getElem?
      intro j
      by_cases hj : j < m.tangents.length
      · rcases Nat.eq_zero_or_pos j with hj0 | hj0
        · subst hj0; exact hz
        · obtain ⟨v, w, hv, hw, hk⟩ := hturn j hj0 hj
          rw [hw, hv, row_kept_eq v w hk (hzero j v hj0 hv)]
      · rw [List.getElem?_eq_none (by omega), List.getElem?_eq_none (by omega)]
    cases out
    cases m
    simp_all

/-! ## The arithmetic `wide` is lawful -/

theorem wide_round_mono (e : ℕ) : Monotone (wide_round e) := by
  intro a b hab
  unfold wide_round
  by_cases hb : b < 2 ^ e
  · rw [if_pos (lt_of_le_of_lt hab hb), if_pos hb]
    exact hab
  · rw [if_neg hb]
    exact le_top

theorem wide_round_top (e : ℕ) : wide_round e ⊤ = ⊤ := by
  simp [wide_round]

theorem wide_round_nat (e p k : ℕ) (hpe : p < e) (hk : k ≤ 2 ^ p) :
    wide_round e (k : ENNReal) = (k : ENNReal) := by
  have h1 : k < 2 ^ e := lt_of_le_of_lt hk (Nat.pow_lt_pow_right (by norm_num) hpe)
  have h2 : ((k : ℕ) : ENNReal) < ((2 ^ e : ℕ) : ENNReal) := Nat.cast_lt.mpr h1
  rw [Nat.cast_pow, Nat.cast_ofNat] at h2
  exact if_pos h2

theorem wide_round_finite (e p : ℕ) (hpe : p < e) (a : ENNReal) (ha : a ≤ 2 ^ p) :
    wide_round e a ≠ ⊤ := by
  have h1 : (2 : ENNReal) ^ p < 2 ^ e := by
    have h2 : (((2 ^ p : ℕ)) : ENNReal) < ((2 ^ e : ℕ) : ENNReal) :=
      Nat.cast_lt.mpr (Nat.pow_lt_pow_right (by norm_num) hpe)
    rwa [Nat.cast_pow, Nat.cast_pow, Nat.cast_ofNat] at h2
  have h3 : a < 2 ^ e := lt_of_le_of_lt ha h1
  rw [wide_round, if_pos h3]
  exact ne_top_of_lt h3

theorem wide_round_overflow (e : ℕ) (a : ENNReal) (ha : 2 ^ e ≤ a) : wide_round e a = ⊤ :=
  if_neg (not_lt.mpr ha)

/-- The arithmetic `wide` meets every law. -/
theorem wide_lawful : wide.Lawful :=
  { r32_mono := wide_round_mono 128
    r64_mono := wide_round_mono 1024
    r32_top := wide_round_top 128
    r64_top := wide_round_top 1024
    r32_nat := fun k hk => wide_round_nat 128 24 k (by norm_num) hk
    r64_nat := fun k hk => wide_round_nat 1024 53 k (by norm_num) hk
    r32_finite := wide_round_finite 128 127 (by norm_num)
    r64_finite := wide_round_finite 1024 1023 (by norm_num)
    r32_overflow := wide_round_overflow 128
    r64_overflow := wide_round_overflow 1024
    acos_nan := rfl
    acos_outside := fun s a h => by simp [wide, h]
    acos_one := by simp [wide, to_real, of_real]
    cos_zero := fun s => by cases s <;> simp [wide, to_real, of_real]
    sin_zero := fun s => by cases s <;> simp [wide, to_real, of_real]
    exp_num := fun s a => by
      by_cases h : a = ⊤
      · cases s <;> simp [wide, h]
      · exact ⟨ENNReal.ofReal (Real.exp (to_real s a)), by simp [wide, h]⟩ }

/-! ## Overflow in `_rotate_around` -/

/-- With cosine 1 and sine a zero, a tangent whose first component has
magnitude `2^64` or more makes the first component of the result
not-a-number: `n[0] * n[0]` overflows to an infinity and
`n[0] * n[0] * c1` is infinity times zero. -/
theorem rotate_around_overflow {A : Arith} (hA : A.Lawful) (t v : Row) (b s : Bool)
    (a : ENNReal) (hx : t.x = .num s a) (ha : 2 ^ 64 ≤ a) :
    (_rotate_around A t (.num false 1) (.num b 0) v).x = .nan := by
  have hsq : A.r32 (a * a) = ⊤ := by
    apply hA.r32_overflow
    calc (2 : ENNReal) ^ 128 = 2 ^ 64 * 2 ^ 64 := by rw [← pow_add]
      _ ≤ a * a := mul_le_mul' ha ha
  have ha0 : a ≠ 0 := by
    intro h
    rw [h] at ha
    exact absurd ha (by simp)
  have hprod : fmul A.r32 (fmul A.r32 t.x t.x) (.num false 0) = .nan := by
    rw [hx]
    simp [fmul, ha0, hsq]
  unfold _rotate_around
  simp only [one_minus_one hA, hprod]
  simp [fadd, fmul]

/-! ## Small rows in a lawful arithmetic -/

theorem r32_two {A : Arith} (hA : A.Lawful) : A.r32 2 = 2 := by
  simpa using hA.r32_nat 2 (by norm_num)

theorem r32_six {A : Arith} (hA : A.Lawful) : A.r32 6 = 6 := by
  simpa using hA.r32_nat 6 (by norm_num)

/-- The unit tangent along x has squares that do not overflow. -/
theorem unit_x_squares_finite {A : Arith} (hA : A.Lawful) :
    Row.squares_finite A ⟨.num false 1, .num false 0, .num false 0⟩ := by
  simp [Row.squares_finite, fmul, Fl.finite, r32_one hA, r32_zero hA]

theorem unit_y_finite_floats {A : Arith} (hA : A.Lawful) :
    Row.finite_floats A ⟨.num false 0, .num false 1, .num false 0⟩ := by
  simp [Row.finite_floats, is_finite_float, r32_one hA, r32_zero hA]

theorem two_y_finite_floats {A : Arith} (hA : A.Lawful) :
    Row.finite_floats A ⟨.num false 0, .num false 2, .num false 0⟩ := by
  simp [Row.finite_floats, is_finite_float, r32_two hA, r32_zero hA]

/-- The computed dot product of `(0, 2, 0)` and `(0, -3, 0)` is `-6`. -/
theorem inner_two_minus_three {A : Arith} (hA : A.Lawful) :
    inner A ⟨.num false 0, .num false 2, .num false 0⟩ ⟨.num false 0, .num true 3, .num false 0⟩
      = .num true 6 := by
  have h6 : (2 : ENNReal) * 3 = 6 := by norm_num
  simp [inner, fmul, fadd, r32_zero hA, r32_six hA, h6]

/-- The computed dot product of `(0, 1, 0)` with itself is `1`. -/
theorem inner_unit_y {A : Arith} (hA : A.Lawful) :
    inner A ⟨.num false 0, .num false 1, .num false 0⟩ ⟨.num false 0, .num false 1, .num false 0⟩
      = .num false 1 := by
  simp [inner, fmul, fadd, r32_zero hA, r32_one hA]

/-- A property of row 1 is a property of every row `j ≥ 1` of a two-row array. -/
theorem rows_from_one (P : Row → Prop) (r0 r1 : Row) (h : P r1) :
    ∀ (j : ℕ) (t : Row), 1 ≤ j → [r0, r1][j]? = some t → P t := by
  intro j t hj ht
  rcases j with _ | _ | j
  · omega
  · simp at ht
    rw [← ht]
    exact h
  · simp at ht

/-! ## Claims on "no correction" -/

/-- On a two-point path whose measured twist is a zero and whose last tangent
has a first component of magnitude `2^64` or more, the call returns and the
entry `normals[1][0]` is not-a-number after it, in every lawful arithmetic. -/
theorem two_point_overflow {A : Arith} (hA : A.Lawful) (t0 t1 n0 n1 e : Row) (b s : Bool)
    (a : ENNReal) (hx : t1.x = .num s a) (ha : 2 ^ 64 ≤ a)
    (h0 : measured_twist A n1 e t1 = .num b 0) :
    ∃ out w, smooth_twist A ⟨[t0, t1], [n0, n1], e⟩ 2 = some out ∧
      out.normals[1]? = some w ∧ w.x = .nan := by
  obtain ⟨n, lt, out, hn, hlt, hout, _, _, _, _, hrow⟩ :=
    smooth_twist_rows A ⟨[t0, t1], [n0, n1], e⟩ 2 (by norm_num) rfl rfl
  obtain ⟨t, v, ht, hv, hres⟩ := hrow 1 (le_refl 1) (by norm_num)
  have hn1 : n = n1 := by simpa using hn.symm
  have hlt1 : lt = t1 := by simpa using hlt.symm
  have ht1 : t = t1 := by simpa using ht.symm
  obtain ⟨s1, a1, hf⟩ := fraction_num hA 1 2 (le_refl 1) (by norm_num)
  have e1 : to_float A (.num false 1) = .num false 1 := by
    simp [to_float, r32_one hA]
  have e0 : to_float A (.num b 0) = .num b 0 := by
    simp [to_float, r32_zero hA]
  simp only [] at hres
  rw [hn1, hlt1, h0, hf, delta_to_angle_of_zero_twist hA, hA.cos_zero, hA.sin_zero, e1, e0]
    at hres
  refine ⟨out, _, by simpa using hout, hres, ?_⟩
  apply rotate_around_overflow hA t v b s a
  · rw [ht1, hx]
  · exact ha

/-- The hypothesis on the tangents is needed for an aligned unit end normal
too: with `normals[1] = end_normal = (0, 1, 0)` and the last tangent
`(2^70, 0, 0)` the computed dot product is 1, the twist is 0, and the entry
`normals[1][0]` is not-a-number after the call. -/
theorem aligned_unit_normal_overflow {A : Arith} (hA : A.Lawful) (t0 n0 : Row) :
    ∃ out w, smooth_twist A
        ⟨[t0, ⟨.num false (2 ^ 70), .num false 0, .num false 0⟩],
         [n0, ⟨.num false 0, .num false 1, .num false 0⟩],
         ⟨.num false 0, .num false 1, .num false 0⟩⟩ 2 = some out ∧
      out.normals[1]? = some w ∧ w.x = .nan := by
  obtain ⟨b, h0⟩ := measured_twist_at_least_one hA
    ⟨.num false 0, .num false 1, .num false 0⟩ ⟨.num false 0, .num false 1, .num false 0⟩
    ⟨.num false (2 ^ 70), .num false 0, .num false 0⟩
    (by rw [inner_unit_y hA]; exact le_refl (1 : ENNReal))
  exact two_point_overflow hA _ _ _ _ _ b false (2 ^ 70) rfl
    (pow_le_pow_right₀ (by norm_num) (by norm_num)) h0

/-- The sign of a zero is not always kept: turning `(-0, 1, 0)` about
`(1, 0, 0)` with cosine 1 and sine `+0` gives a first component `+0`. -/
theorem negative_zero_becomes_positive {A : Arith} (hA : A.Lawful) :
    (_rotate_around A ⟨.num false 1, .num false 0, .num false 0⟩ (.num false 1) (.num false 0)
      ⟨.num true 0, .num false 1, .num false 0⟩).x = .num false 0 := by
  unfold _rotate_around
  simp only [one_minus_one hA]
  simp [fmul, fadd, fsub, fneg, r32_zero hA, r32_one hA]

/-- C12, as stated, fails: on the two-point path with tangents `(1, 0, 0)`,
`(2^70, 0, 0)`, normals `(0, 1, 0)`, `(0, 2, 0)` and end normal `(0, -3, 0)` the
computed dot product is `-6`, outside `[-1, 1]`, and the twist is set to 0; yet
`_rotate_around` forms `n[0] * n[0] * c1`, infinity times zero, and the entry
`normals[1][0]`, which was `0`, is not-a-number after the call.  (Evaluated in
the arithmetic `wide`; every value met on this input except the overflowing
square is exact in binary32 as well.) -/
theorem C12_counterexample :
    (inner wide ⟨.num false 0, .num false 2, .num false 0⟩
      ⟨.num false 0, .num true 3, .num false 0⟩).outside_unit ∧
    ∃ out w, smooth_twist wide
        ⟨[⟨.num false 1, .num false 0, .num false 0⟩,
          ⟨.num false (2 ^ 70), .num false 0, .num false 0⟩],
         [⟨.num false 0, .num false 1, .num false 0⟩,
          ⟨.num false 0, .num false 2, .num false 0⟩],
         ⟨.num false 0, .num true 3, .num false 0⟩⟩ 2 = some out ∧
      out.normals[1]? = some w ∧ w.x = .nan := by
  have hdot : (inner wide ⟨.num false 0, .num false 2, .num false 0⟩
      ⟨.num false 0, .num true 3, .num false 0⟩).outside_unit := by
    rw [inner_two_minus_three wide_lawful]
    show (1 : ENNReal) < 6
    norm_num
  obtain ⟨b, h0⟩ := measured_twist_outside wide_lawful
    ⟨.num false 0, .num false 2, .num false 0⟩ ⟨.num false 0, .num true 3, .num false 0⟩
    ⟨.num false (2 ^ 70), .num false 0, .num false 0⟩ hdot
  exact ⟨hdot, two_point_overflow wide_lawful _ _ _ _ _ b false (2 ^ 70) rfl
    (pow_le_pow_right₀ (by norm_num) (by norm_num)) h0⟩

/-- C12, amended: in every lawful arithmetic, on a path of `2 ≤ N < 2^31`
points whose tangent rows `1 .. N-1` have squares that do not overflow and
whose normal rows `1 .. N-1` are finite floats, when the dot product of
`normals[N-1]` and `end_normal` as the code computes it lies outside
`[-1, 1]`, `smooth_twist` returns, leaves the tangents and the end normal as
they are and keeps every entry of `normals` (an entry is unchanged, or it was
`-0` and is now `+0`); when no entry of the rows `1 .. N-1` is `-0` all three
buffers are exactly as they were.  Nothing is assumed of the sign test. -/
theorem C12_undefined_twist_keeps_normals (A : Arith) (hA : A.Lawful) (m : Bufs) (n : Row)
    (h2 : 2 ≤ m.tangents.length) (hint : m.tangents.length < 2 ^ 31)
    (hnl : m.normals.length = m.tangents.length)
    (htan : ∀ (j : ℕ) (t : Row), 1 ≤ j → m.tangents[j]? = some t → t.squares_finite A)
    (hnor : ∀ (j : ℕ) (v : Row), 1 ≤ j → m.normals[j]? = some v → v.finite_floats A)
    (hn : m.normals[m.tangents.length - 1]? = some n)
    (hdot : (inner A n m.n_end).outside_unit) :
    ∃ out, smooth_twist A m (m.tangents.length : Int) = some out ∧
      out.tangents = m.tangents ∧ out.n_end = m.n_end ∧
      out.normals.length = m.normals.length ∧
      (∀ (j : ℕ) (v : Row), m.normals[j]? = some v →
        ∃ w, out.normals[j]? = some w ∧ Row.kept v w) ∧
      ((∀ (j : ℕ) (v : Row), 1 ≤ j → m.normals[j]? = some v → v.no_neg_zero) → out = m) := by
  obtain ⟨lt, hlt⟩ : ∃ lt, m.tangents[m.tangents.length - 1]? = some lt :=
    ⟨m.tangents[m.tangents.length - 1], List.getElem?_eq_getElem (by omega)⟩
  obtain ⟨b, h0⟩ := measured_twist_outside hA n m.n_end lt hdot
  exact smooth_twist_zero_twist_kept hA m n lt b (by omega) hint hnl htan hnor hn hlt h0

theorem C12_undefined_twist_keeps_normals_witness :
    ∃ out, smooth_twist wide
        ⟨[⟨.num false 1, .num false 0, .num false 0⟩, ⟨.num false 1, .num false 0, .num false 0⟩],
         [⟨.num false 0, .num false 1, .num false 0⟩, ⟨.num false 0, .num false 2, .num false 0⟩],
         ⟨.num false 0, .num true 3, .num false 0⟩⟩
        (([⟨.num false 1, .num false 0, .num false 0⟩,
           ⟨.num false 1, .num false 0, .num false 0⟩] : List Row).length : Int) = some out ∧
      out.tangents = [⟨.num false 1, .num false 0, .num false 0⟩,
        ⟨.num false 1, .num false 0, .num false 0⟩] ∧
      out.n_end = ⟨.num false 0, .num true 3, .num false 0⟩ ∧
      out.normals.length = ([⟨.num false 0, .num false 1, .num false 0⟩,
        ⟨.num false 0, .num false 2, .num false 0⟩] : List Row).length ∧
      (∀ (j : ℕ) (v : Row), ([⟨.num false 0, .num false 1, .num false 0⟩,
          ⟨.num false 0, .num false 2, .num false 0⟩] : List Row)[j]? = some v →
        ∃ w, out.normals[j]? = some w ∧ Row.kept v w) ∧
      ((∀ (j : ℕ) (v : Row), 1 ≤ j → ([⟨.num false 0, .num false 1, .num false 0⟩,
          ⟨.num false 0, .num false 2, .num false 0⟩] : List Row)[j]? = some v →
          v.no_neg_zero) →
        out = ⟨[⟨.num false 1, .num false 0, .num false 0⟩,
                ⟨.num false 1, .num false 0, .num false 0⟩],
               [⟨.num false 0, .num false 1, .num false 0⟩,
                ⟨.num false 0, .num false 2, .num false 0⟩],
               ⟨.num false 0, .num true 3, .num false 0⟩⟩) :=
  C12_undefined_twist_keeps_normals wide wide_lawful
    ⟨[⟨.num false 1, .num false 0, .num false 0⟩, ⟨.num false 1, .num false 0, .num false 0⟩],
     [⟨.num false 0, .num false 1, .num false 0⟩, ⟨.num false 0, .num false 2, .num false 0⟩],
     ⟨.num false 0, .num true 3, .num false 0⟩⟩
    ⟨.num false 0, .num false 2, .num false 0⟩
    (by simp) (by simp) (by simp)
    (rows_from_one _ _ _ (unit_x_squares_finite wide_lawful))
    (rows_from_one _ _ _ (two_y_finite_floats wide_lawful))
    (by simp)
    (by
      rw [inner_two_minus_three wide_lawful]
      show (1 : ENNReal) < 6
      norm_num)

/-- C5, amended: in every lawful arithmetic, on a path of `2 ≤ N < 2^31`
points whose tangent rows `1 .. N-1` have squares that do not overflow and
whose normal rows `1 .. N-1` are finite floats, when `end_normal` equals
`normals[N-1]` and the dot product of that vector with itself as the code
computes it is at least 1, `smooth_twist` returns, leaves the tangents and
the end normal as they are and keeps every entry of `normals` (an entry is
unchanged, or it was `-0` and is now `+0`); when no entry of the rows
`1 .. N-1` is `-0` all three buffers are exactly as they were. -/
theorem C5_aligned_end_keeps_normals (A : Arith) (hA : A.Lawful) (m : Bufs)
    (h2 : 2 ≤ m.tangents.length) (hint : m.tangents.length < 2 ^ 31)
    (hnl : m.normals.length = m.tangents.length)
    (htan : ∀ (j : ℕ) (t : Row), 1 ≤ j → m.tangents[j]? = some t → t.squares_finite A)
    (hnor : ∀ (j : ℕ) (v : Row), 1 ≤ j → m.normals[j]? = some v → v.finite_floats A)
    (hlast : m.normals[m.tangents.length - 1]? = some m.n_end)
    (hdot : (inner A m.n_end m.n_end).at_least_one) :
    ∃ out, smooth_twist A m (m.tangents.length : Int) = some out ∧
      out.tangents = m.tangents ∧ out.n_end = m.n_end ∧
      out.normals.length = m.normals.length ∧
      (∀ (j : ℕ) (v : Row), m.normals[j]? = some v →
        ∃ w, out.normals[j]? = some w ∧ Row.kept v w) ∧
      ((∀ (j : ℕ) (v : Row), 1 ≤ j → m.normals[j]? = some v → v.no_neg_zero) → out = m) := by
  obtain ⟨lt, hlt⟩ : ∃ lt, m.tangents[m.tangents.length - 1]? = some lt :=
    ⟨m.tangents[m.tangents.length - 1], List.getElem?_eq_getElem (by omega)⟩
  obtain ⟨b, h0⟩ := measured_twist_at_least_one hA m.n_end m.n_end lt hdot
  exact smooth_twist_zero_twist_kept hA m m.n_end lt b (by omega) hint hnl htan hnor hlast hlt h0

theorem C5_aligned_end_keeps_normals_witness :
    ∃ out, smooth_twist wide
        ⟨[⟨.num false 1, .num false 0, .num false 0⟩, ⟨.num false 1, .num false 0, .num false 0⟩],
         [⟨.num false 0, .num false 2, .num false 0⟩, ⟨.num false 0, .num false 1, .num false 0⟩],
         ⟨.num false 0, .num false 1, .num false 0⟩⟩
        (([⟨.num false 1, .num false 0, .num false 0⟩,
           ⟨.num false 1, .num false 0, .num false 0⟩] : List Row).length : Int) = some out ∧
      out.tangents = [⟨.num false 1, .num false 0, .num false 0⟩,
        ⟨.num false 1, .num false 0, .num false 0⟩] ∧
      out.n_end = ⟨.num false 0, .num false 1, .num false 0⟩ ∧
      out.normals.length = ([⟨.num false 0, .num false 2, .num false 0⟩,
        ⟨.num false 0, .num false 1, .num false 0⟩] : List Row).length ∧
      (∀ (j : ℕ) (v : Row), ([⟨.num false 0, .num false 2, .num false 0⟩,
          ⟨.num false 0, .num false 1, .num false 0⟩] : List Row)[j]? = some v →
        ∃ w, out.normals[j]? = some w ∧ Row.kept v w) ∧
      ((∀ (j : ℕ) (v : Row), 1 ≤ j → ([⟨.num false 0, .num false 2, .num false 0⟩,
          ⟨.num false 0, .num false 1, .num false 0⟩] : List Row)[j]? = some v →
          v.no_neg_zero) →
        out = ⟨[⟨.num false 1, .num false 0, .num false 0⟩,
                ⟨.num false 1, .num false 0, .num false 0⟩],
               [⟨.num false 0, .num false 2, .num false 0⟩,
                ⟨.num false 0, .num false 1, .num false 0⟩],
               ⟨.num false 0, .num false 1, .num false 0⟩⟩) :=
  C5_aligned_end_keeps_normals wide wide_lawful
    ⟨[⟨.num false 1, .num false 0, .num false 0⟩, ⟨.num false 1, .num false 0, .num false 0⟩],
     [⟨.num false 0, .num false 2, .num false 0⟩, ⟨.num false 0, .num false 1, .num false 0⟩],
     ⟨.num false 0, .num false 1, .num false 0⟩⟩
    (by simp) (by simp) (by simp)
    (rows_from_one _ _ _ (unit_x_squares_finite wide_lawful))
    (rows_from_one _ _ _ (unit_y_finite_floats wide_lawful))
    (by simp)
    (by
      rw [inner_unit_y wide_lawful]
      exact le_refl (1 : ENNReal))

end RibbonFloat
